import Mathlib

/-!
# City-population cache: LFU, FIFO and Random replacement strategies

A shallow embedding of `FINALMILE222.cpp`.

* `std::string` is a list of byte values.
* `std::unordered_map<string, T>` is an association list; the list order
  stands for the (unspecified) iteration order of the hash table.
* `int` arithmetic that overflows is undefined behaviour in C++; the
  operations return `none` there.
* Populations (`double`) are never inspected by the caches, they are an
  arbitrary payload type `V`.
* The backing file is its content, or `none` when it cannot be opened;
  `ifstream` and `stringstream` are streams read with `std::getline`, and the
  library function `std::stod` is a parameter.
* The body of the loop of `main` is the function `lookup`, over a sum of the
  three strategies.
-/

namespace CityCache

/-- A `std::string`, as the list of its byte values. -/
abbrev string := List Nat

/-- The empty string `""`, the value of a default-constructed `std::string`. -/
def emptyString : string := []

/-- ASCII text as a byte string (for writing examples). -/
def lit (s : String) : string := s.toList.map Char.toNat

/-- Largest value of a 32-bit `int`. -/
def INT_MAX : Int := 2147483647

/-- The increment `x++` of an `int`; signed overflow is undefined behaviour. -/
def incr (x : Int) : Option Int :=
  if x < INT_MAX then some (x + 1) else none

/-- The test `cacheMap.size() == capacity`: a `size_t` compared with an `int`,
so the `int` is first converted to the unsigned 64-bit type. -/
def sizeEqCapacity (size : Nat) (capacity : Int) : Bool :=
  decide ((size : Int) = capacity % 18446744073709551616)

/-! ## `std::unordered_map` -/

/-- A `std::unordered_map<string, T>`: key/value pairs in iteration order. -/
abbrev unordered_map (T : Type) := List (string × T)

namespace unordered_map

variable {T : Type}

/-- The lookup `m.find(key)`: the mapped value, or `none` for `m.end()`. -/
def find : unordered_map T → string → Option T
  | [], _ => none
  | (k, x) :: rest, key => if k = key then some x else find rest key

/-- The membership test `m.count(key)`, which is 0 or 1. -/
def count (m : unordered_map T) (key : string) : Nat :=
  if (find m key).isSome then 1 else 0

/-- The number of elements `m.size()`. -/
def size (m : unordered_map T) : Nat := m.length

/-- The removal `m.erase(key)`. -/
def erase : unordered_map T → string → unordered_map T
  | [], _ => []
  | (k, x) :: rest, key => if k = key then erase rest key else (k, x) :: erase rest key

/-- The assignment `m[key] = x`: overwrites the mapped value of a present key,
inserts a new element for an absent one. -/
def assign : unordered_map T → string → T → unordered_map T
  | [], key, x => [(key, x)]
  | (k, y) :: rest, key, x =>
    if k = key then (k, x) :: rest else (k, y) :: assign rest key x

/-- The keys of the map, in iteration order. -/
def keys (m : unordered_map T) : List string := m.map Prod.fst

end unordered_map

/-! ## FIFO strategy -/

/-- The data members of `class FIFOCache`; the head of `order` is the front of
the queue. No method of this class iterates over `cacheMap`, so the order of
the association list has no influence on what the methods do. -/
structure FIFOCache (V : Type) where
  capacity : Int
  order : List string
  cacheMap : unordered_map V

namespace FIFOCache

variable {V : Type}

/-- The constructor `FIFOCache(int cap)`. -/
def new (cap : Int) : FIFOCache V :=
  { capacity := cap, order := [], cacheMap := [] }

/-- The method `FIFOCache::get`: the state afterwards and the population found
(`none` when the method returns `false`). -/
def get (c : FIFOCache V) (key : string) : FIFOCache V × Option V :=
  match c.cacheMap.find key with
  | none => (c, none)
  | some population => (c, some population)

/-- The method `FIFOCache::put`. Calling `order.front()` on an empty queue is
undefined behaviour, modelled as `none`. -/
def put (c : FIFOCache V) (key : string) (population : V) : Option (FIFOCache V) :=
  if c.cacheMap.count key ≠ 0 then some c
  else if sizeEqCapacity c.cacheMap.size c.capacity then
    match c.order with
    | [] => none
    | oldest :: rest =>
      some { c with
        order := rest ++ [key]
        cacheMap := (c.cacheMap.erase oldest).assign key population }
  else
    some { c with
      order := c.order ++ [key]
      cacheMap := c.cacheMap.assign key population }

end FIFOCache

/-- A call made on a cache by its user. -/
inductive Op (V : Type) where
  | get (key : string)
  | put (key : string) (population : V)

namespace FIFOCache

variable {V : Type}

/-- One call on a FIFO cache. -/
def step (c : FIFOCache V) : Op V → Option (FIFOCache V)
  | .get key => some (c.get key).1
  | .put key population => c.put key population

/-- A sequence of calls, left to right. -/
def run (c : FIFOCache V) : List (Op V) → Option (FIFOCache V)
  | [] => some c
  | op :: ops => (c.step op).bind (fun c1 => run c1 ops)

end FIFOCache

/-! ## LFU strategy -/

/-- The record `LFUCache::CacheEntry`. -/
structure CacheEntry (V : Type) where
  key : string
  population : V
  freq : Int
  time : Int

/-- The data members of `class LFUCache`. -/
structure LFUCache (V : Type) where
  capacity : Int
  currentTime : Int
  cacheMap : unordered_map (CacheEntry V)

/-- The local variables `evictKey`, `minFreq`, `minTime` of the eviction loop. -/
structure EvictScan where
  evictKey : string
  minFreq : Int
  minTime : Int

namespace LFUCache

variable {V : Type}

/-- The constructor `LFUCache(int cap)`. -/
def new (cap : Int) : LFUCache V :=
  { capacity := cap, currentTime := 0, cacheMap := [] }

/-- The method `LFUCache::get`: the state afterwards and the population found
(`none` when the method returns `false`). The outer `none` is signed overflow
of `freq++` or `++currentTime`. -/
def get (c : LFUCache V) (key : string) : Option (LFUCache V × Option V) :=
  match c.cacheMap.find key with
  | none => some (c, none)
  | some entry =>
    (incr entry.freq).bind fun f =>
    (incr c.currentTime).bind fun t =>
    some ({ c with
            currentTime := t
            cacheMap := c.cacheMap.assign key { entry with freq := f, time := t } },
          some entry.population)

/-- The body of the eviction loop, for one element of the map. -/
def scanStep (acc : EvictScan) (p : string × CacheEntry V) : EvictScan :=
  if p.2.freq < acc.minFreq ∨ (p.2.freq = acc.minFreq ∧ p.2.time < acc.minTime) then
    { evictKey := p.1, minFreq := p.2.freq, minTime := p.2.time }
  else acc

/-- The eviction loop of `LFUCache::put`, over the map in iteration order. -/
def scan (m : unordered_map (CacheEntry V)) : EvictScan :=
  m.foldl scanStep { evictKey := emptyString, minFreq := INT_MAX, minTime := INT_MAX }

/-- The method `LFUCache::put`; `none` is signed overflow of `currentTime++`
or `freq++`. A present key (`cacheMap.count(key)` non-zero) is the case where
`find` succeeds. -/
def put (c : LFUCache V) (key : string) (population : V) : Option (LFUCache V) :=
  (incr c.currentTime).bind fun t =>
  match c.cacheMap.find key with
  | some entry =>
    (incr entry.freq).bind fun f =>
    some { c with
      currentTime := t
      cacheMap := c.cacheMap.assign key
        { entry with population := population, freq := f, time := t } }
  | none =>
    let m :=
      if sizeEqCapacity c.cacheMap.size c.capacity then
        c.cacheMap.erase (scan c.cacheMap).evictKey
      else c.cacheMap
    some { c with
      currentTime := t
      cacheMap := m.assign key
        { key := key, population := population, freq := 1, time := t } }

/-- One call on an LFU cache. -/
def step (c : LFUCache V) : Op V → Option (LFUCache V)
  | .get key => (c.get key).map Prod.fst
  | .put key population => c.put key population

/-- A sequence of calls, left to right, with the map iterated in the order
the association list happens to have. -/
def run (c : LFUCache V) : List (Op V) → Option (LFUCache V)
  | [] => some c
  | op :: ops => (c.step op).bind (fun c1 => run c1 ops)

/-- The states an LFU cache of capacity `cap` can be in after the calls `ops`,
whatever the iteration order of the hash table is at any moment: `rehash`
lets the table reorder its elements arbitrarily. -/
inductive Reaches (cap : Int) : List (Op V) → LFUCache V → Prop
  | init : Reaches cap [] (new cap)
  | call {ops : List (Op V)} {c c1 : LFUCache V} (op : Op V) :
      Reaches cap ops c → c.step op = some c1 → Reaches cap (ops ++ [op]) c1
  | rehash {ops : List (Op V)} {c : LFUCache V} (m : unordered_map (CacheEntry V)) :
      Reaches cap ops c → m.Perm c.cacheMap → Reaches cap ops { c with cacheMap := m }

end LFUCache

/-! ## Random strategy -/

/-- The data members of `class RandomCache`. The generator `rng` is not a
field: the index it yields is an argument of `put`. No method of this class
iterates over `cacheMap`, so the order of the association list has no
influence on what the methods do. -/
structure RandomCache (V : Type) where
  capacity : Int
  cacheMap : unordered_map V
  keys : List string

/-- A call made on a random-eviction cache; `idx` is the index the generator
draws if the call has to evict. -/
inductive DrawOp (V : Type) where
  | get (key : string)
  | put (key : string) (population : V) (idx : Nat)

namespace RandomCache

variable {V : Type}

/-- The constructor `RandomCache(int cap)`. -/
def new (cap : Int) : RandomCache V :=
  { capacity := cap, cacheMap := [], keys := [] }

/-- The method `RandomCache::get`: the state afterwards and the population
found (`none` when the method returns `false`). -/
def get (c : RandomCache V) (key : string) : RandomCache V × Option V :=
  match c.cacheMap.find key with
  | none => (c, none)
  | some population => (c, some population)

/-- The method `RandomCache::put`. The distribution `dist(0, keys.size() - 1)`
yields an index `idx` with `0 ≤ idx ≤ keys.size() - 1`; any other `idx` is not
a possible draw and gives `none` (so does an empty `keys`, where the
distribution has no value to yield). -/
def put (c : RandomCache V) (key : string) (population : V) (idx : Nat) :
    Option (RandomCache V) :=
  if c.cacheMap.count key ≠ 0 then some c
  else if sizeEqCapacity c.cacheMap.size c.capacity then
    match c.keys[idx]? with
    | none => none
    | some victim =>
      some { c with
        cacheMap := (c.cacheMap.erase victim).assign key population
        keys := c.keys.eraseIdx idx ++ [key] }
  else
    some { c with
      cacheMap := c.cacheMap.assign key population
      keys := c.keys ++ [key] }

/-- One call on a random-eviction cache. -/
def step (c : RandomCache V) : DrawOp V → Option (RandomCache V)
  | .get key => some (c.get key).1
  | .put key population idx => c.put key population idx

/-- A sequence of calls, left to right. -/
def run (c : RandomCache V) : List (DrawOp V) → Option (RandomCache V)
  | [] => some c
  | op :: ops => (c.step op).bind (fun c1 => run c1 ops)

end RandomCache

/-! ## Key normalizer -/

/-- The library function `::tolower` on a byte value, in the "C" locale (the
program never calls `setlocale`): the letters `A`-`Z` go to `a`-`z`. -/
def tolower (c : Nat) : Nat :=
  if 65 ≤ c ∧ c ≤ 90 then c + 32 else c

/-- The library function `::isspace` on a byte value, in the "C" locale: the
space and the control characters `\t`, `\n`, `\v`, `\f`, `\r` (9 to 13). -/
def isspace (c : Nat) : Bool :=
  decide (c = 32 ∨ (9 ≤ c ∧ c ≤ 13))

/-- The algorithm `std::transform(first, last, first, op)`, in place. -/
def transform (op : Nat → Nat) : string → string
  | [] => []
  | c :: rest => op c :: transform op rest

/-- The algorithm `std::find_if`: the position of the first element that
satisfies `p`, the length of the range if there is none. -/
def find_if (p : Nat → Bool) : string → Nat
  | [] => 0
  | c :: rest => if p c then 0 else find_if p rest + 1

/-- The loop of `std::remove_if`: position `i` scans the buffer and every
element that fails `p` is moved down to position `first`. The fuel bounds the
number of iterations by the length of the buffer. -/
def remove_if_loop (p : Nat → Bool) : Nat → string → Nat → Nat → string × Nat
  | 0, buf, first, _ => (buf, first)
  | fuel + 1, buf, first, i =>
    match buf[i]? with
    | none => (buf, first)
    | some c =>
      if p c then remove_if_loop p fuel buf first (i + 1)
      else remove_if_loop p fuel (buf.set first c) (first + 1) (i + 1)

/-- The algorithm `std::remove_if(first, last, p)`: the buffer afterwards and
the new logical end it returns. -/
def remove_if (p : Nat → Bool) (buf : string) : string × Nat :=
  if find_if p buf = buf.length then (buf, buf.length)
  else remove_if_loop p buf.length buf (find_if p buf) (find_if p buf + 1)

/-- The call `result.erase(newEnd, result.end())`. -/
def eraseToEnd (buf : string) (newEnd : Nat) : string :=
  buf.take newEnd

/-- The function `normalize`. -/
def normalize (s : string) : string :=
  let result := transform tolower s
  let removed := remove_if isspace result
  eraseToEnd removed.1 removed.2

/-- The whitespace characters the specification lists: space, tab, carriage
return, newline, vertical tab, form feed. -/
def specWhitespace : List Nat := [32, 9, 13, 10, 11, 12]

/-- The lowercase mapping the specification describes: `A`-`Z` go to the
letter at the same position in `a`-`z`, every other byte is unchanged. -/
def specLower (c : Nat) : Nat :=
  if 65 ≤ c ∧ c ≤ 90 then 97 + (c - 65) else c

/-- The canonical form as the specification words it: lowercase every
character, then delete the whitespace characters, keeping the order. -/
def normalizeSpec (s : string) : string :=
  (s.map specLower).filter (fun c => !decide (c ∈ specWhitespace))

/-! ## Representation invariants and ghost bookkeeping -/

/-- Ghost record of the call that admitted a key: its position in the
sequence of calls and the population it carried. -/
structure Admission (V : Type) where
  index : Nat
  population : V

namespace FIFOCache

variable {V : Type}

/-- Representation invariant of a FIFO cache built with capacity `cap`: the
queue has no repeated key, it lists exactly the keys of the map, and the map
holds at most `cap` elements. -/
structure WF (cap : Int) (c : FIFOCache V) : Prop where
  capacity_eq : c.capacity = cap
  nodup : c.order.Nodup
  lockstep : c.order.Perm c.cacheMap.keys
  size_le : (c.cacheMap.size : Int) ≤ cap

/-- Ghost bookkeeping along a sequence of calls that starts in state `c` as
call number `n`: for every key, the latest `put` of that key that found it
absent from the map, that is, the call that admitted it. -/
def admissions (c : FIFOCache V) (n : Nat) (adm : string → Option (Admission V)) :
    List (Op V) → string → Option (Admission V)
  | [] => adm
  | .get key :: ops => admissions (c.get key).1 (n + 1) adm ops
  | .put key population :: ops =>
    match c.put key population with
    | none => adm
    | some c1 =>
      admissions c1 (n + 1)
        (if c.cacheMap.count key = 0 then
          Function.update adm key (some { index := n, population := population })
        else adm) ops

/-- The position, in the calls `ops` made on a fresh cache, of the call that
admitted `key` (for a key that some call admitted). -/
def admittedAt (cap : Int) (ops : List (Op V)) (key : string) : Option Nat :=
  (admissions (new cap) 0 (fun _ => none) ops key).map Admission.index

/-- The population carried by the call that admitted `key`. -/
def admittedValue (cap : Int) (ops : List (Op V)) (key : string) : Option V :=
  (admissions (new cap) 0 (fun _ => none) ops key).map Admission.population

/-- Ghost invariant tying the admission record to the state: every cached key
was admitted by an earlier call carrying the cached population, and the queue
is in order of admission. -/
structure Ghost (cap : Int) (c : FIFOCache V) (n : Nat)
    (adm : string → Option (Admission V)) : Prop where
  wf : WF cap c
  cached : ∀ k x, c.cacheMap.find k = some x →
    ∃ i, i < n ∧ adm k = some { index := i, population := x }
  sorted : c.order.Pairwise (fun a b =>
    ∀ A B, adm a = some A → adm b = some B → A.index < B.index)

/-- Whether a call is a `put`. -/
def isPut : Op V → Bool
  | .get _ => false
  | .put _ _ => true

end FIFOCache

namespace RandomCache

variable {V : Type}

/-- Representation invariant of a random-eviction cache built with capacity
`cap`: the key list has no repeated key, it holds exactly the keys of the map,
and the map holds at most `cap` elements. -/
structure WF (cap : Int) (c : RandomCache V) : Prop where
  capacity_eq : c.capacity = cap
  nodup : c.keys.Nodup
  lockstep : c.keys.Perm c.cacheMap.keys
  size_le : (c.cacheMap.size : Int) ≤ cap

/-- Ghost bookkeeping along a sequence of calls that starts in state `c` as
call number `n`: for every key, the latest `put` of that key that found it
absent from the map, that is, the call that admitted it. -/
def admissions (c : RandomCache V) (n : Nat) (adm : string → Option (Admission V)) :
    List (DrawOp V) → string → Option (Admission V)
  | [] => adm
  | .get key :: ops => admissions (c.get key).1 (n + 1) adm ops
  | .put key population idx :: ops =>
    match c.put key population idx with
    | none => adm
    | some c1 =>
      admissions c1 (n + 1)
        (if c.cacheMap.count key = 0 then
          Function.update adm key (some { index := n, population := population })
        else adm) ops

/-- The population carried by the call that admitted `key`. -/
def admittedValue (cap : Int) (ops : List (DrawOp V)) (key : string) : Option V :=
  (admissions (new cap) 0 (fun _ => none) ops key).map Admission.population

/-- Ghost invariant: every cached key was admitted by an earlier call that
carried the cached population. -/
structure Ghost (cap : Int) (c : RandomCache V) (n : Nat)
    (adm : string → Option (Admission V)) : Prop where
  wf : WF cap c
  cached : ∀ k x, c.cacheMap.find k = some x →
    ∃ i, i < n ∧ adm k = some { index := i, population := x }

end RandomCache

namespace LFUCache

variable {V : Type}

/-- Representation invariant of an LFU cache built with capacity `cap`: keys
are not repeated, at most `cap` elements are held, no counter has overflowed,
every entry has been used at least once and not more often than the clock has
ticked, and no two entries carry the same time stamp. -/
structure WF (cap : Int) (c : LFUCache V) : Prop where
  capacity_eq : c.capacity = cap
  nodup : c.cacheMap.keys.Nodup
  size_le : (c.cacheMap.size : Int) ≤ cap
  time_nonneg : 0 ≤ c.currentTime
  time_le : c.currentTime ≤ INT_MAX
  entries : ∀ k e, c.cacheMap.find k = some e →
    1 ≤ e.freq ∧ e.freq ≤ e.time ∧ e.time ≤ c.currentTime
  times : ∀ k1 k2 e1 e2, c.cacheMap.find k1 = some e1 → c.cacheMap.find k2 = some e2 →
    e1.time = e2.time → k1 = k2

/-- Two states that differ only in the iteration order of the map. -/
structure SameUpToOrder (c c0 : LFUCache V) : Prop where
  capacity_eq : c.capacity = c0.capacity
  time_eq : c.currentTime = c0.currentTime
  perm : c.cacheMap.Perm c0.cacheMap

/-- The population given by the last `put` of `key` in a sequence of calls. -/
def lastPut (ops : List (Op V)) (key : string) : Option V :=
  ops.foldl (fun acc op =>
    match op with
    | .put k population => if k = key then some population else acc
    | .get _ => acc) none

end LFUCache

/-- The eviction order on scan records: a lower use count comes first, and
among equal use counts the earlier time stamp. -/
def EvictScan.le (a b : EvictScan) : Prop :=
  a.minFreq < b.minFreq ∨ (a.minFreq = b.minFreq ∧ a.minTime ≤ b.minTime)

/-- The index a call would draw is below `n` (calls that draw nothing pass). -/
def DrawOp.drawBelow {V : Type} (n : Int) : DrawOp V → Prop
  | .get _ => True
  | .put _ _ idx => (idx : Int) < n

/-! ## Example data -/

/-- The key `"A"`. -/
def keyA : string := lit "A"

/-- The key `"B"`. -/
def keyB : string := lit "B"

/-- The key `"C"`. -/
def keyC : string := lit "C"

/-- The calls `put(A,1); put(B,2); put(C,3)`. -/
def putABC : List (Op Nat) := [.put keyA 1, .put keyB 2, .put keyC 3]

/-- The calls `put(A,1); put(B,2); get(A); put(C,3)`. -/
def putABgetAputC : List (Op Nat) := [.put keyA 1, .put keyB 2, .get keyA, .put keyC 3]

/-- The calls `put(A,1); put(B,2)`. -/
def putAB : List (Op Nat) := [.put keyA 1, .put keyB 2]

/-- The calls `put(A,1); put(A,2)`. -/
def putAA : List (Op Nat) := [.put keyA 1, .put keyA 2]

/-- The calls `put(A,1); put(B,2); put(C,3)` on a random-eviction cache, the
third one drawing index 1. -/
def drawABC : List (DrawOp Nat) := [.put keyA 1 0, .put keyB 2 0, .put keyC 3 1]

/-- The LFU cache of capacity 2 after `put(A,1); put(B,2); put(C,3)`. -/
def lfuAfterABC : LFUCache Nat :=
  { capacity := 2, currentTime := 3,
    cacheMap := [(keyB, { key := keyB, population := 2, freq := 1, time := 2 }),
                 (keyC, { key := keyC, population := 3, freq := 1, time := 3 })] }

/-- The FIFO cache of capacity 2 after `put(A,1); put(B,2); put(C,3)`. -/
def fifoAfterABC : FIFOCache Nat :=
  { capacity := 2, order := [keyB, keyC], cacheMap := [(keyB, 2), (keyC, 3)] }

/-- The random-eviction cache of capacity 2 after `drawABC`. -/
def randomAfterABC : RandomCache Nat :=
  { capacity := 2, cacheMap := [(keyA, 1), (keyC, 3)], keys := [keyA, keyC] }

/-- The calls `put(A,1); put(B,2); get(A)`. -/
def putABgetA : List (Op Nat) := [.put keyA 1, .put keyB 2, .get keyA]

/-- The LFU cache of capacity 2 after `put(A,1); put(B,2)`. -/
def lfuAfterAB : LFUCache Nat :=
  { capacity := 2, currentTime := 2,
    cacheMap := [(keyA, { key := keyA, population := 1, freq := 1, time := 1 }),
                 (keyB, { key := keyB, population := 2, freq := 1, time := 2 })] }

/-- The FIFO cache of capacity 2 after `put(A,1); put(B,2)`. -/
def fifoAfterAB : FIFOCache Nat :=
  { capacity := 2, order := [keyA, keyB], cacheMap := [(keyA, 1), (keyB, 2)] }

/-- The calls `put(A,1); put(B,2)` on a random-eviction cache. -/
def drawAB : List (DrawOp Nat) := [.put keyA 1 0, .put keyB 2 0]

/-- The random-eviction cache of capacity 2 after `put(A,1); put(B,2)`. -/
def randomAfterAB : RandomCache Nat :=
  { capacity := 2, cacheMap := [(keyA, 1), (keyB, 2)], keys := [keyA, keyB] }

/-- The population given by the last `put` of `key` in a sequence of calls
on a random-eviction cache. -/
def lastDrawPut {V : Type} (ops : List (DrawOp V)) (key : string) : Option V :=
  ops.foldl (fun acc op =>
    match op with
    | .put k population _ => if k = key then some population else acc
    | .get _ => acc) none

/-- The FIFO cache of capacity 2 after `put(A,1); put(A,2)`. -/
def fifoAfterAA : FIFOCache Nat :=
  { capacity := 2, order := [keyA], cacheMap := [(keyA, 1)] }

/-- The calls `put(A,1); put(A,2)` on a random-eviction cache. -/
def drawAA : List (DrawOp Nat) := [.put keyA 1 0, .put keyA 2 0]

/-- The random-eviction cache of capacity 2 after `put(A,1); put(A,2)`. -/
def randomAfterAA : RandomCache Nat :=
  { capacity := 2, cacheMap := [(keyA, 1)], keys := [keyA] }

/-- The LFU cache of capacity 2 after `put(A,1); put(A,2)`. -/
def lfuAfterAA : LFUCache Nat :=
  { capacity := 2, currentTime := 2,
    cacheMap := [(keyA, { key := keyA, population := 2, freq := 2, time := 2 })] }

/-- The LFU cache of capacity 2 after `put(A,1)`. -/
def lfuAfterA : LFUCache Nat :=
  { capacity := 2, currentTime := 1,
    cacheMap := [(keyA, { key := keyA, population := 1, freq := 1, time := 1 })] }

/-! ## Input streams and the backing store -/

/-- An input stream (`ifstream`, `stringstream`): the characters not yet read
and the state bits `eofbit` and `failbit`. -/
structure istream where
  buf : string
  eofbit : Bool
  failbit : Bool

namespace istream

/-- A stream freshly opened on `content`. -/
def ofContent (content : string) : istream :=
  { buf := content, eofbit := false, failbit := false }

/-- The test `good()`: no state bit is set. -/
def good (is : istream) : Bool := !is.eofbit && !is.failbit

/-- The conversion of a stream to `bool`, as in `while (getline(...))`: the
stream has not failed. -/
def ok (is : istream) : Bool := !is.failbit

end istream

/-- The characters before the first `delim`, and the characters after that
delimiter when there is one. -/
def extractUntil (delim : Nat) : string → string × Option string
  | [] => ([], none)
  | c :: rest =>
    if c = delim then ([], some rest)
    else (c :: (extractUntil delim rest).1, (extractUntil delim rest).2)

/-- The library function `std::getline(is, str, delim)`. On a stream that is
not `good()` the sentry fails: `failbit` is set and `str` is left as it was.
Otherwise `str` is erased and receives the characters up to the delimiter,
which is discarded; reaching the end of the input sets `eofbit`, and also
`failbit` if nothing at all was extracted. -/
def getline (is : istream) (str : string) (delim : Nat) : istream × string :=
  if is.good then
    match extractUntil delim is.buf with
    | (taken, some rest) => ({ is with buf := rest }, taken)
    | (taken, none) => ({ buf := [], eofbit := true, failbit := taken.isEmpty }, taken)
  else ({ is with failbit := true }, str)

/-- How a call ends: it returns a value, it throws an exception, or (in the
model only) the iteration bound of a loop is used up. -/
inductive Outcome (α : Type) where
  | returned (value : α)
  | threw
  | unfinished

/-- What `searchCSV` does: the lines it writes to `std::cerr` and how it ends;
`returned (some population)` is `true` with the population stored,
`returned none` is `false`. -/
structure SearchResult (V : Type) where
  cerr : List string
  result : Outcome (Option V)

/-- The three `getline` calls on the `stringstream` of one line: `fileCode`,
`fileCity` (fresh empty strings before the calls) and `token`, which holds
what it held before the calls if the third call extracts nothing. -/
def parseRecord (line token : string) : string × string × string :=
  let r1 := getline (istream.ofContent line) [] 44
  let r2 := getline r1.1 [] 44
  let r3 := getline r2.1 token 44
  (r1.2, r2.2, r3.2)

/-- The `while (getline(file, line))` loop of `searchCSV`. The library
function `std::stod` is the parameter `stod`, `none` where it throws. The
first argument bounds the number of iterations. -/
def searchLoop {V : Type} (stod : string → Option V) (city code : string) :
    Nat → istream → string → string → Outcome (Option V)
  | 0, _, _, _ => .unfinished
  | fuel + 1, file, line, token =>
    if (getline file line 10).1.ok then
      match stod (parseRecord (getline file line 10).2 token).2.2 with
      | none => .threw
      | some pop =>
        if normalize (parseRecord (getline file line 10).2 token).1 = normalize code ∧
            normalize (parseRecord (getline file line 10).2 token).2.1 = normalize city then
          .returned (some pop)
        else
          searchLoop stod city code fuel (getline file line 10).1 (getline file line 10).2
            (parseRecord (getline file line 10).2 token).2.2
    else .returned none

/-- The function `searchCSV`. The file named `filename` is the argument
`file`: its content, or `none` when it cannot be opened. -/
def searchCSV {V : Type} (file : Option string) (stod : string → Option V)
    (city code : string) : SearchResult V :=
  match file with
  | none => { cerr := [lit "Error opening file."], result := .returned none }
  | some content =>
    { cerr := []
      result := searchLoop stod city code (content.length + 2)
        (getline (istream.ofContent content) [] 10).1
        (getline (istream.ofContent content) [] 10).2 [] }

/-! ## The store as the specification describes it -/

/-- The lines of a text file: every newline ends a line, and the characters
after the last newline are a last line if there are any. -/
def fileLines : string → List string
  | [] => []
  | c :: rest =>
    if c = 10 then [] :: fileLines rest
    else
      match fileLines rest with
      | [] => [[c]]
      | l :: ls => (c :: l) :: ls

/-- The records of a store: its lines after the header line. -/
def records (content : string) : List string := (fileLines content).tail

/-- The comma-separated fields of a line. -/
def splitFields : string → List string
  | [] => [[]]
  | c :: rest =>
    if c = 44 then [] :: splitFields rest
    else
      match splitFields rest with
      | [] => [[c]]
      | f :: fs => (c :: f) :: fs

/-- The code of a record: its first field. -/
def recordCode (r : string) : string := (splitFields r)[0]?.getD []

/-- The city of a record: its second field (empty if there is none). -/
def recordCity (r : string) : string := (splitFields r)[1]?.getD []

/-- A record matches a query when codes and cities agree after
normalization. -/
def recordMatches (city code r : string) : Prop :=
  normalize (recordCode r) = normalize code ∧ normalize (recordCity r) = normalize city

instance (city code r : string) : Decidable (recordMatches city code r) := by
  unfold recordMatches
  exact inferInstance

/-- A record has a numeric third field. -/
def hasNumericThird {V : Type} (stod : string → Option V) (r : string) : Prop :=
  ((splitFields r)[2]?.bind stod).isSome = true

instance {V : Type} (stod : string → Option V) (r : string) :
    Decidable (hasNumericThird stod r) := by
  unfold hasNumericThird
  exact inferInstance

/-- The lookup the specification describes: the third field, read as a number,
of the first record that matches. -/
def storeLookup {V : Type} (stod : string → Option V) (content city code : string) :
    Option V :=
  ((records content).find? (fun r => decide (recordMatches city code r))).bind
    (fun r => (splitFields r)[2]?.bind stod)

/-- The scan of `searchCSV` over the records still to read, with the value
`token` holds when the scan gets to them. -/
def scanRecords {V : Type} (stod : string → Option V) (city code : string) :
    List string → string → Outcome (Option V)
  | [], _ => .returned none
  | r :: rs, token =>
    match stod (parseRecord r token).2.2 with
    | none => .threw
    | some pop =>
      if normalize (parseRecord r token).1 = normalize code ∧
          normalize (parseRecord r token).2.1 = normalize city then
        .returned (some pop)
      else scanRecords stod city code rs (parseRecord r token).2.2

/-- A stand-in for `std::stod` on examples: the value of the decimal digits at
the start of the string, after leading whitespace; `none` (the exception
`std::invalid_argument`) when there is no digit there. -/
def stodDigits (s : string) : Option Nat :=
  if (s.dropWhile isspace).takeWhile (fun c => decide (48 ≤ c ∧ c ≤ 57)) = [] then none
  else some (((s.dropWhile isspace).takeWhile (fun c => decide (48 ≤ c ∧ c ≤ 57))).foldl
    (fun acc d => 10 * acc + (d - 48)) 0)

/-- A store with a header and two records. -/
def storeFile : string :=
  lit "code,city,population\nUS,New York,8300000\nUS,Boston,600000\n"

/-- A store whose second record has only two fields. -/
def shortRecordFile : string :=
  lit "code,city,population\nUS,Boston,600000\nUS,New York\n"

/-- A store with a header and no record. -/
def headerOnlyFile : string := lit "code,city,population\n"


/-! ## Lookup coordinator -/

/-- An object behind the interface `ICacheStrategy`: one of the three
strategies. -/
inductive ICacheStrategy (V : Type) where
  | lfu (c : LFUCache V)
  | fifo (c : FIFOCache V)
  | random (c : RandomCache V)

/-- The three kinds of strategy. -/
inductive StrategyKind where
  | lfu
  | fifo
  | random

namespace ICacheStrategy

variable {V : Type}

/-- A new strategy object of the given kind, built with capacity `cap`. -/
def new (kind : StrategyKind) (cap : Int) : ICacheStrategy V :=
  match kind with
  | .lfu => .lfu (LFUCache.new cap)
  | .fifo => .fifo (FIFOCache.new cap)
  | .random => .random (RandomCache.new cap)

/-- The virtual call `cache->get(key, population)`. -/
def get : ICacheStrategy V → string → Option (ICacheStrategy V × Option V)
  | .lfu c, key => (c.get key).map (fun r => (.lfu r.1, r.2))
  | .fifo c, key => some (.fifo (c.get key).1, (c.get key).2)
  | .random c, key => some (.random (c.get key).1, (c.get key).2)

/-- The virtual call `cache->put(key, population)`; `idx` is the index the
generator of a random-eviction cache draws if the call has to evict. -/
def put : ICacheStrategy V → string → V → Nat → Option (ICacheStrategy V)
  | .lfu c, key, population, _ => (c.put key population).map .lfu
  | .fifo c, key, population, _ => (c.put key population).map .fifo
  | .random c, key, population, idx => (c.put key population idx).map .random

/-- The population stored for a key, if the key is cached. -/
def find : ICacheStrategy V → string → Option V
  | .lfu c, key => (c.cacheMap.find key).map CacheEntry.population
  | .fifo c, key => c.cacheMap.find key
  | .random c, key => c.cacheMap.find key

/-- The number of cached entries. -/
def size : ICacheStrategy V → Nat
  | .lfu c => c.cacheMap.size
  | .fifo c => c.cacheMap.size
  | .random c => c.cacheMap.size

end ICacheStrategy

/-- The `switch (choice)` of `main`: the strategy object it creates, `none`
for the `default` branch, where `main` returns 1. -/
def selectStrategy {V : Type} (choice : Int) : Option (ICacheStrategy V) :=
  if choice = 1 then some (.lfu (LFUCache.new 10))
  else if choice = 2 then some (.fifo (FIFOCache.new 10))
  else if choice = 3 then some (.random (RandomCache.new 10))
  else none

/-- The cache key `normalize(code) + "," + normalize(city)`. -/
def key (city code : string) : string :=
  normalize code ++ [44] ++ normalize city

/-- What one pass of the loop of `main` reports: the `[Cache Hit]` line, the
`[CSV Lookup]` line, the `City not found in database.` line, or the end of the
program by the exception `std::stod` throws. -/
inductive Reply (V : Type) where
  | cacheHit (population : V)
  | csvLookup (population : V)
  | notFound
  | terminated

/-- One pass of the loop of `main` from the computation of `key` on: the
lookup of `(city, code)` through the cache and the file. The outer `none` is
undefined behaviour inside the cache. The prompt, the `exit` test on the city
typed and the call of `printCache`, which changes nothing, are left out. -/
def lookup {V : Type} (file : Option string) (stod : string → Option V)
    (cache : ICacheStrategy V) (city code : string) (idx : Nat) :
    Option (ICacheStrategy V × Reply V) :=
  match cache.get (key city code) with
  | none => none
  | some (cache1, some population) => some (cache1, .cacheHit population)
  | some (cache1, none) =>
    match (searchCSV file stod city code).result with
    | .returned (some population) =>
      (cache1.put (key city code) population idx).map (fun c => (c, .csvLookup population))
    | .returned none => some (cache1, .notFound)
    | .threw => some (cache1, .terminated)
    | .unfinished => none

/-- A query typed by the user, with the index the generator of a
random-eviction cache draws if the lookup has to evict. -/
structure Query where
  city : string
  code : string
  idx : Nat

/-- Successive passes of the loop of `main`: the cache at the end and the
replies, in order. A `terminated` reply is the last one. -/
def lookups {V : Type} (file : Option string) (stod : string → Option V) :
    ICacheStrategy V → List Query → Option (ICacheStrategy V × List (Reply V))
  | cache, [] => some (cache, [])
  | cache, q :: qs =>
    match lookup file stod cache q.city q.code q.idx with
    | none => none
    | some (cache1, .terminated) => some (cache1, [.terminated])
    | some (cache1, reply) =>
      (lookups file stod cache1 qs).map (fun r => (r.1, reply :: r.2))

/-- Every cached entry is backed by the store: its key is the key of a query
for which `searchCSV` returns the cached population. -/
def StoreBacked {V : Type} (file : Option string) (stod : string → Option V)
    (cache : ICacheStrategy V) : Prop :=
  ∀ k p, cache.find k = some p →
    ∃ city code, k = key city code ∧
      (searchCSV file stod city code).result = .returned (some p)

/-- A reply agrees with the direct store lookup of the query: a population is
reported exactly when `searchCSV` returns that population, not-found exactly
when `searchCSV` returns `false`, and the program ends by the exception
exactly when `searchCSV` throws. -/
def Agrees {V : Type} (file : Option string) (stod : string → Option V)
    (q : Query) (reply : Reply V) : Prop :=
  (∀ p, (reply = .cacheHit p ∨ reply = .csvLookup p) ↔
    (searchCSV file stod q.city q.code).result = .returned (some p)) ∧
  (reply = .notFound ↔ (searchCSV file stod q.city q.code).result = .returned none) ∧
  (reply = .terminated ↔ (searchCSV file stod q.city q.code).result = .threw)


namespace ICacheStrategy

variable {V : Type}

/-- The kind of a strategy object. -/
def kind : ICacheStrategy V → StrategyKind
  | .lfu _ => .lfu
  | .fifo _ => .fifo
  | .random _ => .random

/-- The representation invariant of the strategy behind the interface. -/
def WF (cap : Int) : ICacheStrategy V → Prop
  | .lfu c => LFUCache.WF cap c
  | .fifo c => FIFOCache.WF cap c
  | .random c => RandomCache.WF cap c

/-- The clock of an LFU cache; the other strategies have none. -/
def clock : ICacheStrategy V → Int
  | .lfu c => c.currentTime
  | .fifo _ => 0
  | .random _ => 0

end ICacheStrategy


/-- The FIFO cache built with capacity -1 after `put(A,1); put(B,2); put(C,3)`. -/
def fifoNegativeAfterABC : FIFOCache Nat :=
  { capacity := -1, order := [keyA, keyB, keyC],
    cacheMap := [(keyA, 1), (keyB, 2), (keyC, 3)] }

/-- The LFU cache built with capacity 0 after `put(A,1); put(B,2)`. -/
def lfuZeroAfterAB : LFUCache Nat :=
  { capacity := 0, currentTime := 2,
    cacheMap := [(keyA, { key := keyA, population := 1, freq := 1, time := 1 }),
                 (keyB, { key := keyB, population := 2, freq := 1, time := 2 })] }

/-- The random-eviction cache built with capacity -1 after
`put(A,1); put(B,2); put(C,3)`. -/
def randomNegativeAfterABC : RandomCache Nat :=
  { capacity := -1, cacheMap := [(keyA, 1), (keyB, 2), (keyC, 3)],
    keys := [keyA, keyB, keyC] }

/-- Three lookups: `boston` / `us`, then `BOSTON` / `U S`, then `Atlantis` /
`ZZ`. -/
def exampleQueries : List Query :=
  [{ city := lit "boston", code := lit "us", idx := 0 },
   { city := lit "BOSTON", code := lit "U S", idx := 0 },
   { city := lit "Atlantis", code := lit "ZZ", idx := 0 }]

/-- The FIFO cache of capacity 2 that holds the population of Boston. -/
def fifoAfterBoston : FIFOCache Nat :=
  { capacity := 2, order := [lit "us,boston"], cacheMap := [(lit "us,boston", 600000)] }


/-! # Properties -/

/-! ## Facts about the map operations -/

namespace unordered_map

variable {T : Type}

theorem find_eq_none_iff (m : unordered_map T) (key : string) :
    find m key = none ↔ key ∉ keys m := by
  induction m with
  | nil => simp [find, keys]
  | cons p rest ih =>
    obtain ⟨k, x⟩ := p
    by_cases h : k = key
    · simp [find, keys, h]
    · have h2 : ¬ key = k := fun e => h e.symm
      simp only [keys] at ih
      simp [find, keys, h, h2, ih]

theorem find_isSome_iff (m : unordered_map T) (key : string) :
    (find m key).isSome ↔ key ∈ keys m := by
  rw [← not_iff_not, ← find_eq_none_iff]
  cases find m key <;> simp

theorem count_ne_zero_iff (m : unordered_map T) (key : string) :
    count m key ≠ 0 ↔ key ∈ keys m := by
  rw [← find_isSome_iff]
  unfold count
  split <;> simp_all

theorem count_eq_zero_iff (m : unordered_map T) (key : string) :
    count m key = 0 ↔ find m key = none := by
  unfold count
  cases find m key <;> simp

theorem find_erase (m : unordered_map T) (k key : string) :
    find (erase m k) key = if key = k then none else find m key := by
  induction m with
  | nil => simp [find, erase]
  | cons p rest ih =>
    obtain ⟨a, x⟩ := p
    by_cases h : a = k
    · subst h
      by_cases h2 : key = a
      · subst h2
        simpa [erase] using ih
      · have h3 : ¬ a = key := fun e => h2 e.symm
        simp [erase, find, h2, h3, ih]
    · by_cases h2 : a = key
      · subst h2
        simp [erase, find, h]
      · simp [erase, find, h, h2, ih]

theorem erase_of_not_mem (m : unordered_map T) (k : string) (h : k ∉ keys m) :
    erase m k = m := by
  induction m with
  | nil => rfl
  | cons p rest ih =>
    obtain ⟨a, x⟩ := p
    simp only [keys, List.map_cons, List.mem_cons, not_or] at h
    have h2 : ¬ a = k := fun e => h.1 e.symm
    simp only [erase, h2, if_false]
    rw [ih h.2]

theorem keys_erase (m : unordered_map T) (k : string) :
    keys (erase m k) = (keys m).filter (fun a => !decide (a = k)) := by
  induction m with
  | nil => rfl
  | cons p rest ih =>
    obtain ⟨a, x⟩ := p
    simp only [keys] at ih
    by_cases h : a = k
    · simp [erase, keys, h, ih]
    · simp [erase, keys, h, ih]

theorem filter_ne_of_not_mem (l : List string) (k : string) (h : k ∉ l) :
    l.filter (fun a => !decide (a = k)) = l := by
  rw [List.filter_eq_self]
  intro a ha
  have : a ≠ k := fun e => h (e ▸ ha)
  simpa using this

theorem length_filter_ne (l : List string) (hl : l.Nodup) (k : string) (h : k ∈ l) :
    (l.filter (fun a => !decide (a = k))).length + 1 = l.length := by
  induction l with
  | nil => simp at h
  | cons a rest ih =>
    rw [List.nodup_cons] at hl
    by_cases e : a = k
    · subst e
      simp [filter_ne_of_not_mem rest a hl.1]
    · have hk : k ∈ rest := by
        rcases List.mem_cons.mp h with h | h
        · exact absurd h.symm e
        · exact h
      simp [e, ih hl.2 hk]

theorem find_assign (m : unordered_map T) (k key : string) (x : T) :
    find (assign m k x) key = if key = k then some x else find m key := by
  induction m with
  | nil =>
    by_cases h : k = key
    · simp [find, assign, h]
    · have h2 : ¬ key = k := fun e => h e.symm
      simp [find, assign, h, h2]
  | cons p rest ih =>
    obtain ⟨a, y⟩ := p
    by_cases h : a = k
    · subst h
      by_cases h2 : a = key
      · simp [assign, find, h2]
      · have h3 : ¬ key = a := fun e => h2 e.symm
        simp [assign, find, h2, h3]
    · by_cases h2 : a = key
      · subst h2
        simp [assign, find, h]
      · simp [assign, find, h, h2, ih]

theorem assign_absent (m : unordered_map T) (k : string) (x : T)
    (h : find m k = none) : assign m k x = m ++ [(k, x)] := by
  induction m with
  | nil => rfl
  | cons p rest ih =>
    obtain ⟨a, y⟩ := p
    by_cases h2 : a = k
    · simp [find, h2] at h
    · simp only [find, h2, if_false] at h
      simp [assign, h2, ih h]

theorem keys_assign_absent (m : unordered_map T) (k : string) (x : T)
    (h : find m k = none) : keys (assign m k x) = keys m ++ [k] := by
  rw [assign_absent m k x h]
  simp [keys]

theorem keys_assign_present (m : unordered_map T) (k : string) (x : T)
    (h : k ∈ keys m) : keys (assign m k x) = keys m := by
  induction m with
  | nil => simp [keys] at h
  | cons p rest ih =>
    obtain ⟨a, y⟩ := p
    by_cases h2 : a = k
    · simp [assign, keys, h2]
    · have h3 : k ∈ keys rest := by
        simp only [keys, List.map_cons, List.mem_cons] at h
        rcases h with h | h
        · exact absurd h.symm h2
        · exact h
      have := ih h3
      simp only [keys] at this
      simp [assign, keys, h2, this]

theorem find_eq_some_iff (m : unordered_map T) (hm : (keys m).Nodup) (k : string) (x : T) :
    find m k = some x ↔ (k, x) ∈ m := by
  induction m with
  | nil => simp [find]
  | cons p rest ih =>
    obtain ⟨a, y⟩ := p
    simp only [keys, List.map_cons, List.nodup_cons] at hm
    by_cases h : a = k
    · subst h
      simp only [find, if_true, Option.some.injEq, List.mem_cons, Prod.mk.injEq, true_and]
      constructor
      · intro e; exact Or.inl e.symm
      · rintro (e | e)
        · exact e.symm
        · exact absurd (List.mem_map_of_mem Prod.fst e) hm.1
    · have h2 : ¬ k = a := fun e => h e.symm
      simp only [find, h, if_false, List.mem_cons, Prod.mk.injEq, h2, false_and, false_or]
      exact ih hm.2

theorem length_erase (m : unordered_map T) (hm : (keys m).Nodup) (k : string)
    (hk : k ∈ keys m) : (erase m k).length + 1 = m.length := by
  have h1 := length_filter_ne (keys m) hm k hk
  rw [← keys_erase] at h1
  simpa [keys] using h1

end unordered_map

/-! ## Facts about `int` -/

theorem sizeEqCapacity_iff (n : Nat) (cap : Int) (h1 : 0 ≤ cap) (h2 : cap ≤ INT_MAX) :
    sizeEqCapacity n cap = true ↔ (n : Int) = cap := by
  unfold sizeEqCapacity
  unfold INT_MAX at h2
  rw [decide_eq_true_eq]
  omega

theorem incr_eq_some (x : Int) (h : x < INT_MAX) : incr x = some (x + 1) := by
  simp [incr, h]

theorem incr_eq_some_iff (x y : Int) : incr x = some y ↔ x < INT_MAX ∧ y = x + 1 := by
  unfold incr
  split <;> simp_all [eq_comm]

/-! ## FIFO: the invariant is kept -/

namespace FIFOCache

variable {V : Type}

theorem fifo_wf_new (cap : Int) (h : 0 ≤ cap) : WF cap (new cap : FIFOCache V) where
  capacity_eq := rfl
  nodup := List.nodup_nil
  lockstep := List.Perm.refl _
  size_le := by simpa [new, unordered_map.size] using h

theorem WF.fifo_keys_nodup {cap : Int} {c : FIFOCache V} (h : WF cap c) :
    c.cacheMap.keys.Nodup :=
  h.lockstep.nodup_iff.mp h.nodup

theorem WF.mem_order_iff {cap : Int} {c : FIFOCache V} (h : WF cap c) (k : string) :
    k ∈ c.order ↔ c.cacheMap.find k ≠ none := by
  rw [h.lockstep.mem_iff, Ne, unordered_map.find_eq_none_iff, not_not]

theorem WF.length_order {cap : Int} {c : FIFOCache V} (h : WF cap c) :
    c.order.length = c.cacheMap.size := by
  rw [h.lockstep.length_eq]
  simp [unordered_map.keys, unordered_map.size]

theorem fifo_put_present (c : FIFOCache V) (key : string) (population : V)
    (h : c.cacheMap.find key ≠ none) : c.put key population = some c := by
  have : c.cacheMap.count key ≠ 0 := by
    rw [Ne, unordered_map.count_eq_zero_iff]; exact h
  simp [put, this]

theorem fifo_put_absent_full (c : FIFOCache V) (key : string) (population : V)
    (oldest : string) (rest : List string)
    (h : c.cacheMap.find key = none)
    (hfull : sizeEqCapacity c.cacheMap.size c.capacity = true)
    (ho : c.order = oldest :: rest) :
    c.put key population = some { c with
      order := rest ++ [key]
      cacheMap := (c.cacheMap.erase oldest).assign key population } := by
  have : c.cacheMap.count key = 0 := (unordered_map.count_eq_zero_iff _ _).mpr h
  simp [put, this, hfull, ho]

theorem fifo_put_absent_room (c : FIFOCache V) (key : string) (population : V)
    (h : c.cacheMap.find key = none)
    (hroom : sizeEqCapacity c.cacheMap.size c.capacity = false) :
    c.put key population = some { c with
      order := c.order ++ [key]
      cacheMap := c.cacheMap.assign key population } := by
  have : c.cacheMap.count key = 0 := (unordered_map.count_eq_zero_iff _ _).mpr h
  simp [put, this, hroom]

theorem WF.fifo_after_put_full {cap : Int} {c : FIFOCache V} (h : WF cap c)
    (key : string) (population : V) (oldest : string) (rest : List string)
    (hk : c.cacheMap.find key = none) (ho : c.order = oldest :: rest) :
    WF cap { c with
      order := rest ++ [key]
      cacheMap := (c.cacheMap.erase oldest).assign key population } := by
  have hnd := h.nodup
  rw [ho, List.nodup_cons] at hnd
  have hkeys := h.fifo_keys_nodup
  have hk_order : key ∉ c.order := by
    rw [h.mem_order_iff]; simpa using hk
  have hk_rest : key ∉ rest := fun hmem => hk_order (ho ▸ List.mem_cons_of_mem _ hmem)
  have hk2 : (c.cacheMap.erase oldest).find key = none := by
    rw [unordered_map.find_erase]; split <;> simp [hk]
  have hrest : rest.Perm (c.cacheMap.keys.filter (fun a => !decide (a = oldest))) := by
    have := h.lockstep.filter (fun a => !decide (a = oldest))
    rw [ho] at this
    simpa [unordered_map.filter_ne_of_not_mem rest oldest hnd.1] using this
  have ho_mem : oldest ∈ c.cacheMap.keys :=
    h.lockstep.mem_iff.mp (ho ▸ List.mem_cons_self _ _)
  refine ⟨h.capacity_eq, ?_, ?_, ?_⟩
  · show (rest ++ [key]).Nodup
    rw [List.nodup_append]
    refine ⟨hnd.2, List.nodup_singleton _, ?_⟩
    intro a ha hb
    rw [List.mem_singleton] at hb
    exact hk_rest (hb ▸ ha)
  · show (rest ++ [key]).Perm (unordered_map.keys _)
    rw [unordered_map.keys_assign_absent _ _ _ hk2, unordered_map.keys_erase]
    exact hrest.append_right _
  · show ((unordered_map.size (unordered_map.assign _ _ _) : Nat) : Int) ≤ cap
    have h1 := unordered_map.length_erase c.cacheMap hkeys oldest ho_mem
    have h2 := h.size_le
    rw [unordered_map.assign_absent _ _ _ hk2]
    simp only [unordered_map.size, List.length_append, List.length_singleton] at h2 ⊢
    omega

theorem WF.fifo_after_put_room {cap : Int} {c : FIFOCache V} (h : WF cap c)
    (key : string) (population : V)
    (hk : c.cacheMap.find key = none) (hroom : (c.cacheMap.size : Int) ≠ cap) :
    WF cap { c with
      order := c.order ++ [key]
      cacheMap := c.cacheMap.assign key population } := by
  have hk_order : key ∉ c.order := by
    rw [h.mem_order_iff]; simpa using hk
  refine ⟨h.capacity_eq, ?_, ?_, ?_⟩
  · show (c.order ++ [key]).Nodup
    rw [List.nodup_append]
    refine ⟨h.nodup, List.nodup_singleton _, ?_⟩
    intro a ha hb
    rw [List.mem_singleton] at hb
    exact hk_order (hb ▸ ha)
  · show (c.order ++ [key]).Perm (unordered_map.keys _)
    rw [unordered_map.keys_assign_absent _ _ _ hk]
    exact h.lockstep.append_right _
  · show ((unordered_map.size (unordered_map.assign _ _ _) : Nat) : Int) ≤ cap
    have h2 := h.size_le
    rw [unordered_map.assign_absent _ _ _ hk]
    simp only [unordered_map.size, List.length_append, List.length_singleton] at h2 hroom ⊢
    omega

theorem WF.fifo_put {cap : Int} (h0 : 0 ≤ cap) (hmax : cap ≤ INT_MAX) {c c1 : FIFOCache V}
    (h : WF cap c) (key : string) (population : V)
    (hp : c.put key population = some c1) : WF cap c1 := by
  cases hk : c.cacheMap.find key with
  | some x =>
    rw [fifo_put_present c key population (by simp [hk])] at hp
    cases hp; exact h
  | none =>
    cases hfull : sizeEqCapacity c.cacheMap.size c.capacity with
    | true =>
      cases ho : c.order with
      | nil => simp [FIFOCache.put, (unordered_map.count_eq_zero_iff _ _).mpr hk, hfull, ho] at hp
      | cons oldest rest =>
        rw [fifo_put_absent_full c key population oldest rest hk hfull ho] at hp
        cases hp
        exact h.fifo_after_put_full key population oldest rest hk ho
    | false =>
      rw [fifo_put_absent_room c key population hk hfull] at hp
      cases hp
      refine h.fifo_after_put_room key population hk ?_
      intro e
      rw [h.capacity_eq] at hfull
      have := (sizeEqCapacity_iff _ cap h0 hmax).mpr e
      simp [this] at hfull

theorem WF.fifo_step {cap : Int} (h0 : 0 ≤ cap) (hmax : cap ≤ INT_MAX) {c c1 : FIFOCache V}
    (h : WF cap c) (op : Op V) (hp : c.step op = some c1) : WF cap c1 := by
  cases op with
  | get key =>
    simp only [FIFOCache.step, FIFOCache.get, Option.some.injEq] at hp
    subst hp
    split <;> exact h
  | put key population => exact h.fifo_put h0 hmax key population hp

theorem WF.fifo_run {cap : Int} (h0 : 0 ≤ cap) (hmax : cap ≤ INT_MAX) (ops : List (Op V)) :
    ∀ {c c1 : FIFOCache V}, WF cap c → c.run ops = some c1 → WF cap c1 := by
  induction ops with
  | nil => intro c c1 h hr; simp only [FIFOCache.run, Option.some.injEq] at hr; exact hr ▸ h
  | cons op ops ih =>
    intro c c1 h hr
    simp only [FIFOCache.run] at hr
    cases hs : c.step op with
    | none => simp [hs] at hr
    | some c2 =>
      rw [hs] at hr
      exact ih (h.fifo_step h0 hmax op hs) hr

/-- In a well-formed state with capacity at least 1 every call is defined:
a full cache has a non-empty queue. -/
theorem WF.fifo_step_isSome {cap : Int} (h1 : 1 ≤ cap) (hmax : cap ≤ INT_MAX) {c : FIFOCache V}
    (h : WF cap c) (op : Op V) : ∃ c1, c.step op = some c1 := by
  cases op with
  | get key => exact ⟨_, rfl⟩
  | put key population =>
    cases hk : c.cacheMap.find key with
    | some x => exact ⟨c, fifo_put_present c key population (by simp [hk])⟩
    | none =>
      cases hfull : sizeEqCapacity c.cacheMap.size c.capacity with
      | false => exact ⟨_, fifo_put_absent_room c key population hk hfull⟩
      | true =>
        cases ho : c.order with
        | cons oldest rest => exact ⟨_, fifo_put_absent_full c key population oldest rest hk hfull ho⟩
        | nil =>
          exfalso
          rw [h.capacity_eq] at hfull
          have e := (sizeEqCapacity_iff _ cap (by omega) hmax).mp hfull
          have := h.length_order
          rw [ho] at this
          simp only [List.length_nil] at this
          rw [← this] at e
          simp at e
          omega

theorem fifo_run_isSome {cap : Int} (h1 : 1 ≤ cap) (hmax : cap ≤ INT_MAX) (ops : List (Op V)) :
    ∀ {c : FIFOCache V}, WF cap c → ∃ c1, c.run ops = some c1 := by
  induction ops with
  | nil => intro c _; exact ⟨c, rfl⟩
  | cons op ops ih =>
    intro c h
    obtain ⟨c2, hs⟩ := h.fifo_step_isSome h1 hmax op
    obtain ⟨c1, hr⟩ := ih (h.fifo_step (by omega) hmax op hs)
    exact ⟨c1, by simp [FIFOCache.run, hs, hr]⟩

end FIFOCache

/-! ## FIFO: the queue is in order of admission -/

namespace FIFOCache

variable {V : Type}

theorem fifo_get_fst (c : FIFOCache V) (key : string) : (c.get key).1 = c := by
  unfold FIFOCache.get
  split <;> rfl

theorem fifo_get_snd (c : FIFOCache V) (key : string) : (c.get key).2 = c.cacheMap.find key := by
  unfold FIFOCache.get
  split <;> simp_all

theorem run_filter_isPut (ops : List (Op V)) :
    ∀ c : FIFOCache V, c.run (ops.filter isPut) = c.run ops := by
  induction ops with
  | nil => intro c; rfl
  | cons op ops ih =>
    intro c
    cases op with
    | get key => simp [List.filter_cons, isPut, FIFOCache.run, FIFOCache.step, fifo_get_fst, ih]
    | put key population =>
      simp only [List.filter_cons, isPut, if_true, FIFOCache.run]
      cases c.step (.put key population) with
      | none => rfl
      | some c1 => simp [ih]

theorem ghost_new (cap : Int) (h : 0 ≤ cap) :
    Ghost cap (new cap : FIFOCache V) 0 (fun _ => none) where
  wf := fifo_wf_new cap h
  cached := by intro k x hx; simp [new, unordered_map.find] at hx
  sorted := by simp [new]

theorem Ghost.mono {cap : Int} {c : FIFOCache V} {n : Nat}
    {adm : string → Option (Admission V)} (h : Ghost cap c n adm) :
    Ghost cap c (n + 1) adm where
  wf := h.wf
  cached := by
    intro k x hx
    obtain ⟨i, hi, e⟩ := h.cached k x hx
    exact ⟨i, by omega, e⟩
  sorted := h.sorted

/-- Admitting an absent key keeps the ghost invariant: the new key goes to the
back of the queue with the largest admission index. -/
theorem Ghost.fifo_insert {cap : Int} {c c2 : FIFOCache V} {n : Nat}
    {adm : string → Option (Admission V)} (h : Ghost cap c n adm)
    (key : string) (population : V) (front : List string)
    (hk : c.cacheMap.find key = none)
    (hwf : WF cap c2)
    (horder : c2.order = front ++ [key])
    (hsub : front.Sublist c.order)
    (hfind : ∀ k x, c2.cacheMap.find k = some x →
      (k = key ∧ x = population) ∨ (k ≠ key ∧ c.cacheMap.find k = some x)) :
    Ghost cap c2 (n + 1)
      (Function.update adm key (some { index := n, population := population })) := by
  have hk_order : key ∉ c.order := by
    rw [h.wf.mem_order_iff]; simpa using hk
  have hne : ∀ a ∈ front, a ≠ key := fun a ha e => hk_order (e ▸ hsub.subset ha)
  refine ⟨hwf, ?_, ?_⟩
  · intro k x hx
    rcases hfind k x hx with ⟨e1, e2⟩ | ⟨e1, e2⟩
    · subst e1 e2
      exact ⟨n, by omega, by simp⟩
    · obtain ⟨i, hi, e⟩ := h.cached k x e2
      exact ⟨i, by omega, by rw [Function.update_noteq e1]; exact e⟩
  · rw [horder, List.pairwise_append]
    refine ⟨?_, List.pairwise_singleton _ _, ?_⟩
    · refine (h.sorted.sublist hsub).imp_of_mem ?_
      intro a b ha hb hab A B hA hB
      rw [Function.update_noteq (hne a ha)] at hA
      rw [Function.update_noteq (hne b hb)] at hB
      exact hab A B hA hB
    · intro a ha b hb A B hA hB
      rw [List.mem_singleton] at hb
      subst hb
      rw [Function.update_noteq (hne a ha)] at hA
      rw [Function.update_same] at hB
      have hmem : a ∈ c.order := hsub.subset ha
      rw [h.wf.mem_order_iff] at hmem
      obtain ⟨x, hx⟩ := Option.ne_none_iff_exists'.mp hmem
      obtain ⟨i, hi, e⟩ := h.cached a x hx
      rw [e] at hA
      cases hA
      cases hB
      exact hi

theorem Ghost.fifo_ghost_run {cap : Int} (h0 : 0 ≤ cap) (hmax : cap ≤ INT_MAX) (ops : List (Op V)) :
    ∀ {c c1 : FIFOCache V} {n : Nat} {adm : string → Option (Admission V)},
      Ghost cap c n adm → c.run ops = some c1 →
      Ghost cap c1 (n + ops.length) (admissions c n adm ops) := by
  induction ops with
  | nil =>
    intro c c1 n adm h hr
    simp only [FIFOCache.run, Option.some.injEq] at hr
    subst hr
    exact h
  | cons op ops ih =>
    intro c c1 n adm h hr
    have hlen : n + (op :: ops).length = (n + 1) + ops.length := by
      simp only [List.length_cons]; omega
    rw [hlen]
    cases op with
    | get key =>
      simp only [FIFOCache.run, FIFOCache.step, Option.some_bind] at hr
      simp only [admissions]
      rw [fifo_get_fst] at hr ⊢
      exact ih h.mono hr
    | put key population =>
      simp only [FIFOCache.run, FIFOCache.step] at hr
      cases hp : c.put key population with
      | none => simp [hp] at hr
      | some c2 =>
        rw [hp, Option.some_bind] at hr
        simp only [admissions, hp]
        refine ih ?_ hr
        cases hk : c.cacheMap.find key with
        | some x =>
          have hc : c.cacheMap.count key ≠ 0 := by
            rw [Ne, unordered_map.count_eq_zero_iff]; simp [hk]
          rw [fifo_put_present c key population (by simp [hk])] at hp
          cases hp
          simp only [hc, if_false]
          exact h.mono
        | none =>
          have hc : c.cacheMap.count key = 0 := (unordered_map.count_eq_zero_iff _ _).mpr hk
          simp only [hc, if_true]
          have hwf2 : WF cap c2 := h.wf.fifo_put h0 hmax key population hp
          cases hfull : sizeEqCapacity c.cacheMap.size c.capacity with
          | true =>
            cases ho : c.order with
            | nil => simp [FIFOCache.put, hc, hfull, ho] at hp
            | cons oldest rest =>
              rw [fifo_put_absent_full c key population oldest rest hk hfull ho] at hp
              cases hp
              refine h.fifo_insert key population rest hk hwf2 rfl (ho ▸ List.sublist_cons_self _ _) ?_
              intro k x hx
              simp only [unordered_map.find_assign, unordered_map.find_erase] at hx
              by_cases e : k = key
              · left; simp only [e, if_true, Option.some.injEq] at hx; exact ⟨e, hx.symm⟩
              · right
                simp only [e, if_false] at hx
                split at hx
                · cases hx
                · exact ⟨e, hx⟩
          | false =>
            rw [fifo_put_absent_room c key population hk hfull] at hp
            cases hp
            refine h.fifo_insert key population c.order hk hwf2 rfl (List.Sublist.refl _) ?_
            intro k x hx
            simp only [unordered_map.find_assign] at hx
            by_cases e : k = key
            · left; simp only [e, if_true, Option.some.injEq] at hx; exact ⟨e, hx.symm⟩
            · right; simp only [e, if_false] at hx; exact ⟨e, hx⟩

end FIFOCache

/-! ## Random: the invariant is kept -/

namespace RandomCache

variable {V : Type}

theorem eraseIdx_eq_filter (l : List string) (hl : l.Nodup) (i : Nat) (v : string)
    (h : l[i]? = some v) : l.eraseIdx i = l.filter (fun a => !decide (a = v)) := by
  induction l generalizing i with
  | nil => simp at h
  | cons a rest ih =>
    rw [List.nodup_cons] at hl
    cases i with
    | zero =>
      simp only [List.getElem?_cons_zero, Option.some.injEq] at h
      subst h
      simp [unordered_map.filter_ne_of_not_mem rest a hl.1]
    | succ j =>
      simp only [List.getElem?_cons_succ] at h
      have hv : v ∈ rest := List.getElem?_mem h
      have hne : a ≠ v := fun e => hl.1 (e ▸ hv)
      simp [hne, ih hl.2 j h]

theorem rnd_wf_new (cap : Int) (h : 0 ≤ cap) : WF cap (new cap : RandomCache V) where
  capacity_eq := rfl
  nodup := List.nodup_nil
  lockstep := List.Perm.refl _
  size_le := by simpa [new, unordered_map.size] using h

theorem WF.rnd_keys_nodup {cap : Int} {c : RandomCache V} (h : WF cap c) :
    c.cacheMap.keys.Nodup :=
  h.lockstep.nodup_iff.mp h.nodup

theorem WF.mem_keys_iff {cap : Int} {c : RandomCache V} (h : WF cap c) (k : string) :
    k ∈ c.keys ↔ c.cacheMap.find k ≠ none := by
  rw [h.lockstep.mem_iff, Ne, unordered_map.find_eq_none_iff, not_not]

theorem WF.length_keys {cap : Int} {c : RandomCache V} (h : WF cap c) :
    c.keys.length = c.cacheMap.size := by
  rw [h.lockstep.length_eq]
  simp [unordered_map.keys, unordered_map.size]

theorem rnd_get_fst (c : RandomCache V) (key : string) : (c.get key).1 = c := by
  unfold RandomCache.get
  split <;> rfl

theorem rnd_get_snd (c : RandomCache V) (key : string) :
    (c.get key).2 = c.cacheMap.find key := by
  unfold RandomCache.get
  split <;> simp_all

theorem rnd_put_present (c : RandomCache V) (key : string) (population : V) (idx : Nat)
    (h : c.cacheMap.find key ≠ none) : c.put key population idx = some c := by
  have : c.cacheMap.count key ≠ 0 := by
    rw [Ne, unordered_map.count_eq_zero_iff]; exact h
  simp [put, this]

theorem rnd_put_absent_full (c : RandomCache V) (key : string) (population : V) (idx : Nat)
    (victim : string)
    (h : c.cacheMap.find key = none)
    (hfull : sizeEqCapacity c.cacheMap.size c.capacity = true)
    (hv : c.keys[idx]? = some victim) :
    c.put key population idx = some { c with
      cacheMap := (c.cacheMap.erase victim).assign key population
      keys := c.keys.eraseIdx idx ++ [key] } := by
  have : c.cacheMap.count key = 0 := (unordered_map.count_eq_zero_iff _ _).mpr h
  simp [put, this, hfull, hv]

theorem put_absent_full_none (c : RandomCache V) (key : string) (population : V) (idx : Nat)
    (h : c.cacheMap.find key = none)
    (hfull : sizeEqCapacity c.cacheMap.size c.capacity = true)
    (hv : c.keys[idx]? = none) :
    c.put key population idx = none := by
  have : c.cacheMap.count key = 0 := (unordered_map.count_eq_zero_iff _ _).mpr h
  simp [put, this, hfull, hv]

theorem rnd_put_absent_room (c : RandomCache V) (key : string) (population : V) (idx : Nat)
    (h : c.cacheMap.find key = none)
    (hroom : sizeEqCapacity c.cacheMap.size c.capacity = false) :
    c.put key population idx = some { c with
      cacheMap := c.cacheMap.assign key population
      keys := c.keys ++ [key] } := by
  have : c.cacheMap.count key = 0 := (unordered_map.count_eq_zero_iff _ _).mpr h
  simp [put, this, hroom]

theorem WF.rnd_after_put_full {cap : Int} {c : RandomCache V} (h : WF cap c)
    (key : string) (population : V) (idx : Nat) (victim : string)
    (hk : c.cacheMap.find key = none) (hv : c.keys[idx]? = some victim) :
    WF cap { c with
      cacheMap := (c.cacheMap.erase victim).assign key population
      keys := c.keys.eraseIdx idx ++ [key] } := by
  have hkeys := h.rnd_keys_nodup
  have hk_keys : key ∉ c.keys := by
    rw [h.mem_keys_iff]; simpa using hk
  have hv_mem : victim ∈ c.keys := List.getElem?_mem hv
  have hfilter := eraseIdx_eq_filter c.keys h.nodup idx victim hv
  have hk_rest : key ∉ c.keys.eraseIdx idx := by
    rw [hfilter]
    intro hmem
    exact hk_keys (List.mem_of_mem_filter hmem)
  have hk2 : (c.cacheMap.erase victim).find key = none := by
    rw [unordered_map.find_erase]; split <;> simp [hk]
  refine ⟨h.capacity_eq, ?_, ?_, ?_⟩
  · show (c.keys.eraseIdx idx ++ [key]).Nodup
    rw [List.nodup_append]
    refine ⟨?_, List.nodup_singleton _, ?_⟩
    · rw [hfilter]; exact h.nodup.filter _
    · intro a ha hb
      rw [List.mem_singleton] at hb
      exact hk_rest (hb ▸ ha)
  · show (c.keys.eraseIdx idx ++ [key]).Perm (unordered_map.keys _)
    rw [unordered_map.keys_assign_absent _ _ _ hk2, unordered_map.keys_erase, hfilter]
    exact (h.lockstep.filter _).append_right _
  · show ((unordered_map.size (unordered_map.assign _ _ _) : Nat) : Int) ≤ cap
    have h1 := unordered_map.length_erase c.cacheMap hkeys victim
      (h.lockstep.mem_iff.mp hv_mem)
    have h2 := h.size_le
    rw [unordered_map.assign_absent _ _ _ hk2]
    simp only [unordered_map.size, List.length_append, List.length_singleton] at h2 ⊢
    omega

theorem WF.rnd_after_put_room {cap : Int} {c : RandomCache V} (h : WF cap c)
    (key : string) (population : V)
    (hk : c.cacheMap.find key = none) (hroom : (c.cacheMap.size : Int) ≠ cap) :
    WF cap { c with
      cacheMap := c.cacheMap.assign key population
      keys := c.keys ++ [key] } := by
  have hk_keys : key ∉ c.keys := by
    rw [h.mem_keys_iff]; simpa using hk
  refine ⟨h.capacity_eq, ?_, ?_, ?_⟩
  · show (c.keys ++ [key]).Nodup
    rw [List.nodup_append]
    refine ⟨h.nodup, List.nodup_singleton _, ?_⟩
    intro a ha hb
    rw [List.mem_singleton] at hb
    exact hk_keys (hb ▸ ha)
  · show (c.keys ++ [key]).Perm (unordered_map.keys _)
    rw [unordered_map.keys_assign_absent _ _ _ hk]
    exact h.lockstep.append_right _
  · show ((unordered_map.size (unordered_map.assign _ _ _) : Nat) : Int) ≤ cap
    have h2 := h.size_le
    rw [unordered_map.assign_absent _ _ _ hk]
    simp only [unordered_map.size, List.length_append, List.length_singleton] at h2 hroom ⊢
    omega

theorem WF.rnd_put {cap : Int} (h0 : 0 ≤ cap) (hmax : cap ≤ INT_MAX) {c c1 : RandomCache V}
    (h : WF cap c) (key : string) (population : V) (idx : Nat)
    (hp : c.put key population idx = some c1) : WF cap c1 := by
  cases hk : c.cacheMap.find key with
  | some x =>
    rw [rnd_put_present c key population idx (by simp [hk])] at hp
    cases hp; exact h
  | none =>
    cases hfull : sizeEqCapacity c.cacheMap.size c.capacity with
    | true =>
      cases hv : c.keys[idx]? with
      | none => rw [put_absent_full_none c key population idx hk hfull hv] at hp; cases hp
      | some victim =>
        rw [rnd_put_absent_full c key population idx victim hk hfull hv] at hp
        cases hp
        exact h.rnd_after_put_full key population idx victim hk hv
    | false =>
      rw [rnd_put_absent_room c key population idx hk hfull] at hp
      cases hp
      refine h.rnd_after_put_room key population hk ?_
      intro e
      rw [h.capacity_eq] at hfull
      have := (sizeEqCapacity_iff _ cap h0 hmax).mpr e
      simp [this] at hfull

theorem WF.rnd_step {cap : Int} (h0 : 0 ≤ cap) (hmax : cap ≤ INT_MAX) {c c1 : RandomCache V}
    (h : WF cap c) (op : DrawOp V) (hp : c.step op = some c1) : WF cap c1 := by
  cases op with
  | get key =>
    simp only [RandomCache.step, Option.some.injEq] at hp
    rw [rnd_get_fst] at hp
    subst hp
    exact h
  | put key population idx => exact h.rnd_put h0 hmax key population idx hp

theorem WF.rnd_run {cap : Int} (h0 : 0 ≤ cap) (hmax : cap ≤ INT_MAX) (ops : List (DrawOp V)) :
    ∀ {c c1 : RandomCache V}, WF cap c → c.run ops = some c1 → WF cap c1 := by
  induction ops with
  | nil => intro c c1 h hr; simp only [RandomCache.run, Option.some.injEq] at hr; exact hr ▸ h
  | cons op ops ih =>
    intro c c1 h hr
    simp only [RandomCache.run] at hr
    cases hs : c.step op with
    | none => simp [hs] at hr
    | some c2 =>
      rw [hs] at hr
      exact ih (h.rnd_step h0 hmax op hs) hr

end RandomCache

/-! ## More facts about the map operations -/

namespace unordered_map

variable {T : Type}

theorem length_assign_present (m : unordered_map T) (k : string) (x : T)
    (h : k ∈ keys m) : (assign m k x).length = m.length := by
  have := congrArg List.length (keys_assign_present m k x h)
  simpa [keys] using this

theorem nodup_of_keys_nodup (m : unordered_map T) (h : (keys m).Nodup) : m.Nodup :=
  List.Nodup.of_map Prod.fst h

theorem find_perm {m1 m2 : unordered_map T} (h : m1.Perm m2) (hn : (keys m1).Nodup)
    (k : string) : find m1 k = find m2 k := by
  have hn2 : (keys m2).Nodup := (h.map Prod.fst).nodup_iff.mp hn
  apply Option.ext
  intro x
  simp only [Option.mem_def]
  rw [find_eq_some_iff m1 hn, find_eq_some_iff m2 hn2, h.mem_iff]

theorem perm_of_find_eq {m1 m2 : unordered_map T} (h1 : (keys m1).Nodup)
    (h2 : (keys m2).Nodup) (h : ∀ k, find m1 k = find m2 k) : m1.Perm m2 := by
  rw [List.perm_ext_iff_of_nodup (nodup_of_keys_nodup m1 h1) (nodup_of_keys_nodup m2 h2)]
  rintro ⟨k, x⟩
  rw [← find_eq_some_iff m1 h1, ← find_eq_some_iff m2 h2, h k]

theorem keys_nodup_erase (m : unordered_map T) (h : (keys m).Nodup) (k : string) :
    (keys (erase m k)).Nodup := by
  rw [keys_erase]
  exact h.filter _

theorem keys_nodup_assign (m : unordered_map T) (h : (keys m).Nodup) (k : string) (x : T) :
    (keys (assign m k x)).Nodup := by
  by_cases hk : k ∈ keys m
  · rw [keys_assign_present m k x hk]; exact h
  · rw [keys_assign_absent m k x ((find_eq_none_iff m k).mpr hk), List.nodup_append]
    refine ⟨h, List.nodup_singleton _, ?_⟩
    intro a ha hb
    rw [List.mem_singleton] at hb
    exact hk (hb ▸ ha)

end unordered_map

/-! ## LFU: the eviction scan finds the least entry -/

namespace LFUCache

variable {V : Type}

/-- The eviction loop from any starting record: it ends on the starting record
or on the record of an element of the map, and the record it ends on is not
after the starting record nor after any element in eviction order. -/
theorem scan_foldl (m : unordered_map (CacheEntry V)) :
    ∀ acc : EvictScan,
      (m.foldl scanStep acc = acc ∨
        ∃ p ∈ m, m.foldl scanStep acc =
          { evictKey := p.1, minFreq := p.2.freq, minTime := p.2.time }) ∧
      (m.foldl scanStep acc).le acc ∧
      ∀ p ∈ m, (m.foldl scanStep acc).le
        { evictKey := p.1, minFreq := p.2.freq, minTime := p.2.time } := by
  induction m with
  | nil =>
    intro acc
    refine ⟨Or.inl rfl, ?_, by simp⟩
    simp [EvictScan.le]
  | cons q rest ih =>
    intro acc
    obtain ⟨h1, h2, h3⟩ := ih (scanStep acc q)
    have hq : (scanStep acc q = acc ∨
        scanStep acc q = { evictKey := q.1, minFreq := q.2.freq, minTime := q.2.time }) ∧
        (scanStep acc q).le acc ∧
        (scanStep acc q).le { evictKey := q.1, minFreq := q.2.freq, minTime := q.2.time } := by
      unfold scanStep
      split
      · rename_i hlt
        refine ⟨Or.inr rfl, ?_, ?_⟩
        · simp only [EvictScan.le]; omega
        · simp [EvictScan.le]
      · rename_i hlt
        refine ⟨Or.inl rfl, ?_, ?_⟩
        · simp [EvictScan.le]
        · simp only [EvictScan.le]; omega
    obtain ⟨hq1, hq2, hq3⟩ := hq
    simp only [List.foldl_cons]
    refine ⟨?_, ?_, ?_⟩
    · rcases h1 with h1 | ⟨p, hp, h1⟩
      · rcases hq1 with hq1 | hq1
        · left; rw [h1, hq1]
        · right; exact ⟨q, List.mem_cons_self _ _, by rw [h1, hq1]⟩
      · right; exact ⟨p, List.mem_cons_of_mem _ hp, h1⟩
    · simp only [EvictScan.le] at h2 hq2 ⊢; omega
    · intro p hp
      rcases List.mem_cons.mp hp with e | hp
      · subst e
        simp only [EvictScan.le] at h2 hq3 ⊢; omega
      · exact h3 p hp

/-- On a non-empty map whose counters are below the sentinel `INT_MAX`, the
scan ends on an element of the map that is least in eviction order. -/
theorem scan_spec (m : unordered_map (CacheEntry V)) (hne : m ≠ [])
    (hlt : ∀ p ∈ m, p.2.freq ≤ INT_MAX ∧ p.2.time < INT_MAX) :
    ∃ p ∈ m, (scan m).evictKey = p.1 ∧
      ∀ q ∈ m, p.2.freq < q.2.freq ∨ (p.2.freq = q.2.freq ∧ p.2.time ≤ q.2.time) := by
  obtain ⟨h1, _, h3⟩ := scan_foldl m
    { evictKey := emptyString, minFreq := INT_MAX, minTime := INT_MAX }
  rcases h1 with h1 | ⟨p, hp, h1⟩
  · exfalso
    cases m with
    | nil => exact hne rfl
    | cons q rest =>
      have := h3 q (List.mem_cons_self _ _)
      rw [h1] at this
      have hq := hlt q (List.mem_cons_self _ _)
      simp only [EvictScan.le] at this
      omega
  · refine ⟨p, hp, ?_, ?_⟩
    · unfold scan; rw [h1]
    · intro q hq
      have := h3 q hq
      rw [h1] at this
      simpa [EvictScan.le] using this

end LFUCache

/-! ## LFU: the calls, case by case -/

namespace LFUCache

variable {V : Type}

theorem get_absent (c : LFUCache V) (key : string) (h : c.cacheMap.find key = none) :
    c.get key = some (c, none) := by
  simp [LFUCache.get, h]

theorem get_present (c : LFUCache V) (key : string) (entry : CacheEntry V)
    (h : c.cacheMap.find key = some entry)
    (hf : entry.freq < INT_MAX) (ht : c.currentTime < INT_MAX) :
    c.get key = some ({ c with
        currentTime := c.currentTime + 1
        cacheMap := c.cacheMap.assign key
          { entry with freq := entry.freq + 1, time := c.currentTime + 1 } },
      some entry.population) := by
  simp [LFUCache.get, h, incr_eq_some _ hf, incr_eq_some _ ht]

theorem lfu_put_present (c : LFUCache V) (key : string) (population : V) (entry : CacheEntry V)
    (h : c.cacheMap.find key = some entry)
    (hf : entry.freq < INT_MAX) (ht : c.currentTime < INT_MAX) :
    c.put key population = some { c with
        currentTime := c.currentTime + 1
        cacheMap := c.cacheMap.assign key
          { entry with
            population := population, freq := entry.freq + 1, time := c.currentTime + 1 } } := by
  simp [LFUCache.put, h, incr_eq_some _ hf, incr_eq_some _ ht]

theorem put_absent (c : LFUCache V) (key : string) (population : V)
    (h : c.cacheMap.find key = none) (ht : c.currentTime < INT_MAX) :
    c.put key population = some { c with
        currentTime := c.currentTime + 1
        cacheMap :=
          (if sizeEqCapacity c.cacheMap.size c.capacity then
            c.cacheMap.erase (scan c.cacheMap).evictKey
          else c.cacheMap).assign key
            { key := key, population := population, freq := 1, time := c.currentTime + 1 } } := by
  simp [LFUCache.put, h, incr_eq_some _ ht]

theorem put_isSome_time (c c1 : LFUCache V) (key : string) (population : V)
    (h : c.put key population = some c1) : c.currentTime < INT_MAX := by
  unfold LFUCache.put at h
  cases hi : incr c.currentTime with
  | none => simp [hi] at h
  | some t => exact ((incr_eq_some_iff _ _).mp hi).1

theorem WF.freq_le_time {cap : Int} {c : LFUCache V} (h : WF cap c) (k : string)
    (e : CacheEntry V) (hk : c.cacheMap.find k = some e) : e.freq ≤ c.currentTime := by
  have := h.entries k e hk
  omega

/-- Touching a cached key (a `get` hit or a `put` of a present key) keeps the
invariant. -/
theorem WF.touch {cap : Int} {c : LFUCache V} (h : WF cap c) (key : string)
    (entry touched : CacheEntry V) (hk : c.cacheMap.find key = some entry)
    (ht : c.currentTime < INT_MAX)
    (hfreq : touched.freq = entry.freq + 1) (htime : touched.time = c.currentTime + 1) :
    WF cap { c with
      currentTime := c.currentTime + 1
      cacheMap := c.cacheMap.assign key touched } := by
  have hmem : key ∈ c.cacheMap.keys := by
    rw [← unordered_map.find_isSome_iff, hk]; rfl
  have hent := h.entries key entry hk
  have h0 := h.time_nonneg
  refine ⟨h.capacity_eq, ?_, ?_, ?_, ?_, ?_, ?_⟩
  · exact unordered_map.keys_nodup_assign _ h.nodup _ _
  · show ((unordered_map.size (unordered_map.assign _ _ _) : Nat) : Int) ≤ cap
    have := h.size_le
    simp only [unordered_map.size] at this ⊢
    rw [unordered_map.length_assign_present _ _ _ hmem]
    exact this
  · show 0 ≤ c.currentTime + 1
    omega
  · show c.currentTime + 1 ≤ INT_MAX
    omega
  · intro k e he
    show 1 ≤ e.freq ∧ e.freq ≤ e.time ∧ e.time ≤ c.currentTime + 1
    change (c.cacheMap.assign key touched).find k = some e at he
    rw [unordered_map.find_assign] at he
    split at he
    · cases he; omega
    · have := h.entries k e he; omega
  · intro k1 k2 e1 e2 he1 he2 heq
    change (c.cacheMap.assign key touched).find k1 = some e1 at he1
    change (c.cacheMap.assign key touched).find k2 = some e2 at he2
    rw [unordered_map.find_assign] at he1 he2
    split at he1 <;> split at he2
    · rename_i a b; rw [a, b]
    · cases he1
      have := h.entries k2 e2 he2; omega
    · cases he2
      have := h.entries k1 e1 he1; omega
    · exact h.times k1 k2 e1 e2 he1 he2 heq

/-- Inserting a fresh entry for an absent key into a part of the map that
leaves room for it keeps the invariant. -/
theorem WF.lfu_insert {cap : Int} {c : LFUCache V} (h : WF cap c) (key : string)
    (population : V) (m : unordered_map (CacheEntry V))
    (ht : c.currentTime < INT_MAX)
    (hnd : m.keys.Nodup)
    (hsub : ∀ k e, m.find k = some e → c.cacheMap.find k = some e)
    (hk : m.find key = none)
    (hsize : ((m.length : Nat) : Int) + 1 ≤ cap) :
    WF cap { c with
      currentTime := c.currentTime + 1
      cacheMap := m.assign key
        { key := key, population := population, freq := 1, time := c.currentTime + 1 } } := by
  have h0 := h.time_nonneg
  refine ⟨h.capacity_eq, ?_, ?_, ?_, ?_, ?_, ?_⟩
  · exact unordered_map.keys_nodup_assign _ hnd _ _
  · show ((unordered_map.size (unordered_map.assign _ _ _) : Nat) : Int) ≤ cap
    rw [unordered_map.assign_absent _ _ _ hk]
    simp only [unordered_map.size, List.length_append, List.length_singleton]
    push_cast
    exact hsize
  · show 0 ≤ c.currentTime + 1
    omega
  · show c.currentTime + 1 ≤ INT_MAX
    omega
  · intro k e he
    show 1 ≤ e.freq ∧ e.freq ≤ e.time ∧ e.time ≤ c.currentTime + 1
    change (m.assign key _).find k = some e at he
    rw [unordered_map.find_assign] at he
    split at he
    · cases he
      simp only
      omega
    · have := h.entries k e (hsub k e he); omega
  · intro k1 k2 e1 e2 he1 he2 heq
    change (m.assign key _).find k1 = some e1 at he1
    change (m.assign key _).find k2 = some e2 at he2
    rw [unordered_map.find_assign] at he1 he2
    split at he1 <;> split at he2
    · rename_i a b; rw [a, b]
    · cases he1
      have := h.entries k2 e2 (hsub k2 e2 he2)
      simp only at heq
      omega
    · cases he2
      have := h.entries k1 e1 (hsub k1 e1 he1)
      simp only at heq
      omega
    · exact h.times k1 k2 e1 e2 (hsub k1 e1 he1) (hsub k2 e2 he2) heq

/-- In a full cache whose clock has not reached `INT_MAX` the eviction scan
selects a cached key whose entry is the least in eviction order, strictly
below every other entry. -/
theorem WF.scan_least {cap : Int} {c : LFUCache V} (h : WF cap c) (h1 : 1 ≤ cap)
    (hfull : (c.cacheMap.size : Int) = cap) (ht : c.currentTime < INT_MAX) :
    ∃ victim, c.cacheMap.find (scan c.cacheMap).evictKey = some victim ∧
      ∀ k e, c.cacheMap.find k = some e → k ≠ (scan c.cacheMap).evictKey →
        victim.freq < e.freq ∨ (victim.freq = e.freq ∧ victim.time < e.time) := by
  have hne : c.cacheMap ≠ [] := by
    intro e
    rw [e] at hfull
    simp [unordered_map.size] at hfull
    omega
  have hlt : ∀ p ∈ c.cacheMap, p.2.freq ≤ INT_MAX ∧ p.2.time < INT_MAX := by
    intro p hp
    have := h.entries p.1 p.2 ((unordered_map.find_eq_some_iff _ h.nodup _ _).mpr hp)
    omega
  obtain ⟨p, hp, hkey, hmin⟩ := scan_spec c.cacheMap hne hlt
  have hfind : c.cacheMap.find p.1 = some p.2 :=
    (unordered_map.find_eq_some_iff _ h.nodup _ _).mpr hp
  refine ⟨p.2, by rw [hkey]; exact hfind, ?_⟩
  intro k e he hk
  have hmem : (k, e) ∈ c.cacheMap := (unordered_map.find_eq_some_iff _ h.nodup _ _).mp he
  have := hmin (k, e) hmem
  simp only at this
  have hne_time : p.2.time ≠ e.time := by
    intro heq
    exact hk (by rw [hkey]; exact (h.times p.1 k p.2 e hfind he heq).symm)
  omega

end LFUCache

/-! ## LFU: the invariant is kept, in every iteration order -/

namespace LFUCache

variable {V : Type}

theorem lfu_wf_new (cap : Int) (h : 0 ≤ cap) : WF cap (new cap : LFUCache V) where
  capacity_eq := rfl
  nodup := List.nodup_nil
  size_le := by simpa [new, unordered_map.size] using h
  time_nonneg := le_refl _
  time_le := by simp [new, INT_MAX]
  entries := by intro k e he; simp [new, unordered_map.find] at he
  times := by intro k1 k2 e1 e2 he; simp [new, unordered_map.find] at he

theorem get_isSome_bounds (c : LFUCache V) (key : string) (entry : CacheEntry V)
    (r : LFUCache V × Option V)
    (h : c.cacheMap.find key = some entry) (hg : c.get key = some r) :
    entry.freq < INT_MAX ∧ c.currentTime < INT_MAX := by
  unfold LFUCache.get at hg
  rw [h] at hg
  simp only at hg
  cases hf : incr entry.freq with
  | none => simp [hf] at hg
  | some f =>
    cases ht : incr c.currentTime with
    | none => simp [hf, ht] at hg
    | some t => exact ⟨((incr_eq_some_iff _ _).mp hf).1, ((incr_eq_some_iff _ _).mp ht).1⟩

theorem WF.lfu_put {cap : Int} (h1 : 1 ≤ cap) (hmax : cap ≤ INT_MAX) {c c1 : LFUCache V}
    (h : WF cap c) (key : string) (population : V)
    (hp : c.put key population = some c1) : WF cap c1 := by
  have ht := put_isSome_time c c1 key population hp
  cases hk : c.cacheMap.find key with
  | some entry =>
    have hf := h.freq_le_time key entry hk
    rw [lfu_put_present c key population entry hk (by omega) ht] at hp
    cases hp
    exact h.touch key entry _ hk ht rfl rfl
  | none =>
    rw [put_absent c key population hk ht] at hp
    cases hp
    cases hfull : sizeEqCapacity c.cacheMap.size c.capacity with
    | true =>
      simp only [if_true]
      have hsz : (c.cacheMap.size : Int) = cap := by
        rw [h.capacity_eq] at hfull
        exact (sizeEqCapacity_iff _ cap (by omega) hmax).mp hfull
      obtain ⟨victim, hv, _⟩ := h.scan_least h1 hsz ht
      have hmem : (scan c.cacheMap).evictKey ∈ c.cacheMap.keys := by
        rw [← unordered_map.find_isSome_iff, hv]; rfl
      refine h.lfu_insert key population _ ht (unordered_map.keys_nodup_erase _ h.nodup _) ?_ ?_ ?_
      · intro k e he
        rw [unordered_map.find_erase] at he
        split at he
        · cases he
        · exact he
      · rw [unordered_map.find_erase]; split <;> simp [hk]
      · have := unordered_map.length_erase c.cacheMap h.nodup _ hmem
        have h2 := h.size_le
        simp only [unordered_map.size] at h2
        omega
    | false =>
      simp only [Bool.false_eq_true, if_false]
      refine h.lfu_insert key population _ ht h.nodup (fun _ _ he => he) hk ?_
      have h2 := h.size_le
      have h3 : (c.cacheMap.size : Int) ≠ cap := by
        intro e
        rw [h.capacity_eq] at hfull
        have := (sizeEqCapacity_iff _ cap (by omega) hmax).mpr e
        simp [this] at hfull
      simp only [unordered_map.size] at h2 h3
      omega

theorem WF.get {cap : Int} {c : LFUCache V} (h : WF cap c) (key : string)
    (r : LFUCache V × Option V) (hg : c.get key = some r) : WF cap r.1 := by
  cases hk : c.cacheMap.find key with
  | none =>
    rw [get_absent c key hk] at hg
    cases hg
    exact h
  | some entry =>
    obtain ⟨hf, ht⟩ := get_isSome_bounds c key entry r hk hg
    rw [get_present c key entry hk hf ht] at hg
    cases hg
    exact h.touch key entry _ hk ht rfl rfl

theorem WF.lfu_step {cap : Int} (h1 : 1 ≤ cap) (hmax : cap ≤ INT_MAX) {c c1 : LFUCache V}
    (h : WF cap c) (op : Op V) (hs : c.step op = some c1) : WF cap c1 := by
  cases op with
  | get key =>
    simp only [LFUCache.step, Option.map_eq_some'] at hs
    obtain ⟨r, hr, e⟩ := hs
    subst e
    exact h.get key r hr
  | put key population => exact h.lfu_put h1 hmax key population hs

theorem WF.rehash {cap : Int} {c : LFUCache V} (h : WF cap c)
    (m : unordered_map (CacheEntry V)) (hm : m.Perm c.cacheMap) :
    WF cap { c with cacheMap := m } := by
  have hnd : m.keys.Nodup := (hm.map Prod.fst).nodup_iff.mpr h.nodup
  have hfind : ∀ k, m.find k = c.cacheMap.find k := unordered_map.find_perm hm hnd
  refine ⟨h.capacity_eq, hnd, ?_, h.time_nonneg, h.time_le, ?_, ?_⟩
  · show ((unordered_map.size m : Nat) : Int) ≤ cap
    have := h.size_le
    simp only [unordered_map.size] at this ⊢
    rw [hm.length_eq]
    exact this
  · intro k e he
    exact h.entries k e (by rw [← hfind]; exact he)
  · intro k1 k2 e1 e2 he1 he2
    exact h.times k1 k2 e1 e2 (by rw [← hfind]; exact he1) (by rw [← hfind]; exact he2)

theorem Reaches.wf {cap : Int} (h1 : 1 ≤ cap) (hmax : cap ≤ INT_MAX)
    {ops : List (Op V)} {c : LFUCache V} (h : Reaches cap ops c) : WF cap c := by
  induction h with
  | init => exact lfu_wf_new cap (by omega)
  | call op _ hs ih => exact ih.lfu_step h1 hmax op hs
  | rehash m _ hm ih => exact ih.rehash m hm

theorem run_append (ops : List (Op V)) (op : Op V) :
    ∀ c : LFUCache V, c.run (ops ++ [op]) = (c.run ops).bind (fun c1 => c1.step op) := by
  induction ops with
  | nil =>
    intro c
    simp only [List.nil_append, LFUCache.run, Option.some_bind]
    cases c.step op <;> rfl
  | cons o ops ih =>
    intro c
    simp only [List.cons_append, LFUCache.run]
    cases c.step o with
    | none => rfl
    | some c2 => simp only [Option.some_bind]; exact ih c2

/-- What the executable `run` computes is one of the reachable states. -/
theorem run_reaches {cap : Int} (ops : List (Op V)) :
    ∀ {c : LFUCache V}, (new cap : LFUCache V).run ops = some c → Reaches cap ops c := by
  induction ops using List.reverseRecOn with
  | nil =>
    intro c h
    simp only [LFUCache.run, Option.some.injEq] at h
    subst h
    exact Reaches.init
  | append_singleton ops op ih =>
    intro c h
    rw [run_append] at h
    cases hr : (new cap : LFUCache V).run ops with
    | none => simp [hr] at h
    | some c0 =>
      rw [hr, Option.some_bind] at h
      exact Reaches.call op (ih hr) h

end LFUCache

/-! ## LFU: the iteration order of the map does not matter -/

namespace unordered_map

variable {T : Type}

theorem perm_assign {m1 m2 : unordered_map T} (h : m1.Perm m2) (hn : (keys m1).Nodup)
    (k : string) (x : T) : (assign m1 k x).Perm (assign m2 k x) := by
  have hn2 : (keys m2).Nodup := (h.map Prod.fst).nodup_iff.mp hn
  refine perm_of_find_eq (keys_nodup_assign _ hn _ _) (keys_nodup_assign _ hn2 _ _) ?_
  intro key
  rw [find_assign, find_assign, find_perm h hn]

theorem perm_erase {m1 m2 : unordered_map T} (h : m1.Perm m2) (hn : (keys m1).Nodup)
    (k : string) : (erase m1 k).Perm (erase m2 k) := by
  have hn2 : (keys m2).Nodup := (h.map Prod.fst).nodup_iff.mp hn
  refine perm_of_find_eq (keys_nodup_erase _ hn _) (keys_nodup_erase _ hn2 _) ?_
  intro key
  rw [find_erase, find_erase, find_perm h hn]

end unordered_map

namespace LFUCache

variable {V : Type}

theorem SameUpToOrder.refl (c : LFUCache V) : SameUpToOrder c c :=
  ⟨rfl, rfl, List.Perm.refl _⟩

theorem SameUpToOrder.wf_of_same {cap : Int} {c c0 : LFUCache V} (h : SameUpToOrder c c0)
    (hwf : WF cap c) : WF cap c0 := by
  have := hwf.rehash c0.cacheMap h.perm.symm
  have e : ({ c with cacheMap := c0.cacheMap } : LFUCache V) = c0 := by
    cases c; cases c0
    have h1 := h.capacity_eq
    have h2 := h.time_eq
    simp only at h1 h2
    simp [h1, h2]
  rw [e] at this
  exact this

/-- The key picked by the eviction scan of a full cache is the same in every
iteration order, because no two entries carry the same time stamp. -/
theorem scan_sameUpToOrder {cap : Int} (h1 : 1 ≤ cap) {c c0 : LFUCache V}
    (hwf : WF cap c) (h : SameUpToOrder c c0)
    (hfull : (c.cacheMap.size : Int) = cap) (ht : c.currentTime < INT_MAX) :
    (scan c.cacheMap).evictKey = (scan c0.cacheMap).evictKey := by
  have hwf0 := h.wf_of_same hwf
  have hfind : ∀ k, c.cacheMap.find k = c0.cacheMap.find k :=
    unordered_map.find_perm h.perm hwf.nodup
  have hfull0 : (c0.cacheMap.size : Int) = cap := by
    simp only [unordered_map.size] at hfull ⊢
    rw [← h.perm.length_eq]; exact hfull
  obtain ⟨v, hv, hmin⟩ := hwf.scan_least h1 hfull ht
  obtain ⟨v0, hv0, hmin0⟩ := hwf0.scan_least h1 hfull0 (h.time_eq ▸ ht)
  by_contra hne
  have a := hmin _ v0 (by rw [hfind]; exact hv0) (fun e => hne e.symm)
  have b := hmin0 _ v (by rw [← hfind]; exact hv) hne
  omega

theorem step_sameUpToOrder {cap : Int} (h1 : 1 ≤ cap) (hmax : cap ≤ INT_MAX)
    {c c0 c1 : LFUCache V} (hwf : WF cap c) (h : SameUpToOrder c c0) (op : Op V)
    (hs : c.step op = some c1) :
    ∃ c2, c0.step op = some c2 ∧ SameUpToOrder c1 c2 := by
  have hfind : ∀ k, c.cacheMap.find k = c0.cacheMap.find k :=
    unordered_map.find_perm h.perm hwf.nodup
  have hcap := h.capacity_eq
  have htime := h.time_eq
  cases op with
  | get key =>
    simp only [LFUCache.step, Option.map_eq_some'] at hs
    obtain ⟨r, hr, e⟩ := hs
    subst e
    cases hk : c.cacheMap.find key with
    | none =>
      rw [get_absent c key hk] at hr
      cases hr
      refine ⟨c0, ?_, h⟩
      simp [LFUCache.step, get_absent c0 key (by rw [← hfind]; exact hk)]
    | some entry =>
      obtain ⟨hf, ht⟩ := get_isSome_bounds c key entry r hk hr
      rw [get_present c key entry hk hf ht] at hr
      cases hr
      have hs0 : c0.step (.get key) = some { c0 with
          currentTime := c0.currentTime + 1
          cacheMap := c0.cacheMap.assign key
            { entry with freq := entry.freq + 1, time := c0.currentTime + 1 } } := by
        simp only [LFUCache.step]
        rw [get_present c0 key entry (by rw [← hfind]; exact hk) hf (htime ▸ ht)]
        rfl
      refine ⟨_, hs0, ?_⟩
      refine ⟨hcap, by simp only [htime], ?_⟩
      simp only [htime]
      exact unordered_map.perm_assign h.perm hwf.nodup _ _
  | put key population =>
    simp only [LFUCache.step] at hs ⊢
    have ht := put_isSome_time c c1 key population hs
    cases hk : c.cacheMap.find key with
    | some entry =>
      have hf := hwf.freq_le_time key entry hk
      rw [lfu_put_present c key population entry hk (by omega) ht] at hs
      cases hs
      refine ⟨_, lfu_put_present c0 key population entry (by rw [← hfind]; exact hk)
        (by omega) (htime ▸ ht), ?_⟩
      refine ⟨hcap, by simp only [htime], ?_⟩
      simp only [htime]
      exact unordered_map.perm_assign h.perm hwf.nodup _ _
    | none =>
      rw [put_absent c key population hk ht] at hs
      cases hs
      refine ⟨_, put_absent c0 key population (by rw [← hfind]; exact hk) (htime ▸ ht), ?_⟩
      refine ⟨hcap, by simp only [htime], ?_⟩
      have hsize : c.cacheMap.size = c0.cacheMap.size := by
        simp only [unordered_map.size]; exact h.perm.length_eq
      simp only [← htime, ← hcap, ← hsize]
      cases hfull : sizeEqCapacity c.cacheMap.size c.capacity with
      | true =>
        simp only [if_true]
        have hsz : (c.cacheMap.size : Int) = cap := by
          rw [hwf.capacity_eq] at hfull
          exact (sizeEqCapacity_iff _ cap (by omega) hmax).mp hfull
        rw [← scan_sameUpToOrder h1 hwf h hsz ht]
        exact unordered_map.perm_assign (unordered_map.perm_erase h.perm hwf.nodup _)
          (unordered_map.keys_nodup_erase _ hwf.nodup _) _ _
      | false =>
        simp only [Bool.false_eq_true, if_false]
        exact unordered_map.perm_assign h.perm hwf.nodup _ _

/-- Every reachable state is, up to the iteration order of the map, the state
computed by `run`: in particular `run` is defined on the calls. -/
theorem Reaches.sameUpToOrder {cap : Int} (h1 : 1 ≤ cap) (hmax : cap ≤ INT_MAX)
    {ops : List (Op V)} {c : LFUCache V} (h : Reaches cap ops c) :
    ∃ c0, (new cap : LFUCache V).run ops = some c0 ∧ SameUpToOrder c c0 := by
  induction h with
  | init => exact ⟨new cap, rfl, SameUpToOrder.refl _⟩
  | call op hr hs ih =>
    obtain ⟨c0, hrun, hsame⟩ := ih
    obtain ⟨c2, hs2, hsame2⟩ := step_sameUpToOrder h1 hmax (hr.wf h1 hmax) hsame op hs
    exact ⟨c2, by rw [run_append, hrun, Option.some_bind, hs2], hsame2⟩
  | rehash m hr hm ih =>
    obtain ⟨c0, hrun, hsame⟩ := ih
    exact ⟨c0, hrun, ⟨hsame.capacity_eq, hsame.time_eq, hm.trans hsame.perm⟩⟩

theorem Reaches.find_eq {cap : Int} (h1 : 1 ≤ cap) (hmax : cap ≤ INT_MAX)
    {ops : List (Op V)} {c c0 : LFUCache V} (h : Reaches cap ops c)
    (hrun : (new cap : LFUCache V).run ops = some c0) (k : string) :
    c.cacheMap.find k = c0.cacheMap.find k := by
  obtain ⟨c2, hrun2, hsame⟩ := h.sameUpToOrder h1 hmax
  rw [hrun] at hrun2
  cases hrun2
  exact unordered_map.find_perm hsame.perm (h.wf h1 hmax).nodup k

/-- A lookup in any reachable state can be read off the state `run` computes. -/
theorem Reaches.find_of_run {cap : Int} (h1 : 1 ≤ cap)
    (hmax : cap ≤ INT_MAX) {ops : List (Op V)} {c : LFUCache V}
    (h : Reaches cap ops c) (k : string) (r : Option (CacheEntry V))
    (hr : ((new cap : LFUCache V).run ops).map (fun c0 => c0.cacheMap.find k) = some r) :
    c.cacheMap.find k = r := by
  obtain ⟨c0, hrun, hsame⟩ := h.sameUpToOrder h1 hmax
  rw [hrun] at hr
  simp only [Option.map_some', Option.some.injEq] at hr
  rw [← hr]
  exact unordered_map.find_perm hsame.perm (h.wf h1 hmax).nodup k

end LFUCache

/-! ## The calls are defined -/

namespace LFUCache

variable {V : Type}

theorem step_get_present (c : LFUCache V) (key : string) (entry : CacheEntry V)
    (h : c.cacheMap.find key = some entry)
    (hf : entry.freq < INT_MAX) (ht : c.currentTime < INT_MAX) :
    c.step (.get key) = some { c with
        currentTime := c.currentTime + 1
        cacheMap := c.cacheMap.assign key
          { entry with freq := entry.freq + 1, time := c.currentTime + 1 } } := by
  simp only [LFUCache.step]
  rw [get_present c key entry h hf ht]
  rfl

/-- In a well-formed state whose clock is below `INT_MAX` every call is
defined, and it advances the clock by at most one. -/
theorem WF.lfu_step_isSome {cap : Int} {c : LFUCache V} (h : WF cap c)
    (ht : c.currentTime < INT_MAX) (op : Op V) :
    ∃ c1, c.step op = some c1 ∧ c1.currentTime ≤ c.currentTime + 1 := by
  cases op with
  | get key =>
    cases hk : c.cacheMap.find key with
    | none =>
      refine ⟨c, ?_, by omega⟩
      simp [LFUCache.step, get_absent c key hk]
    | some entry =>
      have hf := h.freq_le_time key entry hk
      exact ⟨_, step_get_present c key entry hk (by omega) ht, le_refl _⟩
  | put key population =>
    cases hk : c.cacheMap.find key with
    | some entry =>
      have hf := h.freq_le_time key entry hk
      exact ⟨_, lfu_put_present c key population entry hk (by omega) ht, le_refl _⟩
    | none => exact ⟨_, put_absent c key population hk ht, le_refl _⟩

theorem lfu_run_isSome {cap : Int} (h1 : 1 ≤ cap) (hmax : cap ≤ INT_MAX) (ops : List (Op V)) :
    ∀ c : LFUCache V, WF cap c → c.currentTime + ops.length ≤ INT_MAX →
      ∃ c1, c.run ops = some c1 := by
  induction ops with
  | nil => intro c _ _; exact ⟨c, rfl⟩
  | cons op ops ih =>
    intro c h hlen
    simp only [List.length_cons, Nat.cast_add, Nat.cast_one] at hlen
    obtain ⟨c2, hs, ht2⟩ := h.lfu_step_isSome (by omega) op
    obtain ⟨c1, hr⟩ := ih c2 (h.lfu_step h1 hmax op hs) (by omega)
    exact ⟨c1, by simp [LFUCache.run, hs, hr]⟩

end LFUCache

namespace RandomCache

variable {V : Type}

theorem WF.rnd_step_isSome {cap : Int} (h1 : 1 ≤ cap) (hmax : cap ≤ INT_MAX)
    {c : RandomCache V} (h : WF cap c) (op : DrawOp V) (hd : op.drawBelow cap) :
    ∃ c1, c.step op = some c1 := by
  cases op with
  | get key => exact ⟨_, rfl⟩
  | put key population idx =>
    cases hk : c.cacheMap.find key with
    | some x => exact ⟨c, rnd_put_present c key population idx (by simp [hk])⟩
    | none =>
      cases hfull : sizeEqCapacity c.cacheMap.size c.capacity with
      | false => exact ⟨_, rnd_put_absent_room c key population idx hk hfull⟩
      | true =>
        have hlen : idx < c.keys.length := by
          rw [h.capacity_eq] at hfull
          have e := (sizeEqCapacity_iff _ cap (by omega) hmax).mp hfull
          rw [h.length_keys]
          simp only [DrawOp.drawBelow] at hd
          omega
        exact ⟨_, rnd_put_absent_full c key population idx (c.keys[idx]) hk hfull
          (by simp [hlen])⟩

theorem rnd_run_isSome {cap : Int} (h1 : 1 ≤ cap) (hmax : cap ≤ INT_MAX) (ops : List (DrawOp V)) :
    ∀ {c : RandomCache V}, WF cap c → (∀ op ∈ ops, op.drawBelow cap) →
      ∃ c1, c.run ops = some c1 := by
  induction ops with
  | nil => intro c _ _; exact ⟨c, rfl⟩
  | cons op ops ih =>
    intro c h hd
    obtain ⟨c2, hs⟩ := h.rnd_step_isSome h1 hmax op (hd op (List.mem_cons_self _ _))
    obtain ⟨c1, hr⟩ := ih (h.rnd_step (by omega) hmax op hs)
      (fun o ho => hd o (List.mem_cons_of_mem _ ho))
    exact ⟨c1, by simp [RandomCache.run, hs, hr]⟩

end RandomCache

/-! ## Random: cached populations come from the admitting call -/

namespace RandomCache

variable {V : Type}

theorem rnd_ghost_new (cap : Int) (h : 0 ≤ cap) :
    Ghost cap (new cap : RandomCache V) 0 (fun _ => none) where
  wf := rnd_wf_new cap h
  cached := by intro k x hx; simp [new, unordered_map.find] at hx

theorem Ghost.rnd_mono {cap : Int} {c : RandomCache V} {n : Nat}
    {adm : string → Option (Admission V)} (h : Ghost cap c n adm) :
    Ghost cap c (n + 1) adm where
  wf := h.wf
  cached := by
    intro k x hx
    obtain ⟨i, hi, e⟩ := h.cached k x hx
    exact ⟨i, by omega, e⟩

theorem Ghost.rnd_insert {cap : Int} {c c2 : RandomCache V} {n : Nat}
    {adm : string → Option (Admission V)} (h : Ghost cap c n adm)
    (key : string) (population : V)
    (hwf : WF cap c2)
    (hfind : ∀ k x, c2.cacheMap.find k = some x →
      (k = key ∧ x = population) ∨ (k ≠ key ∧ c.cacheMap.find k = some x)) :
    Ghost cap c2 (n + 1)
      (Function.update adm key (some { index := n, population := population })) := by
  refine ⟨hwf, ?_⟩
  intro k x hx
  rcases hfind k x hx with ⟨e1, e2⟩ | ⟨e1, e2⟩
  · subst e1 e2
    exact ⟨n, by omega, by simp⟩
  · obtain ⟨i, hi, e⟩ := h.cached k x e2
    exact ⟨i, by omega, by rw [Function.update_noteq e1]; exact e⟩

theorem Ghost.rnd_ghost_run {cap : Int} (h0 : 0 ≤ cap) (hmax : cap ≤ INT_MAX)
    (ops : List (DrawOp V)) :
    ∀ {c c1 : RandomCache V} {n : Nat} {adm : string → Option (Admission V)},
      Ghost cap c n adm → c.run ops = some c1 →
      Ghost cap c1 (n + ops.length) (admissions c n adm ops) := by
  induction ops with
  | nil =>
    intro c c1 n adm h hr
    simp only [RandomCache.run, Option.some.injEq] at hr
    subst hr
    exact h
  | cons op ops ih =>
    intro c c1 n adm h hr
    have hlen : n + (op :: ops).length = (n + 1) + ops.length := by
      simp only [List.length_cons]; omega
    rw [hlen]
    cases op with
    | get key =>
      simp only [RandomCache.run, RandomCache.step, Option.some_bind] at hr
      simp only [admissions]
      rw [rnd_get_fst] at hr ⊢
      exact ih h.rnd_mono hr
    | put key population idx =>
      simp only [RandomCache.run, RandomCache.step] at hr
      cases hp : c.put key population idx with
      | none => simp [hp] at hr
      | some c2 =>
        rw [hp, Option.some_bind] at hr
        simp only [admissions, hp]
        refine ih ?_ hr
        cases hk : c.cacheMap.find key with
        | some x =>
          have hc : c.cacheMap.count key ≠ 0 := by
            rw [Ne, unordered_map.count_eq_zero_iff]; simp [hk]
          rw [rnd_put_present c key population idx (by simp [hk])] at hp
          cases hp
          simp only [hc, if_false]
          exact h.rnd_mono
        | none =>
          have hc : c.cacheMap.count key = 0 := (unordered_map.count_eq_zero_iff _ _).mpr hk
          simp only [hc, if_true]
          have hwf2 : WF cap c2 := h.wf.rnd_put h0 hmax key population idx hp
          cases hfull : sizeEqCapacity c.cacheMap.size c.capacity with
          | true =>
            cases hv : c.keys[idx]? with
            | none =>
              rw [put_absent_full_none c key population idx hk hfull hv] at hp
              cases hp
            | some victim =>
              rw [rnd_put_absent_full c key population idx victim hk hfull hv] at hp
              cases hp
              refine h.rnd_insert key population hwf2 ?_
              intro k x hx
              simp only [unordered_map.find_assign, unordered_map.find_erase] at hx
              by_cases e : k = key
              · left; simp only [e, if_true, Option.some.injEq] at hx; exact ⟨e, hx.symm⟩
              · right
                simp only [e, if_false] at hx
                split at hx
                · cases hx
                · exact ⟨e, hx⟩
          | false =>
            rw [rnd_put_absent_room c key population idx hk hfull] at hp
            cases hp
            refine h.rnd_insert key population hwf2 ?_
            intro k x hx
            simp only [unordered_map.find_assign] at hx
            by_cases e : k = key
            · left; simp only [e, if_true, Option.some.injEq] at hx; exact ⟨e, hx.symm⟩
            · right; simp only [e, if_false] at hx; exact ⟨e, hx⟩

end RandomCache

/-! ## LFU: cached populations come from the last `put` -/

namespace LFUCache

variable {V : Type}

theorem lastPut_append_get (ops : List (Op V)) (key k : string) :
    lastPut (ops ++ [.get key]) k = lastPut ops k := by
  simp [lastPut, List.foldl_append]

theorem lastPut_append_put (ops : List (Op V)) (key k : string) (population : V) :
    lastPut (ops ++ [.put key population]) k =
      if key = k then some population else lastPut ops k := by
  simp [lastPut, List.foldl_append]

/-- In every reachable state the population stored for a key is the one given
by the last `put` of that key. -/
theorem Reaches.population_eq_lastPut {cap : Int} (h1 : 1 ≤ cap) (hmax : cap ≤ INT_MAX)
    {ops : List (Op V)} {c : LFUCache V} (h : Reaches cap ops c) :
    ∀ k e, c.cacheMap.find k = some e → lastPut ops k = some e.population := by
  induction h with
  | init => intro k e he; simp [new, unordered_map.find] at he
  | @call ops c c1 op hr hs ih =>
    have hwf := hr.wf h1 hmax
    intro k e he
    cases op with
    | get key =>
      rw [lastPut_append_get]
      simp only [LFUCache.step, Option.map_eq_some'] at hs
      obtain ⟨r, hg, e1⟩ := hs
      subst e1
      cases hk : c.cacheMap.find key with
      | none =>
        rw [get_absent c key hk] at hg
        cases hg
        exact ih k e he
      | some entry =>
        obtain ⟨hf, ht⟩ := get_isSome_bounds c key entry r hk hg
        rw [get_present c key entry hk hf ht] at hg
        cases hg
        change (c.cacheMap.assign key _).find k = some e at he
        rw [unordered_map.find_assign] at he
        split at he
        · rename_i hkk
          cases he
          rw [hkk]
          exact ih key entry hk
        · exact ih k e he
    | put key population =>
      rw [lastPut_append_put]
      simp only [LFUCache.step] at hs
      have ht := put_isSome_time c c1 key population hs
      cases hk : c.cacheMap.find key with
      | some entry =>
        have hf := hwf.freq_le_time key entry hk
        rw [lfu_put_present c key population entry hk (by omega) ht] at hs
        cases hs
        change (c.cacheMap.assign key _).find k = some e at he
        rw [unordered_map.find_assign] at he
        split at he
        · rename_i hkk
          cases he
          simp [hkk]
        · rename_i hkk
          rw [if_neg (fun e1 => hkk e1.symm)]
          exact ih k e he
      | none =>
        rw [put_absent c key population hk ht] at hs
        cases hs
        change (unordered_map.assign _ key _).find k = some e at he
        rw [unordered_map.find_assign] at he
        split at he
        · rename_i hkk
          cases he
          simp [hkk]
        · rename_i hkk
          rw [if_neg (fun e1 => hkk e1.symm)]
          split at he
          · rw [unordered_map.find_erase] at he
            split at he
            · cases he
            · exact ih k e he
          · exact ih k e he
  | @rehash ops c m hr hm ih =>
    intro k e he
    have hnd : m.keys.Nodup := (hm.map Prod.fst).nodup_iff.mpr (hr.wf h1 hmax).nodup
    exact ih k e (by rw [← unordered_map.find_perm hm hnd]; exact he)

end LFUCache

/-! ## The normalizer computes the canonical form -/

theorem transform_eq_map (op : Nat → Nat) (s : string) : transform op s = s.map op := by
  induction s with
  | nil => rfl
  | cons c rest ih => simp [transform, ih]

theorem find_if_le (p : Nat → Bool) (s : string) : find_if p s ≤ s.length := by
  induction s with
  | nil => simp [find_if]
  | cons c rest ih =>
    simp only [find_if]
    split
    · omega
    · simp only [List.length_cons]; omega

theorem find_if_spec (p : Nat → Bool) (s : string) :
    (s.take (find_if p s)).filter (fun c => !p c) = s.take (find_if p s) ∧
    (∀ h : find_if p s < s.length, p (s[find_if p s]) = true) := by
  induction s with
  | nil => simp [find_if]
  | cons c rest ih =>
    by_cases hp : p c = true
    · simp [find_if, hp]
    · simp only [Bool.not_eq_true] at hp
      simp only [find_if, hp, Bool.false_eq_true, if_false, List.take_succ_cons,
        List.length_cons, List.getElem_cons_succ]
      refine ⟨?_, ?_⟩
      · rw [List.filter_cons_of_pos (by simp [hp]), ih.1]
      · intro h
        exact ih.2 (by omega)

/-- Loop invariant of `std::remove_if`: below `first` the buffer holds the
kept elements of the first `i` original elements, from `i` on it is
untouched. -/
theorem remove_if_loop_spec (p : Nat → Bool) (orig : string) :
    ∀ (fuel : Nat) (buf : string) (first i : Nat),
      orig.length ≤ i + fuel →
      buf.length = orig.length →
      first ≤ i →
      ((orig.take i).filter (fun c => !p c)).length = first →
      (∀ j, j < first → buf[j]? = ((orig.take i).filter (fun c => !p c))[j]?) →
      (∀ j, i ≤ j → buf[j]? = orig[j]?) →
      (remove_if_loop p fuel buf first i).1.take (remove_if_loop p fuel buf first i).2 =
        orig.filter (fun c => !p c) := by
  intro fuel
  induction fuel with
  | zero =>
    intro buf first i hfuel hlen hle hcount hlow hhigh
    simp only [remove_if_loop]
    have htake : orig.take i = orig := List.take_of_length_le (by omega)
    rw [htake] at hcount hlow
    apply List.ext_getElem?
    intro j
    rw [List.getElem?_take]
    split
    · rename_i hj; exact hlow j hj
    · rename_i hj
      symm
      exact List.getElem?_eq_none (by omega)
  | succ fuel ih =>
    intro buf first i hfuel hlen hle hcount hlow hhigh
    simp only [remove_if_loop]
    cases hc : buf[i]? with
    | none =>
      simp only
      have hi : buf.length ≤ i := by
        by_contra hlt
        have := List.getElem?_eq_getElem (l := buf) (n := i) (by omega)
        rw [hc] at this
        cases this
      have htake : orig.take i = orig := List.take_of_length_le (by omega)
      rw [htake] at hcount hlow
      apply List.ext_getElem?
      intro j
      rw [List.getElem?_take]
      split
      · rename_i hj; exact hlow j hj
      · rename_i hj
        symm
        exact List.getElem?_eq_none (by omega)
    | some c =>
      simp only
      have hoc : orig[i]? = some c := by rw [← hhigh i (le_refl _)]; exact hc
      have hi : i < orig.length := by
        by_contra hge
        rw [List.getElem?_eq_none (by omega)] at hoc
        cases hoc
      have htake : orig.take (i + 1) = orig.take i ++ [c] := by
        rw [List.take_succ, hoc]; rfl
      by_cases hp : p c = true
      · rw [if_pos hp]
        refine ih buf first (i + 1) (by omega) hlen (by omega) ?_ ?_ ?_
        · rw [htake, List.filter_append]; simp [hp, hcount]
        · intro j hj
          rw [htake, List.filter_append]
          simp [hp, hlow j hj]
        · intro j hj
          exact hhigh j (by omega)
      · rw [if_neg hp]
        simp only [Bool.not_eq_true] at hp
        have hfilter : (orig.take (i + 1)).filter (fun c => !p c) =
            (orig.take i).filter (fun c => !p c) ++ [c] := by
          rw [htake, List.filter_append]; simp [hp]
        refine ih (buf.set first c) (first + 1) (i + 1) (by omega)
          (by rw [List.length_set]; exact hlen) (by omega) ?_ ?_ ?_
        · rw [hfilter, List.length_append, hcount]; rfl
        · intro j hj
          rw [hfilter, List.getElem?_set]
          by_cases hjf : first = j
          · subst hjf
            rw [if_pos rfl, if_pos (by omega)]
            rw [List.getElem?_append_right (by omega), hcount]
            simp
          · rw [if_neg hjf, List.getElem?_append_left (by omega)]
            exact hlow j (by omega)
        · intro j hj
          rw [List.getElem?_set, if_neg (by omega)]
          exact hhigh j (by omega)

theorem remove_if_spec (p : Nat → Bool) (s : string) :
    eraseToEnd (remove_if p s).1 (remove_if p s).2 = s.filter (fun c => !p c) := by
  obtain ⟨h1, h2⟩ := find_if_spec p s
  have hle := find_if_le p s
  unfold remove_if eraseToEnd
  split
  · rename_i heq
    rw [heq] at h1
    simp only [List.take_length] at h1 ⊢
    exact h1.symm
  · rename_i hne
    have hlt : find_if p s < s.length := by omega
    have hp := h2 hlt
    have htake : s.take (find_if p s + 1) = s.take (find_if p s) ++ [s[find_if p s]] := by
      rw [List.take_succ, List.getElem?_eq_getElem hlt]; rfl
    have hfilter : (s.take (find_if p s + 1)).filter (fun c => !p c) = s.take (find_if p s) := by
      rw [htake, List.filter_append, h1]; simp [hp]
    refine remove_if_loop_spec p s s.length s (find_if p s) (find_if p s + 1) (by omega) rfl
      (by omega) ?_ ?_ ?_
    · rw [hfilter, List.length_take]; omega
    · intro j hj
      rw [hfilter, List.getElem?_take, if_pos hj]
    · intro j _; rfl

theorem tolower_eq_specLower (c : Nat) : tolower c = specLower c := by
  unfold tolower specLower
  split <;> omega

theorem isspace_iff (c : Nat) : isspace c = decide (c ∈ specWhitespace) := by
  unfold isspace specWhitespace
  rw [decide_eq_decide]
  simp only [List.mem_cons, List.mem_singleton, List.not_mem_nil, or_false]
  omega

theorem normalize_eq_spec (s : string) : normalize s = normalizeSpec s := by
  unfold normalize normalizeSpec
  simp only
  rw [remove_if_spec, transform_eq_map]
  congr 1
  · funext c; rw [isspace_iff]
  · apply List.map_congr_left
    intro c _
    exact tolower_eq_specLower c

theorem count_comma_normalizeSpec (s : string) : (normalizeSpec s).count 44 = s.count 44 := by
  induction s with
  | nil => rfl
  | cons c rest ih =>
    simp only [normalizeSpec, List.map_cons] at ih ⊢
    by_cases hc : c = 44
    · subst hc
      have h1 : specLower 44 = 44 := by decide
      have h2 : (!decide (44 ∈ specWhitespace)) = true := by decide
      rw [h1, List.filter_cons, if_pos h2, List.count_cons_self, List.count_cons_self, ih]
    · have h1 : specLower c ≠ 44 := by
        unfold specLower; split <;> omega
      rw [List.count_cons_of_ne (fun e => hc e.symm)]
      rw [List.filter_cons]
      split
      · rw [List.count_cons_of_ne (fun e => h1 e.symm)]; exact ih
      · exact ih

/-! ## The normalizer is idempotent -/

theorem specLower_specLower (c : Nat) : specLower (specLower c) = specLower c := by
  by_cases h : 65 ≤ c ∧ c ≤ 90
  · have h2 : ¬ (65 ≤ 97 + (c - 65) ∧ 97 + (c - 65) ≤ 90) := by omega
    simp only [specLower, h, and_self, if_true, h2, if_false]
  · simp only [specLower, h, if_false]

theorem normalizeSpec_of_canonical (l : string)
    (h : ∀ c ∈ l, specLower c = c ∧ c ∉ specWhitespace) : normalizeSpec l = l := by
  induction l with
  | nil => rfl
  | cons c rest ih =>
    have hc := h c (List.mem_cons_self _ _)
    have hrest := ih (fun d hd => h d (List.mem_cons_of_mem _ hd))
    simp only [normalizeSpec, List.map_cons] at hrest ⊢
    rw [hc.1, List.filter_cons, if_pos (by simpa using hc.2), hrest]

theorem normalizeSpec_canonical (s : string) :
    ∀ c ∈ normalizeSpec s, specLower c = c ∧ c ∉ specWhitespace := by
  intro c hc
  simp only [normalizeSpec, List.mem_filter, List.mem_map] at hc
  obtain ⟨⟨x, _, hx⟩, hws⟩ := hc
  refine ⟨?_, by simpa using hws⟩
  rw [← hx]
  exact specLower_specLower x


/-! ## The backing store: `searchCSV` scans the records -/

theorem extractUntil_length (delim : Nat) (b : string) :
    ∀ t rest, extractUntil delim b = (t, some rest) → rest.length < b.length := by
  induction b with
  | nil => intro t rest h; simp [extractUntil] at h
  | cons c b ih =>
    intro t rest h
    by_cases hc : c = delim
    · simp only [extractUntil, hc, if_true, Prod.mk.injEq, Option.some.injEq] at h
      rw [← h.2]; simp
    · simp only [extractUntil, hc, if_false, Prod.mk.injEq] at h
      have := ih (extractUntil delim b).1 rest (by rw [← h.2])
      simp only [List.length_cons]
      omega

theorem extractUntil_not_mem (delim : Nat) (b : string) :
    delim ∉ (extractUntil delim b).1 := by
  induction b with
  | nil => simp [extractUntil]
  | cons c b ih =>
    by_cases hc : c = delim
    · simp [extractUntil, hc]
    · simp only [extractUntil, hc, if_false, List.mem_cons, not_or]
      exact ⟨fun e => hc e.symm, ih⟩

theorem extractUntil_none (delim : Nat) (b : string)
    (h : (extractUntil delim b).2 = none) : (extractUntil delim b).1 = b := by
  induction b with
  | nil => rfl
  | cons c b ih =>
    by_cases hc : c = delim
    · simp [extractUntil, hc] at h
    · simp only [extractUntil, hc, if_false] at h ⊢
      rw [ih h]

theorem fileLines_eq (b : string) :
    fileLines b =
      match extractUntil 10 b with
      | (t, some rest) => t :: fileLines rest
      | (t, none) => if t = [] then [] else [t] := by
  induction b with
  | nil => rfl
  | cons c b ih =>
    by_cases hc : c = 10
    · simp [fileLines, extractUntil, hc]
    · simp only [fileLines, extractUntil, hc, if_false]
      rw [ih]
      cases h : extractUntil 10 b with
      | mk t o =>
        cases o with
        | some rest => simp
        | none =>
          simp only
          by_cases ht : t = []
          · simp [ht]
          · simp [ht]

theorem splitFields_eq (l : string) :
    splitFields l =
      match extractUntil 44 l with
      | (t, some rest) => t :: splitFields rest
      | (t, none) => [t] := by
  induction l with
  | nil => rfl
  | cons c l ih =>
    by_cases hc : c = 44
    · simp [splitFields, extractUntil, hc]
    · simp only [splitFields, extractUntil, hc, if_false]
      rw [ih]
      cases h : extractUntil 44 l with
      | mk t o =>
        cases o with
        | some rest => simp
        | none => simp

/-- The three fields `parseRecord` reads are the first three comma-separated
fields of the line; a missing second field reads as empty, a missing third
field leaves `token` as it was. -/
theorem parseRecord_eq (line token : string) :
    parseRecord line token =
      ((splitFields line)[0]?.getD [], (splitFields line)[1]?.getD [],
        (splitFields line)[2]?.getD token) := by
  unfold parseRecord
  have s1 := splitFields_eq line
  cases h1 : extractUntil 44 line with
  | mk t1 o1 =>
    rw [h1] at s1
    cases o1 with
    | none =>
      simp only at s1
      rw [s1]
      simp [getline, istream.ofContent, istream.good, h1]
    | some rest1 =>
      simp only at s1
      have e1 : getline (istream.ofContent line) [] 44 =
          ({ buf := rest1, eofbit := false, failbit := false }, t1) := by
        simp [getline, istream.ofContent, istream.good, h1]
      have s2 := splitFields_eq rest1
      cases h2 : extractUntil 44 rest1 with
      | mk t2 o2 =>
        rw [h2] at s2
        cases o2 with
        | none =>
          simp only at s2
          rw [s1, s2, e1]
          simp [getline, istream.good, h2]
        | some rest2 =>
          simp only at s2
          have e2 : getline { buf := rest1, eofbit := false, failbit := false } [] 44 =
              ({ buf := rest2, eofbit := false, failbit := false }, t2) := by
            simp [getline, istream.good, h2]
          have s3 := splitFields_eq rest2
          cases h3 : extractUntil 44 rest2 with
          | mk t3 o3 =>
            rw [h3] at s3
            cases o3 with
            | none =>
              simp only at s3
              rw [s1, s2, s3, e1]
              simp only [e2]
              simp [getline, istream.good, h3]
            | some rest3 =>
              simp only at s3
              rw [s1, s2, s3, e1]
              simp only [e2]
              simp [getline, istream.good, h3]

theorem parseRecord_code (line token : string) :
    (parseRecord line token).1 = recordCode line := by
  rw [parseRecord_eq]; rfl

theorem parseRecord_city (line token : string) :
    (parseRecord line token).2.1 = recordCity line := by
  rw [parseRecord_eq]; rfl

theorem mem_splitFields_no_comma (l : string) : ∀ f ∈ splitFields l, 44 ∉ f := by
  induction l with
  | nil => intro f hf; simp [splitFields] at hf; simp [hf]
  | cons c l ih =>
    intro f hf
    by_cases hc : c = 44
    · simp only [splitFields, hc, if_true, List.mem_cons] at hf
      rcases hf with e | hf
      · simp [e]
      · exact ih f hf
    · simp only [splitFields, hc, if_false] at hf
      cases hs : splitFields l with
      | nil => simp only [hs, List.mem_singleton] at hf; simp [hf]; exact fun e => hc e.symm
      | cons g gs =>
        simp only [hs, List.mem_cons] at hf
        rcases hf with e | hf
        · rw [e]
          simp only [List.mem_cons, not_or]
          exact ⟨fun e => hc e.symm, ih g (by simp [hs])⟩
        · exact ih f (by simp [hs, hf])

theorem recordCode_no_comma (r : string) : 44 ∉ recordCode r := by
  unfold recordCode
  cases h : (splitFields r)[0]? with
  | none => simp
  | some f => exact mem_splitFields_no_comma r f (List.getElem?_mem h)

theorem recordCity_no_comma (r : string) : 44 ∉ recordCity r := by
  unfold recordCity
  cases h : (splitFields r)[1]? with
  | none => simp
  | some f => exact mem_splitFields_no_comma r f (List.getElem?_mem h)

theorem searchLoop_not_good {V : Type} (stod : string → Option V) (city code : string)
    (fuel : Nat) (file : istream) (line token : string) (h : file.good = false) :
    searchLoop stod city code (fuel + 1) file line token = .returned none := by
  have : (getline file line 10).1.ok = false := by
    simp [getline, h, istream.ok]
  simp [searchLoop, this]

/-- With an iteration bound above the length of the unread input, the loop of
`searchCSV` is the scan of the lines still to read. -/
theorem searchLoop_eq_scan {V : Type} (stod : string → Option V) (city code : string) :
    ∀ (fuel : Nat) (b line token : string), b.length + 2 ≤ fuel →
      searchLoop stod city code fuel { buf := b, eofbit := false, failbit := false } line token =
        scanRecords stod city code (fileLines b) token := by
  intro fuel
  induction fuel with
  | zero => intro b line token h; omega
  | succ fuel ih =>
    intro b line token hfuel
    have hl := fileLines_eq b
    cases h : extractUntil 10 b with
    | mk t o =>
      rw [h] at hl
      cases o with
      | some rest =>
        simp only at hl
        have hg : getline { buf := b, eofbit := false, failbit := false } line 10 =
            ({ buf := rest, eofbit := false, failbit := false }, t) := by
          simp [getline, istream.good, h]
        have hlen := extractUntil_length 10 b t rest h
        rw [hl]
        simp only [searchLoop, hg, istream.ok, scanRecords, Bool.not_false, if_true]
        cases stod (parseRecord t token).2.2 with
        | none => rfl
        | some pop =>
          simp only
          split
          · rfl
          · exact ih rest t _ (by omega)
      | none =>
        simp only at hl
        have hg : getline { buf := b, eofbit := false, failbit := false } line 10 =
            ({ buf := [], eofbit := true, failbit := t.isEmpty }, t) := by
          simp [getline, istream.good, h]
        by_cases ht : t = []
        · rw [hl, if_pos ht]
          simp [searchLoop, hg, istream.ok, ht, scanRecords]
        · rw [hl, if_neg ht]
          have hne : t.isEmpty = false := by
            cases t with
            | nil => exact absurd rfl ht
            | cons _ _ => rfl
          simp only [searchLoop, hg, istream.ok, hne, scanRecords, Bool.not_false, if_true]
          cases stod (parseRecord t token).2.2 with
          | none => rfl
          | some pop =>
            simp only
            split
            · rfl
            · obtain ⟨n, hn⟩ : ∃ n, fuel = n + 1 := ⟨fuel - 1, by omega⟩
              rw [hn]
              exact searchLoop_not_good stod city code n _ _ _ (by simp [istream.good])

/-- The function `searchCSV` on a file that opens: nothing goes to `std::cerr`
and the result is the scan of the records, starting with an empty `token`. In
particular the iteration bound of the model is never used up. -/
theorem searchCSV_eq_scan {V : Type} (stod : string → Option V) (content city code : string) :
    searchCSV (some content) stod city code =
      { cerr := [], result := scanRecords stod city code (records content) [] } := by
  have hl := fileLines_eq content
  unfold searchCSV records
  simp only
  cases h : extractUntil 10 content with
  | mk t o =>
    rw [h] at hl
    cases o with
    | some rest =>
      simp only at hl
      have hg : getline (istream.ofContent content) [] 10 =
          ({ buf := rest, eofbit := false, failbit := false }, t) := by
        simp [getline, istream.ofContent, istream.good, h]
      have hlen := extractUntil_length 10 content t rest h
      rw [hg, hl, List.tail_cons]
      simp only
      rw [searchLoop_eq_scan stod city code _ rest t [] (by omega)]
    | none =>
      simp only at hl
      have hg : getline (istream.ofContent content) [] 10 =
          ({ buf := [], eofbit := true, failbit := t.isEmpty }, t) := by
        simp [getline, istream.ofContent, istream.good, h]
      have htail : (fileLines content).tail = [] := by
        rw [hl]; split <;> rfl
      rw [hg, htail]
      simp only
      rw [searchLoop_not_good stod city code _ _ _ _ (by simp [istream.good])]
      rfl

theorem scanRecords_congr {V : Type} (stod : string → Option V)
    (city code city2 code2 : string)
    (hcity : normalize city2 = normalize city) (hcode : normalize code2 = normalize code)
    (rs : List string) :
    ∀ token, scanRecords stod city2 code2 rs token = scanRecords stod city code rs token := by
  induction rs with
  | nil => intro token; rfl
  | cons r rs ih =>
    intro token
    simp only [scanRecords, hcity, hcode, ih]

/-- The function `searchCSV` depends on the query only through the normalized
city and code. -/
theorem searchCSV_congr {V : Type} (file : Option string) (stod : string → Option V)
    (city code city2 code2 : string)
    (hcity : normalize city2 = normalize city) (hcode : normalize code2 = normalize code) :
    searchCSV file stod city2 code2 = searchCSV file stod city code := by
  cases file with
  | none => rfl
  | some content =>
    rw [searchCSV_eq_scan, searchCSV_eq_scan,
      scanRecords_congr stod city code city2 code2 hcity hcode]

/-- On records that have a numeric third field as far as the scan goes, the
scan returns the third field of the first matching record, whatever `token`
held before. -/
theorem scanRecords_wellformed {V : Type} (stod : string → Option V) (city code : string)
    (rs : List string) :
    ∀ token,
      (∀ pre r post, rs = pre ++ r :: post → (∀ q ∈ pre, ¬ recordMatches city code q) →
        hasNumericThird stod r) →
      scanRecords stod city code rs token =
        .returned ((rs.find? (fun r => decide (recordMatches city code r))).bind
          (fun r => (splitFields r)[2]?.bind stod)) := by
  induction rs with
  | nil => intro token _; rfl
  | cons r rs ih =>
    intro token hwf
    have hnum := hwf [] r rs rfl (by simp)
    unfold hasNumericThird at hnum
    obtain ⟨pop, hbind⟩ := Option.isSome_iff_exists.mp hnum
    obtain ⟨t, ht, hpop⟩ := Option.bind_eq_some.mp hbind
    have htok : (parseRecord r token).2.2 = t := by
      rw [parseRecord_eq]; simp [ht]
    simp only [scanRecords, htok, hpop, parseRecord_code, parseRecord_city]
    by_cases hm : recordMatches city code r
    · have hm2 := hm
      unfold recordMatches at hm2
      rw [if_pos hm2, List.find?_cons_of_pos _ (by simpa using hm)]
      simp [ht, hpop]
    · have hm2 := hm
      unfold recordMatches at hm2
      rw [if_neg hm2, List.find?_cons_of_neg _ (by simpa using hm)]
      apply ih
      intro pre q post hrs hpre
      refine hwf (r :: pre) q post (by rw [hrs]; rfl) ?_
      intro x hx
      rcases List.mem_cons.mp hx with e | hx
      · rw [e]; exact hm
      · exact hpre x hx


theorem wellformed_of_all {V : Type} (stod : string → Option V) (city code : string)
    (rs : List string) (h : ∀ r ∈ rs, hasNumericThird stod r) :
    ∀ pre r post, rs = pre ++ r :: post → (∀ q ∈ pre, ¬ recordMatches city code q) →
      hasNumericThird stod r := by
  intro pre r post hrs _
  exact h r (by rw [hrs]; simp)


/-! ## The coordinator: keys and the store -/

theorem normalize_no_comma (s : string) (h : 44 ∉ s) : 44 ∉ normalize s := by
  have hc : (normalize s).count 44 = s.count 44 := by
    rw [normalize_eq_spec]; exact count_comma_normalizeSpec s
  rw [List.count_eq_zero_of_not_mem h] at hc
  exact List.count_eq_zero.mp hc

/-- A string splits in only one way at a comma between two comma-free parts. -/
theorem append_comma_inj (a b : string) :
    ∀ c d : string, 44 ∉ c → 44 ∉ d → a ++ [44] ++ b = c ++ [44] ++ d → a = c ∧ b = d := by
  induction a with
  | nil =>
    intro c d hc hd h
    cases c with
    | nil => simpa using h
    | cons y c =>
      simp only [List.nil_append, List.cons_append, List.singleton_append,
        List.cons.injEq] at h
      exact absurd (by rw [← h.1]; exact List.mem_cons_self _ _) hc
  | cons x a ih =>
    intro c d hc hd h
    cases c with
    | nil =>
      simp only [List.nil_append, List.cons_append, List.singleton_append,
        List.cons.injEq] at h
      exfalso
      apply hd
      rw [← h.2]
      simp
    | cons y c =>
      simp only [List.cons_append, List.cons.injEq] at h
      have hc2 : 44 ∉ c := fun hm => hc (List.mem_cons_of_mem _ hm)
      obtain ⟨e1, e2⟩ := ih c d hc2 hd (by simpa using h.2)
      exact ⟨by rw [h.1, e1], e2⟩

theorem scanRecords_found {V : Type} (stod : string → Option V) (city code : string)
    (p : V) (rs : List string) :
    ∀ token, scanRecords stod city code rs token = .returned (some p) →
      ∃ r ∈ rs, recordMatches city code r := by
  induction rs with
  | nil => intro token h; simp [scanRecords] at h
  | cons r rs ih =>
    intro token h
    simp only [scanRecords, parseRecord_code, parseRecord_city] at h
    cases hs : stod (parseRecord r token).2.2 with
    | none => simp [hs] at h
    | some pop =>
      simp only [hs] at h
      by_cases hm : normalize (recordCode r) = normalize code ∧
          normalize (recordCity r) = normalize city
      · exact ⟨r, List.mem_cons_self _ _, hm⟩
      · rw [if_neg hm] at h
        obtain ⟨r', hr', hm'⟩ := ih _ h
        exact ⟨r', List.mem_cons_of_mem _ hr', hm'⟩

/-- A query for which `searchCSV` returns a population has a comma-free
normalized code and city: they agree with fields of a record, which are cut at
the commas. -/
theorem searchCSV_found_no_comma {V : Type} (file : Option string)
    (stod : string → Option V) (city code : string) (p : V)
    (h : (searchCSV file stod city code).result = .returned (some p)) :
    44 ∉ normalize code ∧ 44 ∉ normalize city := by
  cases file with
  | none => simp [searchCSV] at h
  | some content =>
    rw [searchCSV_eq_scan] at h
    obtain ⟨r, _, hm⟩ := scanRecords_found stod city code p _ _ h
    unfold recordMatches at hm
    rw [← hm.1, ← hm.2]
    exact ⟨normalize_no_comma _ (recordCode_no_comma r),
      normalize_no_comma _ (recordCity_no_comma r)⟩

/-- A query that has the key of a query answered by the store is the same
query after normalization, and `searchCSV` answers it the same way. -/
theorem same_key_same_answer {V : Type} (file : Option string) (stod : string → Option V)
    (city code city2 code2 : string) (p : V)
    (h : (searchCSV file stod city code).result = .returned (some p))
    (hk : key city2 code2 = key city code) :
    normalize city2 = normalize city ∧ normalize code2 = normalize code ∧
    searchCSV file stod city2 code2 = searchCSV file stod city code := by
  obtain ⟨hc1, hc2⟩ := searchCSV_found_no_comma file stod city code p h
  obtain ⟨e1, e2⟩ := append_comma_inj _ _ _ _ hc1 hc2 hk
  exact ⟨e2, e1, searchCSV_congr file stod city code city2 code2 e2 e1⟩

theorem storeBacked_find {V : Type} (file : Option string) (stod : string → Option V)
    (cache : ICacheStrategy V) (h : StoreBacked file stod cache) (city code : string) (p : V)
    (hf : cache.find (key city code) = some p) :
    (searchCSV file stod city code).result = .returned (some p) := by
  obtain ⟨city0, code0, hk, hr⟩ := h _ p hf
  rw [(same_key_same_answer file stod city0 code0 city code p hr hk).2.2]
  exact hr

/-! ## The coordinator: what `get` and `put` do to the cached populations -/

namespace ICacheStrategy

variable {V : Type}

theorem cache_get_absent (cache : ICacheStrategy V) (k : string) (h : cache.find k = none) :
    cache.get k = some (cache, none) := by
  cases cache with
  | lfu c =>
    have hk : c.cacheMap.find k = none := by
      simpa [ICacheStrategy.find] using h
    simp [ICacheStrategy.get, LFUCache.get_absent c k hk]
  | fifo c =>
    have hk : c.cacheMap.find k = none := h
    simp [ICacheStrategy.get, FIFOCache.fifo_get_fst, FIFOCache.fifo_get_snd, hk]
  | random c =>
    have hk : c.cacheMap.find k = none := h
    simp [ICacheStrategy.get, RandomCache.rnd_get_fst, RandomCache.rnd_get_snd, hk]

/-- A `get` returns the stored population and changes no stored population;
on a miss it changes nothing. -/
theorem cache_get_spec (cache cache1 : ICacheStrategy V) (k : string) (r : Option V)
    (h : cache.get k = some (cache1, r)) :
    r = cache.find k ∧ (∀ k', cache1.find k' = cache.find k') ∧
    (r = none → cache1 = cache) := by
  cases cache with
  | lfu c =>
    simp only [ICacheStrategy.get, Option.map_eq_some', Prod.mk.injEq] at h
    obtain ⟨res, hg, e1, e2⟩ := h
    cases hk : c.cacheMap.find k with
    | none =>
      rw [LFUCache.get_absent c k hk] at hg
      cases hg
      subst e1 e2
      simp [ICacheStrategy.find, hk]
    | some entry =>
      obtain ⟨hf, ht⟩ := LFUCache.get_isSome_bounds c k entry res hk hg
      rw [LFUCache.get_present c k entry hk hf ht] at hg
      cases hg
      subst e1 e2
      refine ⟨by simp [ICacheStrategy.find, hk], ?_, by simp⟩
      intro k'
      simp only [ICacheStrategy.find, unordered_map.find_assign]
      split
      · rename_i hkk; rw [hkk, hk]; rfl
      · rfl
  | fifo c =>
    simp only [ICacheStrategy.get, Option.some.injEq, Prod.mk.injEq,
      FIFOCache.fifo_get_fst, FIFOCache.fifo_get_snd] at h
    obtain ⟨e1, e2⟩ := h
    subst e1 e2
    exact ⟨rfl, fun _ => rfl, fun _ => rfl⟩
  | random c =>
    simp only [ICacheStrategy.get, Option.some.injEq, Prod.mk.injEq,
      RandomCache.rnd_get_fst, RandomCache.rnd_get_snd] at h
    obtain ⟨e1, e2⟩ := h
    subst e1 e2
    exact ⟨rfl, fun _ => rfl, fun _ => rfl⟩

/-- A `put` of a key that is not cached stores the population under that key;
every other population found afterwards was stored before. -/
theorem cache_put_spec (cache cache1 : ICacheStrategy V) (k : string) (p : V) (idx : Nat)
    (hk : cache.find k = none) (h : cache.put k p idx = some cache1) :
    cache1.find k = some p ∧
    ∀ k' x, cache1.find k' = some x → k' ≠ k → cache.find k' = some x := by
  cases cache with
  | lfu c =>
    have hk' : c.cacheMap.find k = none := by
      simpa [ICacheStrategy.find] using hk
    simp only [ICacheStrategy.put, Option.map_eq_some'] at h
    obtain ⟨c1, hp, e⟩ := h
    subst e
    have ht := LFUCache.put_isSome_time c c1 k p hp
    rw [LFUCache.put_absent c k p hk' ht] at hp
    cases hp
    refine ⟨by simp [ICacheStrategy.find, unordered_map.find_assign], ?_⟩
    intro k' x hx hne
    simp only [ICacheStrategy.find, unordered_map.find_assign, if_neg hne] at hx ⊢
    split at hx
    · rw [unordered_map.find_erase] at hx
      split at hx
      · simp at hx
      · exact hx
    · exact hx
  | fifo c =>
    have hk' : c.cacheMap.find k = none := hk
    simp only [ICacheStrategy.put, Option.map_eq_some'] at h
    obtain ⟨c1, hp, e⟩ := h
    subst e
    cases hfull : sizeEqCapacity c.cacheMap.size c.capacity with
    | true =>
      cases ho : c.order with
      | nil =>
        simp [FIFOCache.put, (unordered_map.count_eq_zero_iff _ _).mpr hk', hfull, ho] at hp
      | cons oldest rest =>
        rw [FIFOCache.fifo_put_absent_full c k p oldest rest hk' hfull ho] at hp
        cases hp
        refine ⟨by simp [ICacheStrategy.find, unordered_map.find_assign], ?_⟩
        intro k' x hx hne
        simp only [ICacheStrategy.find, unordered_map.find_assign, if_neg hne,
          unordered_map.find_erase] at hx ⊢
        split at hx
        · cases hx
        · exact hx
    | false =>
      rw [FIFOCache.fifo_put_absent_room c k p hk' hfull] at hp
      cases hp
      refine ⟨by simp [ICacheStrategy.find, unordered_map.find_assign], ?_⟩
      intro k' x hx hne
      simpa [ICacheStrategy.find, unordered_map.find_assign, hne] using hx
  | random c =>
    have hk' : c.cacheMap.find k = none := hk
    simp only [ICacheStrategy.put, Option.map_eq_some'] at h
    obtain ⟨c1, hp, e⟩ := h
    subst e
    cases hfull : sizeEqCapacity c.cacheMap.size c.capacity with
    | true =>
      cases hv : c.keys[idx]? with
      | none =>
        rw [RandomCache.put_absent_full_none c k p idx hk' hfull hv] at hp
        cases hp
      | some victim =>
        rw [RandomCache.rnd_put_absent_full c k p idx victim hk' hfull hv] at hp
        cases hp
        refine ⟨by simp [ICacheStrategy.find, unordered_map.find_assign], ?_⟩
        intro k' x hx hne
        simp only [ICacheStrategy.find, unordered_map.find_assign, if_neg hne,
          unordered_map.find_erase] at hx ⊢
        split at hx
        · cases hx
        · exact hx
    | false =>
      rw [RandomCache.rnd_put_absent_room c k p idx hk' hfull] at hp
      cases hp
      refine ⟨by simp [ICacheStrategy.find, unordered_map.find_assign], ?_⟩
      intro k' x hx hne
      simpa [ICacheStrategy.find, unordered_map.find_assign, hne] using hx

end ICacheStrategy


/-! ## The coordinator: replies agree with the store -/

theorem storeBacked_new {V : Type} (file : Option string) (stod : string → Option V)
    (kind : StrategyKind) (cap : Int) :
    StoreBacked file stod (ICacheStrategy.new kind cap) := by
  intro k p h
  cases kind <;>
    simp [ICacheStrategy.new, ICacheStrategy.find, LFUCache.new, FIFOCache.new,
      RandomCache.new, unordered_map.find] at h

/-- One lookup from a cache whose entries are backed by the store: the reply
agrees with the direct store lookup, the entries stay backed by the store, and
a lookup that reports no population leaves the cache as it was. -/
theorem lookup_spec {V : Type} (file : Option string) (stod : string → Option V)
    (cache cache1 : ICacheStrategy V) (city code : string) (idx : Nat) (reply : Reply V)
    (hb : StoreBacked file stod cache)
    (h : lookup file stod cache city code idx = some (cache1, reply)) :
    Agrees file stod { city := city, code := code, idx := idx } reply ∧
    StoreBacked file stod cache1 ∧
    ((reply = .notFound ∨ reply = .terminated) → cache1 = cache) := by
  unfold lookup at h
  cases hg : cache.get (key city code) with
  | none => simp [hg] at h
  | some res =>
    obtain ⟨c2, r⟩ := res
    obtain ⟨hr, hfind, hsame⟩ := ICacheStrategy.cache_get_spec cache c2 _ r hg
    rw [hg] at h
    cases r with
    | some population =>
      simp only [Option.some.injEq, Prod.mk.injEq] at h
      obtain ⟨e1, e2⟩ := h
      subst e1 e2
      have hres := storeBacked_find file stod cache hb city code population hr.symm
      refine ⟨by simp [Agrees, hres, eq_comm], ?_, by simp⟩
      intro k p hk
      exact hb k p (by rw [← hfind]; exact hk)
    | none =>
      have hc := hsame rfl
      subst hc
      simp only at h
      cases hres : (searchCSV file stod city code).result with
      | returned v =>
        cases v with
        | some p =>
          simp only [hres, Option.map_eq_some', Prod.mk.injEq] at h
          obtain ⟨c3, hp, e1, e2⟩ := h
          subst e1 e2
          obtain ⟨hnew, hold⟩ := ICacheStrategy.cache_put_spec c2 c3 _ p idx hr.symm hp
          refine ⟨by simp [Agrees, hres, eq_comm], ?_, by simp⟩
          intro k x hk
          by_cases hkk : k = key city code
          · rw [hkk, hnew] at hk
            cases hk
            exact ⟨city, code, hkk, hres⟩
          · exact hb k x (hold k x hk hkk)
        | none =>
          simp only [hres, Option.some.injEq, Prod.mk.injEq] at h
          obtain ⟨e1, e2⟩ := h
          subst e1 e2
          exact ⟨by simp [Agrees, hres], hb, fun _ => rfl⟩
      | threw =>
        simp only [hres, Option.some.injEq, Prod.mk.injEq] at h
        obtain ⟨e1, e2⟩ := h
        subst e1 e2
        exact ⟨by simp [Agrees, hres], hb, fun _ => rfl⟩
      | unfinished => simp [hres] at h

/-- A sequence of lookups from a cache whose entries are backed by the store:
every reply agrees with the direct store lookup of its query, and the entries
of the final cache are backed by the store. -/
theorem lookups_spec {V : Type} (file : Option string) (stod : string → Option V)
    (qs : List Query) :
    ∀ (cache cache1 : ICacheStrategy V) (replies : List (Reply V)),
      StoreBacked file stod cache →
      lookups file stod cache qs = some (cache1, replies) →
      StoreBacked file stod cache1 ∧ replies.length ≤ qs.length ∧
      ∀ (i : Nat) (q : Query) (r : Reply V),
        qs[i]? = some q → replies[i]? = some r → Agrees file stod q r := by
  induction qs with
  | nil =>
    intro cache cache1 replies hb h
    simp only [lookups, Option.some.injEq, Prod.mk.injEq] at h
    obtain ⟨e1, e2⟩ := h
    subst e1 e2
    exact ⟨hb, le_refl _, by intro i q r hq; simp at hq⟩
  | cons q0 qs ih =>
    intro cache cache1 replies hb h
    cases hl : lookup file stod cache q0.city q0.code q0.idx with
    | none => simp [lookups, hl] at h
    | some res =>
      obtain ⟨c2, reply⟩ := res
      obtain ⟨hagree, hb2, _⟩ := lookup_spec file stod cache c2 q0.city q0.code q0.idx reply hb hl
      have hhead : ∀ (i : Nat) (q : Query) (r : Reply V),
          (q0 :: qs)[i]? = some q → [reply][i]? = some r → Agrees file stod q r := by
        intro i q r hq hr
        cases i with
        | zero =>
          simp only [List.getElem?_cons_zero, Option.some.injEq] at hq hr
          subst hq hr
          exact hagree
        | succ j => simp at hr
      by_cases hterm : reply = .terminated
      · subst hterm
        simp only [lookups, hl, Option.some.injEq, Prod.mk.injEq] at h
        obtain ⟨e1, e2⟩ := h
        subst e1 e2
        exact ⟨hb2, by simp, hhead⟩
      · have h2 : (lookups file stod c2 qs).map (fun r => (r.1, reply :: r.2)) =
            some (cache1, replies) := by
          cases reply with
          | terminated => exact absurd rfl hterm
          | cacheHit p => simpa [lookups, hl] using h
          | csvLookup p => simpa [lookups, hl] using h
          | notFound => simpa [lookups, hl] using h
        simp only [Option.map_eq_some', Prod.mk.injEq] at h2
        obtain ⟨res2, hrest, e1, e2⟩ := h2
        obtain ⟨hb3, hlen, hall⟩ := ih c2 res2.1 res2.2 hb2 hrest
        subst e1 e2
        refine ⟨hb3, by simp only [List.length_cons]; omega, ?_⟩
        intro i q r hq hr
        cases i with
        | zero =>
          simp only [List.getElem?_cons_zero, Option.some.injEq] at hq hr
          subst hq hr
          exact hagree
        | succ j =>
          simp only [List.getElem?_cons_succ] at hq hr
          exact hall j q r hq hr


/-! ## The coordinator: lookups are defined -/

theorem scanRecords_ne_unfinished {V : Type} (stod : string → Option V) (city code : string)
    (rs : List string) : ∀ token, scanRecords stod city code rs token ≠ .unfinished := by
  induction rs with
  | nil => intro token h; cases h
  | cons r rs ih =>
    intro token h
    simp only [scanRecords] at h
    cases hs : stod (parseRecord r token).2.2 with
    | none => simp [hs] at h
    | some pop =>
      simp only [hs] at h
      split at h
      · cases h
      · exact ih _ h

/-- The iteration bound in the model of `searchCSV` is never used up. -/
theorem searchCSV_ne_unfinished {V : Type} (file : Option string) (stod : string → Option V)
    (city code : string) : (searchCSV file stod city code).result ≠ .unfinished := by
  cases file with
  | none => intro h; cases h
  | some content =>
    rw [searchCSV_eq_scan]
    exact scanRecords_ne_unfinished stod city code _ _

theorem wf_cache_new {V : Type} (kind : StrategyKind) (cap : Int) (h : 0 ≤ cap) :
    (ICacheStrategy.new kind cap : ICacheStrategy V).WF cap := by
  cases kind
  · exact LFUCache.lfu_wf_new cap h
  · exact FIFOCache.fifo_wf_new cap h
  · exact RandomCache.rnd_wf_new cap h

/-- A lookup from a well-formed cache is defined when the LFU clock is below
`INT_MAX` and the index drawn for a random eviction is below the capacity; the
cache stays well-formed, keeps its kind, and the clock advances by at most
one. -/
theorem lookup_isSome {V : Type} (file : Option string) (stod : string → Option V)
    (cap : Int) (h1 : 1 ≤ cap) (hmax : cap ≤ INT_MAX)
    (cache : ICacheStrategy V) (city code : string) (idx : Nat)
    (hwf : cache.WF cap)
    (hclock : cache.kind = .lfu → cache.clock < INT_MAX)
    (hidx : cache.kind = .random → (idx : Int) < cap) :
    ∃ cache1 reply, lookup file stod cache city code idx = some (cache1, reply) ∧
      cache1.WF cap ∧ cache1.kind = cache.kind ∧ cache1.clock ≤ cache.clock + 1 := by
  have hres := searchCSV_ne_unfinished file stod city code
  cases cache with
  | lfu c =>
    have hwf' : LFUCache.WF cap c := hwf
    have ht : c.currentTime < INT_MAX := hclock rfl
    cases hk : c.cacheMap.find (key city code) with
    | some entry =>
      have hf := hwf'.freq_le_time _ entry hk
      obtain ⟨r, hg, hclk⟩ : ∃ r, c.get (key city code) = some (r, some entry.population) ∧
          r.currentTime = c.currentTime + 1 :=
        ⟨_, LFUCache.get_present c _ entry hk (by omega) ht, rfl⟩
      exact ⟨.lfu r, .cacheHit entry.population, by simp [lookup, ICacheStrategy.get, hg],
        hwf'.get _ _ hg, rfl, by simp [ICacheStrategy.clock, hclk]⟩
    | none =>
      have hg := LFUCache.get_absent c _ hk
      cases hr : (searchCSV file stod city code).result with
      | unfinished => exact absurd hr hres
      | threw =>
        exact ⟨.lfu c, .terminated, by simp [lookup, ICacheStrategy.get, hg, hr], hwf, rfl,
          by simp [ICacheStrategy.clock]⟩
      | returned v =>
        cases v with
        | none =>
          exact ⟨.lfu c, .notFound, by simp [lookup, ICacheStrategy.get, hg, hr], hwf, rfl,
            by simp [ICacheStrategy.clock]⟩
        | some p =>
          obtain ⟨c1, hp, hclk⟩ : ∃ c1, c.put (key city code) p = some c1 ∧
              c1.currentTime = c.currentTime + 1 :=
            ⟨_, LFUCache.put_absent c (key city code) p hk ht, rfl⟩
          exact ⟨.lfu c1, .csvLookup p,
            by simp [lookup, ICacheStrategy.get, ICacheStrategy.put, hg, hr, hp],
            hwf'.lfu_put h1 hmax _ _ hp, rfl, by simp [ICacheStrategy.clock, hclk]⟩
  | fifo c =>
    have hwf' : FIFOCache.WF cap c := hwf
    cases hk : c.cacheMap.find (key city code) with
    | some x =>
      exact ⟨.fifo c, .cacheHit x,
        by simp [lookup, ICacheStrategy.get, FIFOCache.fifo_get_fst, FIFOCache.fifo_get_snd, hk],
        hwf, rfl, by simp [ICacheStrategy.clock]⟩
    | none =>
      cases hr : (searchCSV file stod city code).result with
      | unfinished => exact absurd hr hres
      | threw =>
        exact ⟨.fifo c, .terminated,
          by simp [lookup, ICacheStrategy.get, FIFOCache.fifo_get_fst, FIFOCache.fifo_get_snd,
            hk, hr],
          hwf, rfl, by simp [ICacheStrategy.clock]⟩
      | returned v =>
        cases v with
        | none =>
          exact ⟨.fifo c, .notFound,
            by simp [lookup, ICacheStrategy.get, FIFOCache.fifo_get_fst,
              FIFOCache.fifo_get_snd, hk, hr],
            hwf, rfl, by simp [ICacheStrategy.clock]⟩
        | some p =>
          obtain ⟨c1, hp⟩ := hwf'.fifo_step_isSome h1 hmax (.put (key city code) p)
          simp only [FIFOCache.step] at hp
          refine ⟨.fifo c1, .csvLookup p,
            by simp [lookup, ICacheStrategy.get, ICacheStrategy.put, FIFOCache.fifo_get_fst,
              FIFOCache.fifo_get_snd, hk, hr, hp], ?_, rfl, by simp [ICacheStrategy.clock]⟩
          exact hwf'.fifo_put (by omega) hmax _ _ hp
  | random c =>
    have hwf' : RandomCache.WF cap c := hwf
    cases hk : c.cacheMap.find (key city code) with
    | some x =>
      exact ⟨.random c, .cacheHit x,
        by simp [lookup, ICacheStrategy.get, RandomCache.rnd_get_fst, RandomCache.rnd_get_snd,
          hk],
        hwf, rfl, by simp [ICacheStrategy.clock]⟩
    | none =>
      cases hr : (searchCSV file stod city code).result with
      | unfinished => exact absurd hr hres
      | threw =>
        exact ⟨.random c, .terminated,
          by simp [lookup, ICacheStrategy.get, RandomCache.rnd_get_fst,
            RandomCache.rnd_get_snd, hk, hr],
          hwf, rfl, by simp [ICacheStrategy.clock]⟩
      | returned v =>
        cases v with
        | none =>
          exact ⟨.random c, .notFound,
            by simp [lookup, ICacheStrategy.get, RandomCache.rnd_get_fst,
              RandomCache.rnd_get_snd, hk, hr],
            hwf, rfl, by simp [ICacheStrategy.clock]⟩
        | some p =>
          obtain ⟨c1, hp⟩ := hwf'.rnd_step_isSome h1 hmax (.put (key city code) p idx)
            (by simpa [DrawOp.drawBelow] using hidx rfl)
          simp only [RandomCache.step] at hp
          refine ⟨.random c1, .csvLookup p,
            by simp [lookup, ICacheStrategy.get, ICacheStrategy.put, RandomCache.rnd_get_fst,
              RandomCache.rnd_get_snd, hk, hr, hp], ?_, rfl, by simp [ICacheStrategy.clock]⟩
          exact hwf'.rnd_put (by omega) hmax _ _ _ hp

/-- A sequence of lookups from a well-formed cache is defined when the LFU
clock cannot reach `INT_MAX` and the indices drawn for random evictions are
below the capacity. -/
theorem lookups_isSome {V : Type} (file : Option string) (stod : string → Option V)
    (cap : Int) (h1 : 1 ≤ cap) (hmax : cap ≤ INT_MAX) (qs : List Query) :
    ∀ cache : ICacheStrategy V, cache.WF cap →
      (cache.kind = .lfu → cache.clock + qs.length ≤ INT_MAX) →
      (cache.kind = .random → ∀ q ∈ qs, (q.idx : Int) < cap) →
      ∃ res, lookups file stod cache qs = some res := by
  induction qs with
  | nil => intro cache _ _ _; exact ⟨_, rfl⟩
  | cons q qs ih =>
    intro cache hwf hclock hidx
    simp only [List.length_cons, Nat.cast_add, Nat.cast_one] at hclock
    obtain ⟨c1, reply, hl, hwf1, hkind, hc1⟩ := lookup_isSome file stod cap h1 hmax cache
      q.city q.code q.idx hwf (fun hk => by have := hclock hk; omega)
      (fun hk => hidx hk q (List.mem_cons_self _ _))
    obtain ⟨res, hres⟩ := ih c1 hwf1
      (fun hk => by have := hclock (hkind ▸ hk); omega)
      (fun hk q' hq' => hidx (hkind ▸ hk) q' (List.mem_cons_of_mem _ hq'))
    cases reply with
    | terminated => exact ⟨(c1, [.terminated]), by simp [lookups, hl]⟩
    | cacheHit p => exact ⟨(res.1, .cacheHit p :: res.2), by simp [lookups, hl, hres]⟩
    | csvLookup p => exact ⟨(res.1, .csvLookup p :: res.2), by simp [lookups, hl, hres]⟩
    | notFound => exact ⟨(res.1, .notFound :: res.2), by simp [lookups, hl, hres]⟩


/-! ## The coordinator: first lookup and repeated lookup -/

theorem scanRecords_first_match {V : Type} (stod : string → Option V) (city code : string)
    (r third : string) (post : List string) (pop : V)
    (hm : recordMatches city code r)
    (hthird : (splitFields r)[2]? = some third) (hpop : stod third = some pop)
    (pre : List string) :
    ∀ token, (∀ q ∈ pre, hasNumericThird stod q) →
      (∀ q ∈ pre, ¬ recordMatches city code q) →
      scanRecords stod city code (pre ++ r :: post) token = .returned (some pop) := by
  induction pre with
  | nil =>
    intro token _ _
    have htok : (parseRecord r token).2.2 = third := by
      rw [parseRecord_eq]; simp [hthird]
    unfold recordMatches at hm
    simp [scanRecords, htok, hpop, parseRecord_code, parseRecord_city, hm]
  | cons q pre ih =>
    intro token hnum hno
    have hq := hnum q (List.mem_cons_self _ _)
    unfold hasNumericThird at hq
    obtain ⟨x, hbind⟩ := Option.isSome_iff_exists.mp hq
    obtain ⟨t, ht, hx⟩ := Option.bind_eq_some.mp hbind
    have htok : (parseRecord q token).2.2 = t := by
      rw [parseRecord_eq]; simp [ht]
    have hnm := hno q (List.mem_cons_self _ _)
    unfold recordMatches at hnm
    simp only [List.cons_append, scanRecords, htok, hx, parseRecord_code, parseRecord_city,
      if_neg hnm]
    exact ih t (fun a ha => hnum a (List.mem_cons_of_mem _ ha))
      (fun a ha => hno a (List.mem_cons_of_mem _ ha))

/-- A `put` into a freshly built cache of capacity at least 1 is defined for
every drawn index, and the cache stays well-formed. -/
theorem cache_put_new {V : Type} (kind : StrategyKind) (cap : Int) (h1 : 1 ≤ cap)
    (hmax : cap ≤ INT_MAX) (k : string) (p : V) (idx : Nat) :
    ∃ c1, (ICacheStrategy.new kind cap : ICacheStrategy V).put k p idx = some c1 ∧
      c1.WF cap ∧ (c1.kind = .lfu → c1.clock < INT_MAX) := by
  have hroom : sizeEqCapacity 0 cap = false := by
    cases hs : sizeEqCapacity 0 cap with
    | false => rfl
    | true =>
      have := (sizeEqCapacity_iff 0 cap (by omega) hmax).mp hs
      simp at this
      omega
  cases kind with
  | lfu =>
    obtain ⟨c1, hp, hclk⟩ : ∃ c1, (LFUCache.new cap : LFUCache V).put k p = some c1 ∧
        c1.currentTime = 1 :=
      ⟨_, LFUCache.put_absent (LFUCache.new cap) k p rfl (by simp [LFUCache.new, INT_MAX]),
        by simp [LFUCache.new]⟩
    refine ⟨.lfu c1, by simp [ICacheStrategy.new, ICacheStrategy.put, hp], ?_, ?_⟩
    · exact (LFUCache.lfu_wf_new cap (by omega)).lfu_put h1 hmax k p hp
    · intro _
      simp [ICacheStrategy.clock, hclk, INT_MAX]
  | fifo =>
    have hp := FIFOCache.fifo_put_absent_room (FIFOCache.new cap : FIFOCache V) k p rfl hroom
    refine ⟨.fifo _, by simp only [ICacheStrategy.new, ICacheStrategy.put, hp]; rfl, ?_, ?_⟩
    · exact (FIFOCache.fifo_wf_new cap (by omega)).fifo_put (by omega) hmax k p hp
    · intro h; cases h
  | random =>
    have hp := RandomCache.rnd_put_absent_room (RandomCache.new cap : RandomCache V) k p idx
      rfl hroom
    refine ⟨.random _, by simp only [ICacheStrategy.new, ICacheStrategy.put, hp]; rfl, ?_, ?_⟩
    · exact (RandomCache.rnd_wf_new cap (by omega)).rnd_put (by omega) hmax k p idx hp
    · intro h; cases h

/-- A lookup whose key is cached is a cache hit, when the LFU clock is below
`INT_MAX`. -/
theorem lookup_hit {V : Type} (file : Option string) (stod : string → Option V)
    (cap : Int) (cache : ICacheStrategy V) (city code : string) (idx : Nat) (p : V)
    (hwf : cache.WF cap)
    (hclock : cache.kind = .lfu → cache.clock < INT_MAX)
    (hf : cache.find (key city code) = some p) :
    ∃ cache1, lookup file stod cache city code idx = some (cache1, .cacheHit p) := by
  cases cache with
  | lfu c =>
    have hwf' : LFUCache.WF cap c := hwf
    have ht : c.currentTime < INT_MAX := hclock rfl
    simp only [ICacheStrategy.find, Option.map_eq_some'] at hf
    obtain ⟨entry, hk, hpe⟩ := hf
    have hfr := hwf'.freq_le_time _ entry hk
    obtain ⟨r, hg⟩ : ∃ r, c.get (key city code) = some (r, some entry.population) :=
      ⟨_, LFUCache.get_present c _ entry hk (by omega) ht⟩
    exact ⟨.lfu r, by simp [lookup, ICacheStrategy.get, hg, hpe]⟩
  | fifo c =>
    have hk : c.cacheMap.find (key city code) = some p := hf
    exact ⟨.fifo c, by
      simp [lookup, ICacheStrategy.get, FIFOCache.fifo_get_fst, FIFOCache.fifo_get_snd, hk]⟩
  | random c =>
    have hk : c.cacheMap.find (key city code) = some p := hf
    exact ⟨.random c, by
      simp [lookup, ICacheStrategy.get, RandomCache.rnd_get_fst, RandomCache.rnd_get_snd, hk]⟩

theorem key_congr (city code city2 code2 : string)
    (hcity : normalize city2 = normalize city) (hcode : normalize code2 = normalize code) :
    key city2 code2 = key city code := by
  simp [key, hcity, hcode]

theorem find_cache_new {V : Type} (kind : StrategyKind) (cap : Int) (k : string) :
    (ICacheStrategy.new kind cap : ICacheStrategy V).find k = none := by
  cases kind <;> rfl


/-! ## The claims -/

/-- C1: for each of the three strategies, built with a capacity `cap ≥ 1` and
starting empty, the number of cached entries is at most `cap` after every
finite sequence of `get` and `put` calls: for LFU in every state reachable in
any iteration order of the map (and a state is reached as long as the `int`
clock cannot overflow), for FIFO after every sequence, for Random whatever
indices are drawn (and every sequence whose draws are below `cap` runs). -/
theorem C1_size_le_capacity (V : Type) (cap : Int) (h1 : 1 ≤ cap) (hmax : cap ≤ INT_MAX) :
    (∀ (ops : List (Op V)) (c : LFUCache V),
      LFUCache.Reaches cap ops c → (c.cacheMap.size : Int) ≤ cap) ∧
    (∀ ops : List (Op V), (ops.length : Int) ≤ INT_MAX →
      ∃ c : LFUCache V, LFUCache.Reaches cap ops c) ∧
    (∀ ops : List (Op V), ∃ c : FIFOCache V,
      (FIFOCache.new cap).run ops = some c ∧ (c.cacheMap.size : Int) ≤ cap) ∧
    (∀ (ops : List (DrawOp V)) (c : RandomCache V),
      (RandomCache.new cap).run ops = some c → (c.cacheMap.size : Int) ≤ cap) ∧
    (∀ ops : List (DrawOp V), (∀ op ∈ ops, op.drawBelow cap) →
      ∃ c : RandomCache V, (RandomCache.new cap).run ops = some c) := by
  refine ⟨?_, ?_, ?_, ?_, ?_⟩
  · intro ops c h
    exact (h.wf h1 hmax).size_le
  · intro ops hlen
    obtain ⟨c, hc⟩ := LFUCache.lfu_run_isSome h1 hmax ops (LFUCache.new cap)
      (LFUCache.lfu_wf_new cap (by omega)) (by simpa [LFUCache.new] using hlen)
    exact ⟨c, LFUCache.run_reaches ops hc⟩
  · intro ops
    have hwf := FIFOCache.fifo_wf_new (V := V) cap (by omega)
    obtain ⟨c, hc⟩ := FIFOCache.fifo_run_isSome h1 hmax ops hwf
    exact ⟨c, hc, (FIFOCache.WF.fifo_run (by omega) hmax ops hwf hc).size_le⟩
  · intro ops c hc
    exact (RandomCache.WF.rnd_run (by omega) hmax ops (RandomCache.rnd_wf_new cap (by omega)) hc).size_le
  · intro ops hd
    exact RandomCache.rnd_run_isSome h1 hmax ops (RandomCache.rnd_wf_new cap (by omega)) hd

/-- C1 at capacity 2 after three insertions of distinct keys: each cache holds
two entries. -/
theorem C1_size_le_capacity_witness :
    ((1 : Int) ≤ 2 ∧ (2 : Int) ≤ INT_MAX) ∧
    (LFUCache.Reaches 2 putABC lfuAfterABC ∧ (lfuAfterABC.cacheMap.size : Int) ≤ 2) ∧
    ((RandomCache.new 2).run drawABC = some randomAfterABC ∧
      (randomAfterABC.cacheMap.size : Int) ≤ 2) :=
  ⟨⟨by decide, by decide⟩,
   ⟨LFUCache.run_reaches putABC rfl,
    (C1_size_le_capacity Nat 2 (by decide) (by decide)).1 putABC lfuAfterABC
      (LFUCache.run_reaches putABC rfl)⟩,
   ⟨rfl, (C1_size_le_capacity Nat 2 (by decide) (by decide)).2.2.2.1 drawABC randomAfterABC rfl⟩⟩

/-- C2: in every LFU state reachable from empty with capacity `cap ≥ 1` (in any
iteration order of the map), `put(key, population)` of an absent key into a
full cache, the clock being below `INT_MAX`, removes exactly one entry: the
one with the least `freq` and, among those, the least `time`, which is
strictly before every other entry in that order. Every other entry is left
unchanged and `key` is inserted with `freq` 1 and `time` equal to the advanced
clock. With capacity 2, `put(A,1); put(B,2); get(A); put(C,3)` evicts `B`, and
`put(A,1); put(B,2); put(C,3)` evicts `A`. -/
theorem C2_lfu_evicts_least_used (V : Type) (cap : Int) (h1 : 1 ≤ cap) (hmax : cap ≤ INT_MAX) :
    (∀ (ops : List (Op V)) (c : LFUCache V) (key : string) (population : V),
      LFUCache.Reaches cap ops c →
      c.cacheMap.find key = none →
      (c.cacheMap.size : Int) = cap →
      c.currentTime < INT_MAX →
      ∃ (victimKey : string) (victim : CacheEntry V) (c1 : LFUCache V),
        c.put key population = some c1 ∧
        c.cacheMap.find victimKey = some victim ∧
        (∀ k e, c.cacheMap.find k = some e → k ≠ victimKey →
          victim.freq < e.freq ∨ (victim.freq = e.freq ∧ victim.time < e.time)) ∧
        c1.cacheMap.find victimKey = none ∧
        (∀ k, k ≠ victimKey → k ≠ key → c1.cacheMap.find k = c.cacheMap.find k) ∧
        c1.cacheMap.find key =
          some { key := key, population := population, freq := 1, time := c.currentTime + 1 } ∧
        c1.currentTime = c.currentTime + 1 ∧
        c1.cacheMap.size = c.cacheMap.size) ∧
    ((∃ c, LFUCache.Reaches 2 putABgetA c) ∧
      (∀ c, LFUCache.Reaches 2 putABgetA c →
        (c.cacheMap.find keyA).isSome ∧ (c.cacheMap.find keyB).isSome ∧
        (c.cacheMap.size : Int) = 2 ∧ c.cacheMap.find keyC = none) ∧
      (∃ c, LFUCache.Reaches 2 putABgetAputC c) ∧
      (∀ c, LFUCache.Reaches 2 putABgetAputC c →
        c.cacheMap.find keyB = none ∧
        (c.cacheMap.find keyA).isSome ∧ (c.cacheMap.find keyC).isSome)) ∧
    ((∃ c, LFUCache.Reaches 2 putAB c) ∧
      (∀ c, LFUCache.Reaches 2 putAB c →
        (c.cacheMap.find keyA).isSome ∧ (c.cacheMap.find keyB).isSome ∧
        (c.cacheMap.size : Int) = 2 ∧ c.cacheMap.find keyC = none) ∧
      (∃ c, LFUCache.Reaches 2 putABC c) ∧
      (∀ c, LFUCache.Reaches 2 putABC c →
        c.cacheMap.find keyA = none ∧
        (c.cacheMap.find keyB).isSome ∧ (c.cacheMap.find keyC).isSome)) := by
  have h2 : (1 : Int) ≤ 2 := by decide
  have h3 : (2 : Int) ≤ INT_MAX := by decide
  refine ⟨?_, ⟨?_, ?_, ?_, ?_⟩, ⟨?_, ?_, ?_, ?_⟩⟩
  · intro ops c key population hreach habsent hfull hclock
    have hwf := hreach.wf h1 hmax
    obtain ⟨victim, hv, hmin⟩ := hwf.scan_least h1 hfull hclock
    have hsz : sizeEqCapacity c.cacheMap.size c.capacity = true := by
      rw [hwf.capacity_eq]
      exact (sizeEqCapacity_iff _ cap (by omega) hmax).mpr hfull
    have hne : (LFUCache.scan c.cacheMap).evictKey ≠ key := by
      intro e
      rw [e, habsent] at hv
      cases hv
    have hmem : (LFUCache.scan c.cacheMap).evictKey ∈ c.cacheMap.keys := by
      rw [← unordered_map.find_isSome_iff, hv]; rfl
    refine ⟨(LFUCache.scan c.cacheMap).evictKey, victim, _,
      LFUCache.put_absent c key population habsent hclock, hv, hmin, ?_, ?_, ?_, rfl, ?_⟩
    · simp only [hsz, if_true]
      rw [unordered_map.find_assign, if_neg hne, unordered_map.find_erase, if_pos rfl]
    · intro k hk1 hk2
      simp only [hsz, if_true]
      rw [unordered_map.find_assign, if_neg hk2, unordered_map.find_erase, if_neg hk1]
    · simp only [hsz, if_true]
      rw [unordered_map.find_assign, if_pos rfl]
    · simp only [hsz, if_true]
      show List.length _ = List.length _
      have hk2 : (c.cacheMap.erase (LFUCache.scan c.cacheMap).evictKey).find key = none := by
        rw [unordered_map.find_erase]; split <;> simp [habsent]
      rw [unordered_map.assign_absent _ _ _ hk2, List.length_append, List.length_singleton]
      exact unordered_map.length_erase c.cacheMap hwf.nodup _ hmem
  · exact ⟨_, LFUCache.run_reaches putABgetA rfl⟩
  · intro c hc
    have hsame := hc.sameUpToOrder h2 h3
    obtain ⟨c0, hrun, hs⟩ := hsame
    have hlen : c.cacheMap.length = 2 := by
      rw [hs.perm.length_eq]
      have : some c0 = some (α := LFUCache Nat)
          { capacity := 2, currentTime := 3,
            cacheMap := [(keyA, { key := keyA, population := 1, freq := 2, time := 3 }),
                         (keyB, { key := keyB, population := 2, freq := 1, time := 2 })] } :=
        hrun.symm.trans rfl
      cases this
      rfl
    refine ⟨?_, ?_, ?_, ?_⟩
    · rw [hc.find_of_run h2 h3 keyA _ rfl]; rfl
    · rw [hc.find_of_run h2 h3 keyB _ rfl]; rfl
    · simp only [unordered_map.size, hlen]; rfl
    · exact hc.find_of_run h2 h3 keyC _ rfl
  · exact ⟨_, LFUCache.run_reaches putABgetAputC rfl⟩
  · intro c hc
    refine ⟨?_, ?_, ?_⟩
    · exact hc.find_of_run h2 h3 keyB _ rfl
    · rw [hc.find_of_run h2 h3 keyA _ rfl]; rfl
    · rw [hc.find_of_run h2 h3 keyC _ rfl]; rfl
  · exact ⟨_, LFUCache.run_reaches putAB rfl⟩
  · intro c hc
    obtain ⟨c0, hrun, hs⟩ := hc.sameUpToOrder h2 h3
    have hlen : c.cacheMap.length = 2 := by
      rw [hs.perm.length_eq]
      have : some c0 = some lfuAfterAB := hrun.symm.trans rfl
      cases this
      rfl
    refine ⟨?_, ?_, ?_, ?_⟩
    · rw [hc.find_of_run h2 h3 keyA _ rfl]; rfl
    · rw [hc.find_of_run h2 h3 keyB _ rfl]; rfl
    · simp only [unordered_map.size, hlen]; rfl
    · exact hc.find_of_run h2 h3 keyC _ rfl
  · exact ⟨_, LFUCache.run_reaches putABC rfl⟩
  · intro c hc
    refine ⟨?_, ?_, ?_⟩
    · exact hc.find_of_run h2 h3 keyA _ rfl
    · rw [hc.find_of_run h2 h3 keyB _ rfl]; rfl
    · rw [hc.find_of_run h2 h3 keyC _ rfl]; rfl

/-- C2 at capacity 2: after `put(A,1); put(B,2)` the call `put(C,3)` evicts. -/
theorem C2_lfu_evicts_least_used_witness :
    ((1 : Int) ≤ 2 ∧ (2 : Int) ≤ INT_MAX ∧ LFUCache.Reaches 2 putAB lfuAfterAB ∧
      lfuAfterAB.cacheMap.find keyC = none ∧ (lfuAfterAB.cacheMap.size : Int) = 2 ∧
      lfuAfterAB.currentTime < INT_MAX) ∧
    ∃ (victimKey : string) (victim : CacheEntry Nat) (c1 : LFUCache Nat),
      lfuAfterAB.put keyC 3 = some c1 ∧
      lfuAfterAB.cacheMap.find victimKey = some victim ∧
      (∀ k e, lfuAfterAB.cacheMap.find k = some e → k ≠ victimKey →
        victim.freq < e.freq ∨ (victim.freq = e.freq ∧ victim.time < e.time)) ∧
      c1.cacheMap.find victimKey = none ∧
      (∀ k, k ≠ victimKey → k ≠ keyC → c1.cacheMap.find k = lfuAfterAB.cacheMap.find k) ∧
      c1.cacheMap.find keyC =
        some { key := keyC, population := 3, freq := 1, time := lfuAfterAB.currentTime + 1 } ∧
      c1.currentTime = lfuAfterAB.currentTime + 1 ∧
      c1.cacheMap.size = lfuAfterAB.cacheMap.size :=
  ⟨⟨by decide, by decide, LFUCache.run_reaches putAB rfl, rfl, rfl, by decide⟩,
   (C2_lfu_evicts_least_used Nat 2 (by decide) (by decide)).1 putAB lfuAfterAB keyC 3
      (LFUCache.run_reaches putAB rfl) rfl rfl (by decide)⟩

/-- C3: in every FIFO state reached from empty with capacity `cap ≥ 1`,
`put(key, population)` of an absent key into a full cache removes exactly the
front of the queue, which is the key admitted earliest among the keys
currently cached (its admitting call comes strictly before that of every other
cached key); the state does not depend on the `get` calls made (the `put`
calls alone reach it); then `key` is inserted and every other entry is
unchanged. With capacity 2, `put(A,1); put(B,2); get(A); put(C,3)` evicts `A`. -/
theorem C3_fifo_evicts_earliest_admitted (V : Type) (cap : Int) (h1 : 1 ≤ cap)
    (hmax : cap ≤ INT_MAX) :
    (∀ (ops : List (Op V)) (c : FIFOCache V) (key : string) (population : V),
      (FIFOCache.new cap).run ops = some c →
      c.cacheMap.find key = none →
      (c.cacheMap.size : Int) = cap →
      ∃ (oldest : string) (rest : List string) (c1 : FIFOCache V),
        c.order = oldest :: rest ∧
        c.put key population = some c1 ∧
        (c.cacheMap.find oldest).isSome ∧
        (∃ i, FIFOCache.admittedAt cap ops oldest = some i ∧
          ∀ k, (c.cacheMap.find k).isSome → k ≠ oldest →
            ∃ j, FIFOCache.admittedAt cap ops k = some j ∧ i < j) ∧
        (FIFOCache.new cap).run (ops.filter FIFOCache.isPut) = some c ∧
        c1.order = rest ++ [key] ∧
        c1.cacheMap.find oldest = none ∧
        (∀ k, k ≠ oldest → k ≠ key → c1.cacheMap.find k = c.cacheMap.find k) ∧
        c1.cacheMap.find key = some population ∧
        c1.cacheMap.size = c.cacheMap.size) ∧
    ((FIFOCache.new 2).run putABgetA = some fifoAfterAB ∧
      fifoAfterAB.put keyC 3 = some fifoAfterABC ∧
      (FIFOCache.new 2).run putABgetAputC = some fifoAfterABC ∧
      fifoAfterAB.cacheMap.find keyA = some 1 ∧
      fifoAfterABC.cacheMap.find keyA = none ∧
      fifoAfterABC.cacheMap.find keyB = some 2 ∧
      fifoAfterABC.cacheMap.find keyC = some 3) := by
  refine ⟨?_, rfl, rfl, rfl, rfl, rfl, rfl, rfl⟩
  intro ops c key population hrun habsent hfull
  have hghost := FIFOCache.Ghost.fifo_ghost_run (by omega) hmax ops
    (FIFOCache.ghost_new (V := V) cap (by omega)) hrun
  have hwf := hghost.wf
  have hsz : sizeEqCapacity c.cacheMap.size c.capacity = true := by
    rw [hwf.capacity_eq]
    exact (sizeEqCapacity_iff _ cap (by omega) hmax).mpr hfull
  cases ho : c.order with
  | nil =>
    exfalso
    have := hwf.length_order
    rw [ho] at this
    simp only [List.length_nil] at this
    rw [← this] at hfull
    simp at hfull
    omega
  | cons oldest rest =>
    have hmem : oldest ∈ c.order := ho ▸ List.mem_cons_self _ _
    have hcached : c.cacheMap.find oldest ≠ none := (hwf.mem_order_iff oldest).mp hmem
    obtain ⟨x, hx⟩ := Option.ne_none_iff_exists'.mp hcached
    obtain ⟨i, _, hi⟩ := hghost.cached oldest x hx
    have hsorted := hghost.sorted
    rw [ho, List.pairwise_cons] at hsorted
    have hne : oldest ≠ key := by
      intro e
      rw [e, habsent] at hx
      cases hx
    have hk2 : (c.cacheMap.erase oldest).find key = none := by
      rw [unordered_map.find_erase]; split <;> simp [habsent]
    refine ⟨oldest, rest, _, rfl, FIFOCache.fifo_put_absent_full c key population oldest rest
      habsent hsz ho, by simp [hx], ⟨i, by simp [FIFOCache.admittedAt, hi], ?_⟩, ?_, rfl,
      ?_, ?_, ?_, ?_⟩
    · intro k hk hko
      obtain ⟨y, hy⟩ := Option.isSome_iff_exists.mp hk
      obtain ⟨j, _, hj⟩ := hghost.cached k y hy
      have hk_order : k ∈ c.order := (hwf.mem_order_iff k).mpr (by simp [hy])
      rw [ho] at hk_order
      rcases List.mem_cons.mp hk_order with e | hk_rest
      · exact absurd e hko
      · refine ⟨j, by simp [FIFOCache.admittedAt, hj], ?_⟩
        exact hsorted.1 k hk_rest _ _ hi hj
    · rw [FIFOCache.run_filter_isPut]; exact hrun
    · show ((c.cacheMap.erase oldest).assign key population).find oldest = none
      rw [unordered_map.find_assign, if_neg hne, unordered_map.find_erase, if_pos rfl]
    · intro k hk1 hk2
      show ((c.cacheMap.erase oldest).assign key population).find k = _
      rw [unordered_map.find_assign, if_neg hk2, unordered_map.find_erase, if_neg hk1]
    · show ((c.cacheMap.erase oldest).assign key population).find key = _
      rw [unordered_map.find_assign, if_pos rfl]
    · show List.length ((c.cacheMap.erase oldest).assign key population) = List.length _
      rw [unordered_map.assign_absent _ _ _ hk2, List.length_append, List.length_singleton]
      exact unordered_map.length_erase c.cacheMap hwf.fifo_keys_nodup _
        (hwf.lockstep.mem_iff.mp hmem)

/-- C3 at capacity 2: after `put(A,1); put(B,2); get(A)` the call `put(C,3)`
evicts the front of the queue. -/
theorem C3_fifo_evicts_earliest_admitted_witness :
    ((1 : Int) ≤ 2 ∧ (2 : Int) ≤ INT_MAX ∧
      (FIFOCache.new 2).run putABgetA = some fifoAfterAB ∧
      fifoAfterAB.cacheMap.find keyC = none ∧ (fifoAfterAB.cacheMap.size : Int) = 2) ∧
    ∃ (oldest : string) (rest : List string) (c1 : FIFOCache Nat),
      fifoAfterAB.order = oldest :: rest ∧
      fifoAfterAB.put keyC 3 = some c1 ∧
      (fifoAfterAB.cacheMap.find oldest).isSome ∧
      (∃ i, FIFOCache.admittedAt 2 putABgetA oldest = some i ∧
        ∀ k, (fifoAfterAB.cacheMap.find k).isSome → k ≠ oldest →
          ∃ j, FIFOCache.admittedAt 2 putABgetA k = some j ∧ i < j) ∧
      (FIFOCache.new 2).run (putABgetA.filter FIFOCache.isPut) = some fifoAfterAB ∧
      c1.order = rest ++ [keyC] ∧
      c1.cacheMap.find oldest = none ∧
      (∀ k, k ≠ oldest → k ≠ keyC → c1.cacheMap.find k = fifoAfterAB.cacheMap.find k) ∧
      c1.cacheMap.find keyC = some 3 ∧
      c1.cacheMap.size = fifoAfterAB.cacheMap.size :=
  ⟨⟨by decide, by decide, rfl, rfl, rfl⟩,
   (C3_fifo_evicts_earliest_admitted Nat 2 (by decide) (by decide)).1 putABgetA fifoAfterAB
      keyC 3 rfl rfl rfl⟩

/-- C4: in every random-eviction state reached from empty with capacity
`cap ≥ 1`, for `put(key, population)` of an absent key into a full cache the
key list has `cap` elements, and for every index `idx` below that length the
call removes exactly the key `keys[idx]` from the list and from the map and
inserts `key`: afterwards the cache holds `key` with `population` and every
other previously cached key except the victim with its previous population,
`cap` entries in all. -/
theorem C4_random_evicts_drawn_key (V : Type) (cap : Int) (h1 : 1 ≤ cap)
    (hmax : cap ≤ INT_MAX) (ops : List (DrawOp V)) (c : RandomCache V)
    (key : string) (population : V) (idx : Nat)
    (hrun : (RandomCache.new cap).run ops = some c)
    (habsent : c.cacheMap.find key = none)
    (hfull : (c.cacheMap.size : Int) = cap)
    (hidx : idx < c.keys.length) :
    (c.keys.length : Int) = cap ∧
    ∃ (victim : string) (c1 : RandomCache V),
      c.keys[idx]? = some victim ∧
      c.put key population idx = some c1 ∧
      (c.cacheMap.find victim).isSome ∧
      c1.keys = c.keys.eraseIdx idx ++ [key] ∧
      victim ∉ c1.keys ∧
      c1.cacheMap.find victim = none ∧
      c1.cacheMap.find key = some population ∧
      (∀ k, k ≠ victim → k ≠ key → c1.cacheMap.find k = c.cacheMap.find k) ∧
      (∀ k, k ∈ c1.keys ↔ (c1.cacheMap.find k).isSome) ∧
      (c1.cacheMap.size : Int) = cap := by
  have hwf := RandomCache.WF.rnd_run (by omega) hmax ops
    (RandomCache.rnd_wf_new (V := V) cap (by omega)) hrun
  have hsz : sizeEqCapacity c.cacheMap.size c.capacity = true := by
    rw [hwf.capacity_eq]
    exact (sizeEqCapacity_iff _ cap (by omega) hmax).mpr hfull
  have hv : c.keys[idx]? = some (c.keys[idx]) := by simp [hidx]
  have hput := RandomCache.rnd_put_absent_full c key population idx _ habsent hsz hv
  have hwf1 := hwf.rnd_put (by omega) hmax key population idx hput
  have hmem : c.keys[idx] ∈ c.keys := List.getElem_mem _
  have hcached : c.cacheMap.find (c.keys[idx]) ≠ none := (hwf.mem_keys_iff _).mp hmem
  have hne : c.keys[idx] ≠ key := by
    intro e
    rw [e] at hcached
    exact hcached habsent
  have hk2 : (c.cacheMap.erase (c.keys[idx])).find key = none := by
    rw [unordered_map.find_erase]; split <;> simp [habsent]
  have hgone : ((c.cacheMap.erase (c.keys[idx])).assign key population).find (c.keys[idx])
      = none := by
    rw [unordered_map.find_assign, if_neg hne, unordered_map.find_erase, if_pos rfl]
  refine ⟨by rw [hwf.length_keys]; exact hfull, c.keys[idx], _, hv, hput, ?_, rfl, ?_, hgone,
    ?_, ?_, ?_, ?_⟩
  · exact Option.ne_none_iff_isSome.mp hcached
  · intro hin
    have := (hwf1.mem_keys_iff _).mp hin
    exact this hgone
  · show ((c.cacheMap.erase (c.keys[idx])).assign key population).find key = _
    rw [unordered_map.find_assign, if_pos rfl]
  · intro k hk1 hk2'
    show ((c.cacheMap.erase (c.keys[idx])).assign key population).find k = _
    rw [unordered_map.find_assign, if_neg hk2', unordered_map.find_erase, if_neg hk1]
  · intro k
    rw [hwf1.mem_keys_iff k, Option.ne_none_iff_isSome]
  · show ((List.length ((c.cacheMap.erase (c.keys[idx])).assign key population) : Nat) : Int)
      = cap
    rw [unordered_map.assign_absent _ _ _ hk2, List.length_append, List.length_singleton,
      unordered_map.length_erase c.cacheMap hwf.rnd_keys_nodup _ (hwf.lockstep.mem_iff.mp hmem)]
    exact hfull

/-- C4 at capacity 2: with `A` and `B` cached, `put(C,3)` drawing index 1. -/
theorem C4_random_evicts_drawn_key_witness :
    ((1 : Int) ≤ 2 ∧ (2 : Int) ≤ INT_MAX ∧
      (RandomCache.new 2).run drawAB = some randomAfterAB ∧
      randomAfterAB.cacheMap.find keyC = none ∧
      (randomAfterAB.cacheMap.size : Int) = 2 ∧ 1 < randomAfterAB.keys.length) ∧
    ((randomAfterAB.keys.length : Int) = 2 ∧
    ∃ (victim : string) (c1 : RandomCache Nat),
      randomAfterAB.keys[1]? = some victim ∧
      randomAfterAB.put keyC 3 1 = some c1 ∧
      (randomAfterAB.cacheMap.find victim).isSome ∧
      c1.keys = randomAfterAB.keys.eraseIdx 1 ++ [keyC] ∧
      victim ∉ c1.keys ∧
      c1.cacheMap.find victim = none ∧
      c1.cacheMap.find keyC = some 3 ∧
      (∀ k, k ≠ victim → k ≠ keyC → c1.cacheMap.find k = randomAfterAB.cacheMap.find k) ∧
      (∀ k, k ∈ c1.keys ↔ (c1.cacheMap.find k).isSome) ∧
      (c1.cacheMap.size : Int) = 2) :=
  ⟨⟨by decide, by decide, rfl, rfl, rfl, by decide⟩,
   C4_random_evicts_drawn_key Nat 2 (by decide) (by decide) drawAB randomAfterAB keyC 3 1
      rfl rfl rfl (by decide)⟩

/-- C5: for FIFO and Random, `put(key, population)` on a key that is already
cached leaves the whole state (map, stored population, queue or key list)
unchanged, for every population, every drawn index and every state, full or
not; nothing is evicted. `put(A,1); put(A,2)` gives the state `put(A,1)`
alone gives, and `get(A)` returns 1 there. -/
theorem C5_put_of_cached_key_is_noop (V : Type) (key : string) (population : V) :
    (∀ c : FIFOCache V, (c.cacheMap.find key).isSome → c.put key population = some c) ∧
    (∀ (c : RandomCache V) (idx : Nat),
      (c.cacheMap.find key).isSome → c.put key population idx = some c) ∧
    ((FIFOCache.new 2).run [Op.put keyA 1] = some fifoAfterAA ∧
      (FIFOCache.new 2).run putAA = some fifoAfterAA ∧
      (fifoAfterAA.get keyA).2 = some 1 ∧
      (RandomCache.new 2).run [DrawOp.put keyA 1 0] = some randomAfterAA ∧
      (RandomCache.new 2).run drawAA = some randomAfterAA ∧
      (randomAfterAA.get keyA).2 = some 1) := by
  refine ⟨?_, ?_, rfl, rfl, rfl, rfl, rfl, rfl⟩
  · intro c h
    exact FIFOCache.fifo_put_present c key population (Option.ne_none_iff_isSome.mpr h)
  · intro c idx h
    exact RandomCache.rnd_put_present c key population idx (Option.ne_none_iff_isSome.mpr h)

/-- C5 on full caches of capacity 2 holding `A` and `B`: `put(A,9)` changes
nothing. -/
theorem C5_put_of_cached_key_is_noop_witness :
    ((fifoAfterAB.cacheMap.find keyA).isSome ∧ (fifoAfterAB.cacheMap.size : Int) = 2 ∧
      fifoAfterAB.put keyA 9 = some fifoAfterAB) ∧
    ((randomAfterAB.cacheMap.find keyA).isSome ∧ (randomAfterAB.cacheMap.size : Int) = 2 ∧
      randomAfterAB.put keyA 9 1 = some randomAfterAB) :=
  ⟨⟨rfl, rfl, (C5_put_of_cached_key_is_noop Nat keyA 9).1 fifoAfterAB rfl⟩,
   ⟨rfl, rfl, (C5_put_of_cached_key_is_noop Nat keyA 9).2.1 randomAfterAB 1 rfl⟩⟩

/-- C6 fails as stated for FIFO and Random: after `put(A,1); put(A,2)` on a
cache of capacity 2 the most recent `put` of `A` gave 2, but `get(A)` returns
1. -/
theorem C6_get_returns_last_put_counterexample :
    ((FIFOCache.new 2).run putAA = some fifoAfterAA ∧
      (fifoAfterAA.get keyA).2 = some 1 ∧
      LFUCache.lastPut putAA keyA = some 2) ∧
    ((RandomCache.new 2).run drawAA = some randomAfterAA ∧
      (randomAfterAA.get keyA).2 = some 1 ∧
      lastDrawPut drawAA keyA = some 2) ∧
    ¬ (∀ (ops : List (Op Nat)) (c : FIFOCache Nat) (k : string) (v : Nat),
        (FIFOCache.new 2).run ops = some c → (c.get k).2 = some v →
        LFUCache.lastPut ops k = some v) := by
  refine ⟨⟨rfl, rfl, rfl⟩, ⟨rfl, rfl, rfl⟩, ?_⟩
  intro h
  have := h putAA fifoAfterAA keyA 1 rfl rfl
  exact absurd this (by decide)

/-- C6, amended: from an empty cache with capacity `cap ≥ 1`, `get(k)` on a
cached key returns, for LFU (in every reachable state, any iteration order),
the population given by the most recent `put(k, v)` of the sequence, and the
call is defined while the clock is below `INT_MAX`; for FIFO and Random it
returns the population given by the `put` that admitted `k`, the most recent
`put(k, v)` made while `k` was not cached. -/
theorem C6_get_returns_stored_population (V : Type) (cap : Int) (h1 : 1 ≤ cap)
    (hmax : cap ≤ INT_MAX) :
    (∀ (ops : List (Op V)) (c c1 : LFUCache V) (k : string) (v : V),
      LFUCache.Reaches cap ops c → c.get k = some (c1, some v) →
      LFUCache.lastPut ops k = some v) ∧
    (∀ (ops : List (Op V)) (c : LFUCache V) (k : string),
      LFUCache.Reaches cap ops c → (c.cacheMap.find k).isSome → c.currentTime < INT_MAX →
      ∃ c1 v, c.get k = some (c1, some v)) ∧
    (∀ (ops : List (Op V)) (c : FIFOCache V) (k : string) (v : V),
      (FIFOCache.new cap).run ops = some c → (c.get k).2 = some v →
      FIFOCache.admittedValue cap ops k = some v) ∧
    (∀ (ops : List (DrawOp V)) (c : RandomCache V) (k : string) (v : V),
      (RandomCache.new cap).run ops = some c → (c.get k).2 = some v →
      RandomCache.admittedValue cap ops k = some v) := by
  refine ⟨?_, ?_, ?_, ?_⟩
  · intro ops c c1 k v hreach hget
    cases hk : c.cacheMap.find k with
    | none =>
      rw [LFUCache.get_absent c k hk] at hget
      cases hget
    | some entry =>
      obtain ⟨hf, ht⟩ := LFUCache.get_isSome_bounds c k entry _ hk hget
      rw [LFUCache.get_present c k entry hk hf ht] at hget
      cases hget
      exact hreach.population_eq_lastPut h1 hmax k entry hk
  · intro ops c k hreach hk ht
    obtain ⟨entry, he⟩ := Option.isSome_iff_exists.mp hk
    have hf := (hreach.wf h1 hmax).freq_le_time k entry he
    exact ⟨_, _, LFUCache.get_present c k entry he (by omega) ht⟩
  · intro ops c k v hrun hget
    rw [FIFOCache.fifo_get_snd] at hget
    have hghost := FIFOCache.Ghost.fifo_ghost_run (by omega) hmax ops
      (FIFOCache.ghost_new (V := V) cap (by omega)) hrun
    obtain ⟨i, _, hi⟩ := hghost.cached k v hget
    simp [FIFOCache.admittedValue, hi]
  · intro ops c k v hrun hget
    rw [RandomCache.rnd_get_snd] at hget
    have hghost := RandomCache.Ghost.rnd_ghost_run (by omega) hmax ops
      (RandomCache.rnd_ghost_new (V := V) cap (by omega)) hrun
    obtain ⟨i, _, hi⟩ := hghost.cached k v hget
    simp [RandomCache.admittedValue, hi]

/-- C6, amended, at capacity 2 after `put(A,1); put(A,2)`: LFU returns 2, the
last value put; FIFO and Random return 1, the value of the admitting call. -/
theorem C6_get_returns_stored_population_witness :
    ((1 : Int) ≤ 2 ∧ (2 : Int) ≤ INT_MAX) ∧
    (LFUCache.Reaches 2 putAA lfuAfterAA ∧
      lfuAfterAA.get keyA = some ({ lfuAfterAA with
        currentTime := 3
        cacheMap := [(keyA, { key := keyA, population := 2, freq := 3, time := 3 })] },
        some 2) ∧
      LFUCache.lastPut putAA keyA = some 2) ∧
    ((FIFOCache.new 2).run putAA = some fifoAfterAA ∧ (fifoAfterAA.get keyA).2 = some 1 ∧
      FIFOCache.admittedValue 2 putAA keyA = some 1) ∧
    ((RandomCache.new 2).run drawAA = some randomAfterAA ∧
      (randomAfterAA.get keyA).2 = some 1 ∧
      RandomCache.admittedValue 2 drawAA keyA = some 1) :=
  ⟨⟨by decide, by decide⟩,
   ⟨LFUCache.run_reaches putAA rfl, rfl,
    (C6_get_returns_stored_population Nat 2 (by decide) (by decide)).1 putAA lfuAfterAA _ keyA 2
      (LFUCache.run_reaches putAA rfl) rfl⟩,
   ⟨rfl, rfl,
    (C6_get_returns_stored_population Nat 2 (by decide) (by decide)).2.2.1 putAA fifoAfterAA
      keyA 1 rfl rfl⟩,
   ⟨rfl, rfl,
    (C6_get_returns_stored_population Nat 2 (by decide) (by decide)).2.2.2 drawAA randomAfterAA
      keyA 1 rfl rfl⟩⟩

/-- C7: for all three strategies, `put(key, population)` of an absent key in a
state reached from empty with capacity `cap ≥ 1` and holding fewer than `cap`
entries increases the size by exactly 1, makes `get(key)` return `population`
and evicts nothing: every other key has the entry it had. For LFU the `put`
needs the clock below `INT_MAX` and the following `get` needs one more tick. -/
theorem C7_put_with_room_inserts (V : Type) (cap : Int) (h1 : 1 ≤ cap)
    (hmax : cap ≤ INT_MAX) (key : string) (population : V) :
    (∀ (ops : List (Op V)) (c : LFUCache V),
      LFUCache.Reaches cap ops c → c.cacheMap.find key = none →
      (c.cacheMap.size : Int) < cap → c.currentTime < INT_MAX →
      ∃ c1, c.put key population = some c1 ∧
        c1.cacheMap.size = c.cacheMap.size + 1 ∧
        (∀ k, k ≠ key → c1.cacheMap.find k = c.cacheMap.find k) ∧
        (c1.cacheMap.find key).map CacheEntry.population = some population ∧
        (c.currentTime + 1 < INT_MAX → ∃ c2, c1.get key = some (c2, some population))) ∧
    (∀ (ops : List (Op V)) (c : FIFOCache V),
      (FIFOCache.new cap).run ops = some c → c.cacheMap.find key = none →
      (c.cacheMap.size : Int) < cap →
      ∃ c1, c.put key population = some c1 ∧
        c1.cacheMap.size = c.cacheMap.size + 1 ∧
        (∀ k, k ≠ key → c1.cacheMap.find k = c.cacheMap.find k) ∧
        (c1.get key).2 = some population) ∧
    (∀ (ops : List (DrawOp V)) (c : RandomCache V) (idx : Nat),
      (RandomCache.new cap).run ops = some c → c.cacheMap.find key = none →
      (c.cacheMap.size : Int) < cap →
      ∃ c1, c.put key population idx = some c1 ∧
        c1.cacheMap.size = c.cacheMap.size + 1 ∧
        (∀ k, k ≠ key → c1.cacheMap.find k = c.cacheMap.find k) ∧
        (c1.get key).2 = some population) := by
  have hroom : ∀ (n : Nat) (capacity : Int), capacity = cap → (n : Int) < cap →
      sizeEqCapacity n capacity = false := by
    intro n capacity e hlt
    cases hs : sizeEqCapacity n capacity with
    | false => rfl
    | true =>
      rw [e] at hs
      have := (sizeEqCapacity_iff n cap (by omega) hmax).mp hs
      omega
  refine ⟨?_, ?_, ?_⟩
  · intro ops c hreach habsent hlt hclock
    have hwf := hreach.wf h1 hmax
    have hs := hroom _ _ hwf.capacity_eq hlt
    have hput := LFUCache.put_absent c key population habsent hclock
    simp only [hs, Bool.false_eq_true, if_false] at hput
    have hfind : (c.cacheMap.assign key
        { key := key, population := population, freq := 1,
          time := c.currentTime + 1 : CacheEntry V }).find key =
        some { key := key, population := population, freq := 1, time := c.currentTime + 1 } := by
      rw [unordered_map.find_assign, if_pos rfl]
    refine ⟨_, hput, ?_, ?_, ?_, ?_⟩
    · show List.length (unordered_map.assign _ _ _) = List.length _ + 1
      rw [unordered_map.assign_absent _ _ _ habsent, List.length_append, List.length_singleton]
    · intro k hk
      show (unordered_map.assign _ _ _).find k = _
      rw [unordered_map.find_assign, if_neg hk]
    · show ((unordered_map.assign _ _ _).find key).map _ = _
      rw [hfind]; rfl
    · intro hclock2
      exact ⟨_, LFUCache.get_present _ key _ hfind (by simp [INT_MAX]) hclock2⟩
  · intro ops c hrun habsent hlt
    have hwf := FIFOCache.WF.fifo_run (by omega) hmax ops
      (FIFOCache.fifo_wf_new (V := V) cap (by omega)) hrun
    have hs := hroom _ _ hwf.capacity_eq hlt
    refine ⟨_, FIFOCache.fifo_put_absent_room c key population habsent hs, ?_, ?_, ?_⟩
    · show List.length (unordered_map.assign _ _ _) = List.length _ + 1
      rw [unordered_map.assign_absent _ _ _ habsent, List.length_append, List.length_singleton]
    · intro k hk
      show (unordered_map.assign _ _ _).find k = _
      rw [unordered_map.find_assign, if_neg hk]
    · rw [FIFOCache.fifo_get_snd]
      show (unordered_map.assign _ _ _).find key = _
      rw [unordered_map.find_assign, if_pos rfl]
  · intro ops c idx hrun habsent hlt
    have hwf := RandomCache.WF.rnd_run (by omega) hmax ops
      (RandomCache.rnd_wf_new (V := V) cap (by omega)) hrun
    have hs := hroom _ _ hwf.capacity_eq hlt
    refine ⟨_, RandomCache.rnd_put_absent_room c key population idx habsent hs, ?_, ?_, ?_⟩
    · show List.length (unordered_map.assign _ _ _) = List.length _ + 1
      rw [unordered_map.assign_absent _ _ _ habsent, List.length_append, List.length_singleton]
    · intro k hk
      show (unordered_map.assign _ _ _).find k = _
      rw [unordered_map.find_assign, if_neg hk]
    · rw [RandomCache.rnd_get_snd]
      show (unordered_map.assign _ _ _).find key = _
      rw [unordered_map.find_assign, if_pos rfl]

/-- C7 at capacity 2 with only `A` cached: `put(B,2)` adds a second entry. -/
theorem C7_put_with_room_inserts_witness :
    ((1 : Int) ≤ 2 ∧ (2 : Int) ≤ INT_MAX) ∧
    ((LFUCache.Reaches 2 [Op.put keyA 1] lfuAfterA ∧ lfuAfterA.cacheMap.find keyB = none ∧
        (lfuAfterA.cacheMap.size : Int) < 2 ∧ lfuAfterA.currentTime < INT_MAX) ∧
      ∃ c1, lfuAfterA.put keyB 2 = some c1 ∧
        c1.cacheMap.size = lfuAfterA.cacheMap.size + 1 ∧
        (∀ k, k ≠ keyB → c1.cacheMap.find k = lfuAfterA.cacheMap.find k) ∧
        (c1.cacheMap.find keyB).map CacheEntry.population = some 2 ∧
        (lfuAfterA.currentTime + 1 < INT_MAX → ∃ c2, c1.get keyB = some (c2, some 2))) ∧
    (((FIFOCache.new 2).run [Op.put keyA 1] = some fifoAfterAA ∧
        fifoAfterAA.cacheMap.find keyB = none ∧ (fifoAfterAA.cacheMap.size : Int) < 2) ∧
      ∃ c1, fifoAfterAA.put keyB 2 = some c1 ∧
        c1.cacheMap.size = fifoAfterAA.cacheMap.size + 1 ∧
        (∀ k, k ≠ keyB → c1.cacheMap.find k = fifoAfterAA.cacheMap.find k) ∧
        (c1.get keyB).2 = some 2) ∧
    (((RandomCache.new 2).run [DrawOp.put keyA 1 0] = some randomAfterAA ∧
        randomAfterAA.cacheMap.find keyB = none ∧ (randomAfterAA.cacheMap.size : Int) < 2) ∧
      ∃ c1, randomAfterAA.put keyB 2 0 = some c1 ∧
        c1.cacheMap.size = randomAfterAA.cacheMap.size + 1 ∧
        (∀ k, k ≠ keyB → c1.cacheMap.find k = randomAfterAA.cacheMap.find k) ∧
        (c1.get keyB).2 = some 2) :=
  ⟨⟨by decide, by decide⟩,
   ⟨⟨LFUCache.run_reaches [Op.put keyA 1] rfl, rfl, by decide, by decide⟩,
    (C7_put_with_room_inserts Nat 2 (by decide) (by decide) keyB 2).1 [Op.put keyA 1] lfuAfterA
      (LFUCache.run_reaches [Op.put keyA 1] rfl) rfl (by decide) (by decide)⟩,
   ⟨⟨rfl, rfl, by decide⟩,
    (C7_put_with_room_inserts Nat 2 (by decide) (by decide) keyB 2).2.1 [Op.put keyA 1]
      fifoAfterAA rfl rfl (by decide)⟩,
   ⟨⟨rfl, rfl, by decide⟩,
    (C7_put_with_room_inserts Nat 2 (by decide) (by decide) keyB 2).2.2 [DrawOp.put keyA 1 0]
      randomAfterAA 0 rfl rfl (by decide)⟩⟩

/-- C8: for all three strategies `get(key)` on an absent key reports absence
and leaves the whole state unchanged (for LFU: the map with every `freq` and
`time`, and the clock); for FIFO and Random `get` never changes the state,
also when the key is present. -/
theorem C8_get_of_absent_key_changes_nothing (V : Type) (key : string) :
    (∀ c : LFUCache V, c.cacheMap.find key = none → c.get key = some (c, none)) ∧
    (∀ c : FIFOCache V, (c.get key).1 = c ∧
      (c.cacheMap.find key = none → (c.get key).2 = none)) ∧
    (∀ c : RandomCache V, (c.get key).1 = c ∧
      (c.cacheMap.find key = none → (c.get key).2 = none)) := by
  refine ⟨?_, ?_, ?_⟩
  · intro c h
    exact LFUCache.get_absent c key h
  · intro c
    refine ⟨FIFOCache.fifo_get_fst c key, ?_⟩
    intro h
    rw [FIFOCache.fifo_get_snd, h]
  · intro c
    refine ⟨RandomCache.rnd_get_fst c key, ?_⟩
    intro h
    rw [RandomCache.rnd_get_snd, h]

/-- C8 on caches holding `A` and `B`: `get(C)` reports absence and changes
nothing; `get(A)` on FIFO and Random changes nothing either. -/
theorem C8_get_of_absent_key_changes_nothing_witness :
    (lfuAfterAB.cacheMap.find keyC = none ∧ lfuAfterAB.get keyC = some (lfuAfterAB, none)) ∧
    (fifoAfterAB.cacheMap.find keyC = none ∧ (fifoAfterAB.get keyC).1 = fifoAfterAB ∧
      (fifoAfterAB.get keyC).2 = none ∧ (fifoAfterAB.get keyA).1 = fifoAfterAB) ∧
    (randomAfterAB.cacheMap.find keyC = none ∧ (randomAfterAB.get keyC).1 = randomAfterAB ∧
      (randomAfterAB.get keyC).2 = none ∧ (randomAfterAB.get keyA).1 = randomAfterAB) :=
  ⟨⟨rfl, (C8_get_of_absent_key_changes_nothing Nat keyC).1 lfuAfterAB rfl⟩,
   ⟨rfl, ((C8_get_of_absent_key_changes_nothing Nat keyC).2.1 fifoAfterAB).1,
    ((C8_get_of_absent_key_changes_nothing Nat keyC).2.1 fifoAfterAB).2 rfl,
    ((C8_get_of_absent_key_changes_nothing Nat keyA).2.1 fifoAfterAB).1⟩,
   ⟨rfl, ((C8_get_of_absent_key_changes_nothing Nat keyC).2.2 randomAfterAB).1,
    ((C8_get_of_absent_key_changes_nothing Nat keyC).2.2 randomAfterAB).2 rfl,
    ((C8_get_of_absent_key_changes_nothing Nat keyA).2.2 randomAfterAB).1⟩⟩

/-- C9: in every LFU state reachable from empty with capacity `cap ≥ 1`, with
the clock below `INT_MAX`, an access to a cached key (a `get` hit, or a `put`
of a present key) advances the clock by exactly one, sets the key's `time` to
the new clock and raises its `freq` by exactly one, changes no other entry and
evicts nothing (same keys, same size), also when the cache is full; `get`
returns the stored population and leaves it, `put` sets it to the new value. -/
theorem C9_lfu_access_touches_entry (V : Type) (cap : Int) (h1 : 1 ≤ cap)
    (hmax : cap ≤ INT_MAX) (ops : List (Op V)) (c : LFUCache V) (key : string)
    (entry : CacheEntry V)
    (hreach : LFUCache.Reaches cap ops c)
    (hfind : c.cacheMap.find key = some entry)
    (hclock : c.currentTime < INT_MAX) :
    (∃ c1, c.get key = some (c1, some entry.population) ∧
      c1.currentTime = c.currentTime + 1 ∧
      c1.cacheMap.find key =
        some { entry with freq := entry.freq + 1, time := c.currentTime + 1 } ∧
      (∀ k, k ≠ key → c1.cacheMap.find k = c.cacheMap.find k) ∧
      c1.cacheMap.keys = c.cacheMap.keys ∧
      c1.cacheMap.size = c.cacheMap.size ∧
      c1.capacity = c.capacity) ∧
    (∀ population : V, ∃ c1, c.put key population = some c1 ∧
      c1.currentTime = c.currentTime + 1 ∧
      c1.cacheMap.find key =
        some { entry with
          population := population, freq := entry.freq + 1, time := c.currentTime + 1 } ∧
      (∀ k, k ≠ key → c1.cacheMap.find k = c.cacheMap.find k) ∧
      c1.cacheMap.keys = c.cacheMap.keys ∧
      c1.cacheMap.size = c.cacheMap.size ∧
      c1.capacity = c.capacity) := by
  have hwf := hreach.wf h1 hmax
  have hf := hwf.freq_le_time key entry hfind
  have hmem : key ∈ c.cacheMap.keys := by
    rw [← unordered_map.find_isSome_iff, hfind]; rfl
  refine ⟨⟨_, LFUCache.get_present c key entry hfind (by omega) hclock, rfl, ?_, ?_, ?_, ?_, rfl⟩,
    fun population =>
      ⟨_, LFUCache.lfu_put_present c key population entry hfind (by omega) hclock, rfl,
        ?_, ?_, ?_, ?_, rfl⟩⟩
  · show (unordered_map.assign _ _ _).find key = _
    rw [unordered_map.find_assign, if_pos rfl]
  · intro k hk
    show (unordered_map.assign _ _ _).find k = _
    rw [unordered_map.find_assign, if_neg hk]
  · exact unordered_map.keys_assign_present _ _ _ hmem
  · exact unordered_map.length_assign_present _ _ _ hmem
  · show (unordered_map.assign _ _ _).find key = _
    rw [unordered_map.find_assign, if_pos rfl]
  · intro k hk
    show (unordered_map.assign _ _ _).find k = _
    rw [unordered_map.find_assign, if_neg hk]
  · exact unordered_map.keys_assign_present _ _ _ hmem
  · exact unordered_map.length_assign_present _ _ _ hmem

/-- C9 on the full cache of capacity 2 holding `A` and `B`: accesses to `A`. -/
theorem C9_lfu_access_touches_entry_witness :
    ((1 : Int) ≤ 2 ∧ (2 : Int) ≤ INT_MAX ∧ LFUCache.Reaches 2 putAB lfuAfterAB ∧
      lfuAfterAB.cacheMap.find keyA =
        some { key := keyA, population := 1, freq := 1, time := 1 } ∧
      lfuAfterAB.currentTime < INT_MAX ∧ (lfuAfterAB.cacheMap.size : Int) = 2) ∧
    ((∃ c1, lfuAfterAB.get keyA = some (c1, some 1) ∧
      c1.currentTime = lfuAfterAB.currentTime + 1 ∧
      c1.cacheMap.find keyA =
        some { key := keyA, population := 1, freq := 1 + 1,
               time := lfuAfterAB.currentTime + 1 } ∧
      (∀ k, k ≠ keyA → c1.cacheMap.find k = lfuAfterAB.cacheMap.find k) ∧
      c1.cacheMap.keys = lfuAfterAB.cacheMap.keys ∧
      c1.cacheMap.size = lfuAfterAB.cacheMap.size ∧
      c1.capacity = lfuAfterAB.capacity) ∧
    (∀ population : Nat, ∃ c1, lfuAfterAB.put keyA population = some c1 ∧
      c1.currentTime = lfuAfterAB.currentTime + 1 ∧
      c1.cacheMap.find keyA =
        some { key := keyA, population := population, freq := 1 + 1,
               time := lfuAfterAB.currentTime + 1 } ∧
      (∀ k, k ≠ keyA → c1.cacheMap.find k = lfuAfterAB.cacheMap.find k) ∧
      c1.cacheMap.keys = lfuAfterAB.cacheMap.keys ∧
      c1.cacheMap.size = lfuAfterAB.cacheMap.size ∧
      c1.capacity = lfuAfterAB.capacity)) :=
  ⟨⟨by decide, by decide, LFUCache.run_reaches putAB rfl, rfl, by decide, rfl⟩,
   C9_lfu_access_touches_entry Nat 2 (by decide) (by decide) putAB lfuAfterAB keyA
      { key := keyA, population := 1, freq := 1, time := 1 }
      (LFUCache.run_reaches putAB rfl) rfl (by decide)⟩

/-- C10: for every byte string `s`, `normalize(s)` is the string obtained by
mapping each letter `A`-`Z` to `a`-`z`, leaving every other byte unchanged, and
then deleting every space, tab, carriage return, newline, vertical tab and
form feed, the remaining characters keeping their order. `"New York"`,
`"newyork"` and `"NEW YORK"` all normalize to `"newyork"`, and no comma is
ever removed. -/
theorem C10_normalize_is_lowercase_without_whitespace :
    (∀ s : string, normalize s = normalizeSpec s) ∧
    (normalize (lit "New York") = lit "newyork" ∧
      normalize (lit "newyork") = lit "newyork" ∧
      normalize (lit "NEW YORK") = lit "newyork") ∧
    (∀ s : string, (normalize s).count 44 = s.count 44) := by
  refine ⟨normalize_eq_spec, ⟨by decide, by decide, by decide⟩, ?_⟩
  intro s
  rw [normalize_eq_spec]
  exact count_comma_normalizeSpec s

/-- C11: `normalize` is idempotent: for every string `s`,
`normalize(normalize(s))` equals `normalize(s)`. -/
theorem C11_normalize_idempotent (s : string) :
    normalize (normalize s) = normalize s := by
  rw [normalize_eq_spec (normalize s), normalize_eq_spec s]
  exact normalizeSpec_of_canonical _ (normalizeSpec_canonical s)

/-- C12: for a file that opens and in which every record the scan reads (the
records up to the first match) has a numeric third field, `searchCSV(city,
code)` writes nothing to `std::cerr`, discards the header line and returns the
population parsed from the third field of the first record, top to bottom,
whose code and city agree with the query after normalization; it reports
absence if and only if no record matches. -/
theorem C12_searchCSV_returns_first_match (V : Type) (stod : string → Option V)
    (content city code : string)
    (hwf : ∀ pre r post, records content = pre ++ r :: post →
      (∀ q ∈ pre, ¬ recordMatches city code q) → hasNumericThird stod r) :
    searchCSV (some content) stod city code =
      { cerr := [], result := .returned (storeLookup stod content city code) } ∧
    (∀ pre r post, records content = pre ++ r :: post →
      (∀ q ∈ pre, ¬ recordMatches city code q) → recordMatches city code r →
      ∃ t pop, (splitFields r)[2]? = some t ∧ stod t = some pop ∧
        (searchCSV (some content) stod city code).result = .returned (some pop)) ∧
    ((searchCSV (some content) stod city code).result = .returned none ↔
      ∀ r ∈ records content, ¬ recordMatches city code r) := by
  have heq : searchCSV (some content) stod city code =
      { cerr := [], result := .returned (storeLookup stod content city code) } := by
    rw [searchCSV_eq_scan, scanRecords_wellformed stod city code (records content) [] hwf]
    rfl
  have hfirst : ∀ pre r post, records content = pre ++ r :: post →
      (∀ q ∈ pre, ¬ recordMatches city code q) → recordMatches city code r →
      ∃ t pop, (splitFields r)[2]? = some t ∧ stod t = some pop ∧
        storeLookup stod content city code = some pop := by
    intro pre r post hrs hpre hm
    have hnum := hwf pre r post hrs hpre
    unfold hasNumericThird at hnum
    obtain ⟨pop, hbind⟩ := Option.isSome_iff_exists.mp hnum
    obtain ⟨t, ht, hpop⟩ := Option.bind_eq_some.mp hbind
    have hfind : (records content).find? (fun r => decide (recordMatches city code r)) =
        some r := by
      rw [List.find?_eq_some]
      refine ⟨by simpa using hm, pre, post, hrs, ?_⟩
      intro a ha
      simpa using hpre a ha
    refine ⟨t, pop, ht, hpop, ?_⟩
    unfold storeLookup
    rw [hfind]
    simp [ht, hpop]
  refine ⟨heq, ?_, ?_⟩
  · intro pre r post hrs hpre hm
    obtain ⟨t, pop, ht, hpop, hl⟩ := hfirst pre r post hrs hpre hm
    exact ⟨t, pop, ht, hpop, by rw [heq, hl]⟩
  · rw [heq]
    constructor
    · intro hnone r hr hm
      have hl : storeLookup stod content city code = none := by
        simpa using hnone
      have hex : ∃ x ∈ records content, decide (recordMatches city code x) = true :=
        ⟨r, hr, by simpa using hm⟩
      cases hf : (records content).find? (fun r => decide (recordMatches city code r)) with
      | none =>
        rw [List.find?_eq_none] at hf
        exact absurd (by simpa using hm) (hf r hr)
      | some r0 =>
        obtain ⟨hp, pre, post, hrs, hpre⟩ := List.find?_eq_some.mp hf
        obtain ⟨t, pop, _, _, hl2⟩ := hfirst pre r0 post hrs
          (fun a ha => by simpa using hpre a ha) (by simpa using hp)
        rw [hl] at hl2
        cases hl2
    · intro hno
      have hf : (records content).find? (fun r => decide (recordMatches city code r)) = none := by
        rw [List.find?_eq_none]
        intro r hr
        simpa using hno r hr
      simp [storeLookup, hf]

/-- C12 on a store with two records: the lookup of `boston` / `us` returns the
population of the second record. -/
theorem C12_searchCSV_returns_first_match_witness :
    (∀ pre r post, records storeFile = pre ++ r :: post →
      (∀ q ∈ pre, ¬ recordMatches (lit "boston") (lit "us") q) →
      hasNumericThird stodDigits r) ∧
    searchCSV (some storeFile) stodDigits (lit "boston") (lit "us") =
      { cerr := [], result := .returned (some 600000) } ∧
    storeLookup stodDigits storeFile (lit "boston") (lit "us") = some 600000 :=
  ⟨wellformed_of_all stodDigits _ _ (records storeFile) (by decide),
   (C12_searchCSV_returns_first_match Nat stodDigits storeFile (lit "boston") (lit "us")
      (wellformed_of_all stodDigits _ _ (records storeFile) (by decide))).1.trans
      (by rw [show storeLookup stodDigits storeFile (lit "boston") (lit "us") = some 600000
            from by decide]),
   by decide⟩

/-- C13: read-through round trip. For every strategy with capacity `cap ≥ 1`,
every store that opens and whose records all have a numeric third field, and
every record `code,city,third,...` of it with `third` parsing to `pop` that is
the first record with its normalized code and city: for all `city1`, `code1`
that normalize to the same, a lookup through the coordinator on an empty cache
reports `pop` from the file, for every drawn index, and an immediately
following lookup of any `city2`, `code2` that normalize to the same (the same
pair or another variant) reports `pop` as a cache hit. -/
theorem C13_read_through_round_trip (V : Type) (kind : StrategyKind) (cap : Int)
    (h1 : 1 ≤ cap) (hmax : cap ≤ INT_MAX) (stod : string → Option V) (content : string)
    (pre post : List string) (r code city third : string) (more : List string) (pop : V)
    (city1 code1 city2 code2 : string) (idx1 idx2 : Nat)
    (hstore : ∀ q ∈ records content, hasNumericThird stod q)
    (hrecords : records content = pre ++ r :: post)
    (hfields : splitFields r = code :: city :: third :: more)
    (hpop : stod third = some pop)
    (hfirst : ∀ q ∈ pre, ¬ recordMatches city code q)
    (hcity1 : normalize city1 = normalize city) (hcode1 : normalize code1 = normalize code)
    (hcity2 : normalize city2 = normalize city) (hcode2 : normalize code2 = normalize code) :
    ∃ cache1 cache2,
      lookup (some content) stod (ICacheStrategy.new kind cap) city1 code1 idx1 =
        some (cache1, .csvLookup pop) ∧
      lookup (some content) stod cache1 city2 code2 idx2 = some (cache2, .cacheHit pop) := by
  have hm : recordMatches city code r := by
    simp [recordMatches, recordCode, recordCity, hfields]
  have hres : (searchCSV (some content) stod city1 code1).result = .returned (some pop) := by
    rw [searchCSV_congr (some content) stod city code city1 code1 hcity1 hcode1,
      searchCSV_eq_scan, hrecords]
    exact scanRecords_first_match stod city code r third post pop hm (by simp [hfields]) hpop
      pre [] (fun q hq => hstore q (by rw [hrecords]; simp [hq])) hfirst
  have hk1 : key city1 code1 = key city code := key_congr city code city1 code1 hcity1 hcode1
  have hk2 : key city2 code2 = key city code := key_congr city code city2 code2 hcity2 hcode2
  have hmiss := find_cache_new (V := V) kind cap (key city1 code1)
  obtain ⟨c1, hput, hwf1, hclock1⟩ := cache_put_new kind cap h1 hmax (key city1 code1) pop idx1
  have hfind1 := (ICacheStrategy.cache_put_spec _ c1 _ pop idx1 hmiss hput).1
  have hl1 : lookup (some content) stod (ICacheStrategy.new kind cap) city1 code1 idx1 =
      some (c1, .csvLookup pop) := by
    simp [lookup, ICacheStrategy.cache_get_absent _ _ hmiss, hres, hput]
  obtain ⟨c2, hl2⟩ := lookup_hit (some content) stod cap c1 city2 code2 idx2 pop hwf1 hclock1
    (by rw [hk2, ← hk1]; exact hfind1)
  exact ⟨c1, c2, hl1, hl2⟩

/-- C13 on the store with records `US,New York,8300000` and
`US,Boston,600000`, with a FIFO cache of capacity 2: `boston` / `us`, then
`BOSTON` / `U S`. -/
theorem C13_read_through_round_trip_witness :
    ((1 : Int) ≤ 2 ∧ (2 : Int) ≤ INT_MAX ∧
      (∀ q ∈ records storeFile, hasNumericThird stodDigits q) ∧
      records storeFile = [lit "US,New York,8300000"] ++ lit "US,Boston,600000" :: [] ∧
      splitFields (lit "US,Boston,600000") = lit "US" :: lit "Boston" :: lit "600000" :: [] ∧
      stodDigits (lit "600000") = some 600000 ∧
      (∀ q ∈ [lit "US,New York,8300000"], ¬ recordMatches (lit "Boston") (lit "US") q) ∧
      normalize (lit "boston") = normalize (lit "Boston") ∧
      normalize (lit "us") = normalize (lit "US") ∧
      normalize (lit "BOSTON") = normalize (lit "Boston") ∧
      normalize (lit "U S") = normalize (lit "US")) ∧
    ∃ cache1 cache2,
      lookup (some storeFile) stodDigits (ICacheStrategy.new .fifo 2) (lit "boston") (lit "us") 0 =
        some (cache1, .csvLookup 600000) ∧
      lookup (some storeFile) stodDigits cache1 (lit "BOSTON") (lit "U S") 0 =
        some (cache2, .cacheHit 600000) :=
  ⟨⟨by decide, by decide, by decide, by decide, by decide, by decide, by decide, by decide,
      by decide, by decide, by decide⟩,
   C13_read_through_round_trip Nat .fifo 2 (by decide) (by decide) stodDigits storeFile
      [lit "US,New York,8300000"] [] (lit "US,Boston,600000") (lit "US") (lit "Boston")
      (lit "600000") [] 600000 (lit "boston") (lit "us") (lit "BOSTON") (lit "U S") 0 0
      (by decide) (by decide) (by decide) (by decide) (by decide) (by decide) (by decide)
      (by decide) (by decide)⟩

/-- C14: negative results are not cached. For every strategy and every cache
state, when the key of `(city, code)` is not cached and `searchCSV` returns
`false`, the coordinator reports not-found and the cache afterwards is the
cache before (for LFU with the same clock, `freq` and `time` values). This is
so when the file cannot be opened, and when it opens and no record matches
(all records having a numeric third field). -/
theorem C14_negative_results_not_cached (V : Type) (stod : string → Option V)
    (cache : ICacheStrategy V) (city code : string) (idx : Nat)
    (hmiss : cache.find (key city code) = none) :
    (∀ file, (searchCSV file stod city code).result = .returned none →
      lookup file stod cache city code idx = some (cache, .notFound)) ∧
    lookup none stod cache city code idx = some (cache, .notFound) ∧
    (∀ content, (∀ r ∈ records content, hasNumericThird stod r) →
      (∀ r ∈ records content, ¬ recordMatches city code r) →
      lookup (some content) stod cache city code idx = some (cache, .notFound)) := by
  have hmain : ∀ file, (searchCSV file stod city code).result = .returned none →
      lookup file stod cache city code idx = some (cache, .notFound) := by
    intro file hres
    simp [lookup, ICacheStrategy.cache_get_absent cache _ hmiss, hres]
  refine ⟨hmain, hmain none rfl, ?_⟩
  intro content hnum hno
  apply hmain
  rw [searchCSV_eq_scan,
    scanRecords_wellformed stod city code (records content) []
      (wellformed_of_all stod city code _ hnum)]
  have hf : (records content).find? (fun r => decide (recordMatches city code r)) = none := by
    rw [List.find?_eq_none]
    intro r hr
    simpa using hno r hr
  simp [hf]

/-- C14 on the LFU cache holding `A` and `B`: a lookup of `Atlantis` / `ZZ`,
with no file or with the two-record store, reports not-found and leaves the
cache as it was. -/
theorem C14_negative_results_not_cached_witness :
    ((ICacheStrategy.lfu lfuAfterAB).find (key (lit "Atlantis") (lit "ZZ")) = none ∧
      (searchCSV (some storeFile) stodDigits (lit "Atlantis") (lit "ZZ")).result =
        .returned none ∧
      (∀ r ∈ records storeFile, hasNumericThird stodDigits r) ∧
      (∀ r ∈ records storeFile, ¬ recordMatches (lit "Atlantis") (lit "ZZ") r)) ∧
    lookup (some storeFile) stodDigits (.lfu lfuAfterAB) (lit "Atlantis") (lit "ZZ") 0 =
      some (.lfu lfuAfterAB, .notFound) ∧
    lookup none stodDigits (.lfu lfuAfterAB) (lit "Atlantis") (lit "ZZ") 0 =
      some (.lfu lfuAfterAB, .notFound) :=
  ⟨⟨rfl, rfl, by decide, by decide⟩,
   (C14_negative_results_not_cached Nat stodDigits (.lfu lfuAfterAB) (lit "Atlantis")
      (lit "ZZ") 0 rfl).2.2 storeFile (by decide) (by decide),
   (C14_negative_results_not_cached Nat stodDigits (.lfu lfuAfterAB) (lit "Atlantis")
      (lit "ZZ") 0 rfl).2.1⟩

/-- C15 fails: caches with capacity 0 and -1 are built and used. The LFU cache
built with capacity 0 holds two entries after `put(A,1); put(B,2)`, and the
FIFO and random-eviction caches built with capacity -1 hold three entries
after three `put` calls, `get(A)` returning 1. -/
theorem C15_capacity_rejected_counterexample :
    ((LFUCache.new 0 : LFUCache Nat) = { capacity := 0, currentTime := 0, cacheMap := [] } ∧
      (LFUCache.new 0).run putAB = some lfuZeroAfterAB) ∧
    ((FIFOCache.new (-1) : FIFOCache Nat) = { capacity := -1, order := [], cacheMap := [] } ∧
      (FIFOCache.new (-1)).run putABC = some fifoNegativeAfterABC ∧
      (fifoNegativeAfterABC.get keyA).2 = some 1) ∧
    ((RandomCache.new (-1) : RandomCache Nat) = { capacity := -1, cacheMap := [], keys := [] } ∧
      (RandomCache.new (-1)).run drawABC = some randomNegativeAfterABC ∧
      (randomNegativeAfterABC.get keyA).2 = some 1) :=
  ⟨⟨rfl, rfl⟩, ⟨rfl, rfl, rfl⟩, ⟨rfl, rfl, rfl⟩⟩

/-- C15, amended: the constructors check nothing. For every `int` capacity,
also 0 and below, each constructor builds an empty cache with that capacity
(`main` itself only builds caches of capacity 10, and no cache for a choice
other than 1, 2, 3). A cache built with a negative capacity never evicts:
while the map holds fewer than 2^63 entries every `put` of an absent key is
inserted and nothing is removed (for LFU, the clock being below `INT_MAX`). -/
theorem C15_capacity_not_checked (V : Type) (cap : Int) :
    ((LFUCache.new cap : LFUCache V) = { capacity := cap, currentTime := 0, cacheMap := [] } ∧
      (FIFOCache.new cap : FIFOCache V) = { capacity := cap, order := [], cacheMap := [] } ∧
      (RandomCache.new cap : RandomCache V) = { capacity := cap, cacheMap := [], keys := [] }) ∧
    ((selectStrategy 1 : Option (ICacheStrategy V)) = some (.lfu (LFUCache.new 10)) ∧
      (selectStrategy 2 : Option (ICacheStrategy V)) = some (.fifo (FIFOCache.new 10)) ∧
      (selectStrategy 3 : Option (ICacheStrategy V)) = some (.random (RandomCache.new 10)) ∧
      (∀ choice : Int, choice ≠ 1 → choice ≠ 2 → choice ≠ 3 →
        (selectStrategy choice : Option (ICacheStrategy V)) = none)) ∧
    (cap < 0 → -2147483648 ≤ cap →
      (∀ (c : LFUCache V) (key : string) (population : V),
        c.capacity = cap → c.cacheMap.find key = none →
        c.cacheMap.size < 9223372036854775808 → c.currentTime < INT_MAX →
        c.put key population = some { c with
          currentTime := c.currentTime + 1
          cacheMap := c.cacheMap.assign key
            { key := key, population := population, freq := 1,
              time := c.currentTime + 1 } }) ∧
      (∀ (c : FIFOCache V) (key : string) (population : V),
        c.capacity = cap → c.cacheMap.find key = none →
        c.cacheMap.size < 9223372036854775808 →
        c.put key population = some { c with
          order := c.order ++ [key]
          cacheMap := c.cacheMap.assign key population }) ∧
      (∀ (c : RandomCache V) (key : string) (population : V) (idx : Nat),
        c.capacity = cap → c.cacheMap.find key = none →
        c.cacheMap.size < 9223372036854775808 →
        c.put key population idx = some { c with
          cacheMap := c.cacheMap.assign key population
          keys := c.keys ++ [key] })) := by
  refine ⟨⟨rfl, rfl, rfl⟩, ⟨rfl, rfl, rfl, ?_⟩, ?_⟩
  · intro choice c1 c2 c3
    simp [selectStrategy, c1, c2, c3]
  · intro hneg hmin
    have hroom : ∀ n : Nat, n < 9223372036854775808 → sizeEqCapacity n cap = false := by
      intro n hn
      unfold sizeEqCapacity
      rw [decide_eq_false_iff_not]
      omega
    refine ⟨?_, ?_, ?_⟩
    · intro c key population hcap habsent hsize hclock
      have hp := LFUCache.put_absent c key population habsent hclock
      have hr : sizeEqCapacity c.cacheMap.size c.capacity = false := by
        rw [hcap]; exact hroom _ hsize
      rw [hr] at hp
      simpa using hp
    · intro c key population hcap habsent hsize
      exact FIFOCache.fifo_put_absent_room c key population habsent
        (by rw [hcap]; exact hroom _ hsize)
    · intro c key population idx hcap habsent hsize
      exact RandomCache.rnd_put_absent_room c key population idx habsent
        (by rw [hcap]; exact hroom _ hsize)

/-- C15, amended, at capacity -1: the FIFO cache holding `A` and `B` takes `C`
as a third entry. -/
theorem C15_capacity_not_checked_witness :
    ((-1 : Int) < 0 ∧ (-2147483648 : Int) ≤ -1 ∧
      (FIFOCache.new (-1)).run putAB =
        some { capacity := -1, order := [keyA, keyB], cacheMap := [(keyA, 1), (keyB, 2)] } ∧
      ({ capacity := -1, order := [keyA, keyB],
         cacheMap := [(keyA, 1), (keyB, 2)] } : FIFOCache Nat).cacheMap.find keyC = none ∧
      ({ capacity := -1, order := [keyA, keyB],
         cacheMap := [(keyA, 1), (keyB, 2)] } : FIFOCache Nat).cacheMap.size
        < 9223372036854775808) ∧
    ({ capacity := -1, order := [keyA, keyB],
       cacheMap := [(keyA, 1), (keyB, 2)] } : FIFOCache Nat).put keyC 3 =
      some { capacity := -1, order := [keyA, keyB] ++ [keyC],
             cacheMap := unordered_map.assign [(keyA, 1), (keyB, 2)] keyC 3 } :=
  ⟨⟨by decide, by decide, rfl, rfl, by decide⟩,
   ((C15_capacity_not_checked Nat (-1)).2.2 (by decide) (by decide)).2.1
      { capacity := -1, order := [keyA, keyB], cacheMap := [(keyA, 1), (keyB, 2)] } keyC 3
      rfl rfl (by decide)⟩

/-- C16 fails on the code: in the store whose second record is `US,New York`
(two fields), the lookup of `New York` / `US` returns 600000, the third field
of the record before it (`US,Boston,600000`): the third `getline` extracts
nothing and `token` still holds the previous record's field. When the short
record comes first, `token` is empty and `std::stod` throws. -/
theorem C16_short_record_returns_previous_population :
    records shortRecordFile = [lit "US,Boston,600000", lit "US,New York"] ∧
    splitFields (lit "US,New York") = [lit "US", lit "New York"] ∧
    recordMatches (lit "New York") (lit "US") (lit "US,New York") ∧
    ¬ recordMatches (lit "New York") (lit "US") (lit "US,Boston,600000") ∧
    parseRecord (lit "US,New York") (lit "600000") =
      (lit "US", lit "New York", lit "600000") ∧
    searchCSV (some shortRecordFile) stodDigits (lit "New York") (lit "US") =
      { cerr := [], result := .returned (some 600000) } ∧
    searchCSV (some (lit "code,city,population\nUS,New York\n")) stodDigits
      (lit "New York") (lit "US") = { cerr := [], result := .threw } := by
  refine ⟨by decide, by decide, by decide, by decide, by decide, rfl, rfl⟩

/-- C17 fails: the caller cannot tell a file that does not open from a store
without a matching record. For the query `Paris` / `FR`, `searchCSV` returns
`false` both without a file and on the two-record store, and from the same
cache the coordinator reports not-found both times. -/
theorem C17_store_error_distinguishable_counterexample :
    (searchCSV none stodDigits (lit "Paris") (lit "FR")).result = .returned none ∧
    (searchCSV (some storeFile) stodDigits (lit "Paris") (lit "FR")).result =
      .returned none ∧
    lookup none stodDigits (.fifo fifoAfterBoston) (lit "Paris") (lit "FR") 0 =
      some (.fifo fifoAfterBoston, .notFound) ∧
    lookup (some storeFile) stodDigits (.fifo fifoAfterBoston) (lit "Paris") (lit "FR") 0 =
      some (.fifo fifoAfterBoston, .notFound) :=
  ⟨rfl, rfl, rfl, rfl⟩

/-- C17, amended: when the backing file cannot be opened, `searchCSV` writes
`Error opening file.` to `std::cerr` and returns `false`. That is the value it
returns when the file opens and no record matches (all records having a
numeric third field), where it writes nothing to `std::cerr`: the message is
the only difference. In both cases the coordinator, when the key is not
cached, reports not-found and leaves the cache as it was. -/
theorem C17_store_error_returns_false (V : Type) (stod : string → Option V)
    (city code : string) :
    searchCSV none stod city code =
      { cerr := [lit "Error opening file."], result := .returned none } ∧
    (∀ content, (searchCSV (some content) stod city code).cerr = []) ∧
    (∀ content, (∀ r ∈ records content, hasNumericThird stod r) →
      (∀ r ∈ records content, ¬ recordMatches city code r) →
      (searchCSV (some content) stod city code).result =
        (searchCSV none stod city code).result) ∧
    (∀ (cache : ICacheStrategy V) (idx : Nat), cache.find (key city code) = none →
      lookup none stod cache city code idx = some (cache, .notFound) ∧
      ∀ content, (∀ r ∈ records content, hasNumericThird stod r) →
        (∀ r ∈ records content, ¬ recordMatches city code r) →
        lookup (some content) stod cache city code idx =
          lookup none stod cache city code idx) := by
  have hnomatch : ∀ content, (∀ r ∈ records content, hasNumericThird stod r) →
      (∀ r ∈ records content, ¬ recordMatches city code r) →
      (searchCSV (some content) stod city code).result = .returned none := by
    intro content hnum hno
    rw [searchCSV_eq_scan,
      scanRecords_wellformed stod city code (records content) []
        (wellformed_of_all stod city code _ hnum)]
    have hf : (records content).find? (fun r => decide (recordMatches city code r)) = none := by
      rw [List.find?_eq_none]
      intro r hr
      simpa using hno r hr
    simp [hf]
  refine ⟨rfl, ?_, ?_, ?_⟩
  · intro content
    rw [searchCSV_eq_scan]
  · intro content hnum hno
    rw [hnomatch content hnum hno]
    rfl
  · intro cache idx hmiss
    have hl : ∀ file, (searchCSV file stod city code).result = .returned none →
        lookup file stod cache city code idx = some (cache, .notFound) := by
      intro file hres
      simp [lookup, ICacheStrategy.cache_get_absent cache _ hmiss, hres]
    refine ⟨hl none rfl, ?_⟩
    intro content hnum hno
    rw [hl none rfl, hl (some content) (hnomatch content hnum hno)]

/-- C17, amended, for the query `Paris` / `FR` with the two-record store and
the FIFO cache that holds Boston. -/
theorem C17_store_error_returns_false_witness :
    ((∀ r ∈ records storeFile, hasNumericThird stodDigits r) ∧
      (∀ r ∈ records storeFile, ¬ recordMatches (lit "Paris") (lit "FR") r) ∧
      (ICacheStrategy.fifo fifoAfterBoston).find (key (lit "Paris") (lit "FR")) = none) ∧
    (searchCSV (some storeFile) stodDigits (lit "Paris") (lit "FR")).result =
      (searchCSV none stodDigits (lit "Paris") (lit "FR")).result ∧
    lookup none stodDigits (.fifo fifoAfterBoston) (lit "Paris") (lit "FR") 0 =
      some (.fifo fifoAfterBoston, .notFound) ∧
    lookup (some storeFile) stodDigits (.fifo fifoAfterBoston) (lit "Paris") (lit "FR") 0 =
      lookup none stodDigits (.fifo fifoAfterBoston) (lit "Paris") (lit "FR") 0 :=
  ⟨⟨by decide, by decide, rfl⟩,
   (C17_store_error_returns_false Nat stodDigits (lit "Paris") (lit "FR")).2.2.1 storeFile
      (by decide) (by decide),
   ((C17_store_error_returns_false Nat stodDigits (lit "Paris") (lit "FR")).2.2.2
      (.fifo fifoAfterBoston) 0 rfl).1,
   ((C17_store_error_returns_false Nat stodDigits (lit "Paris") (lit "FR")).2.2.2
      (.fifo fifoAfterBoston) 0 rfl).2 storeFile (by decide) (by decide)⟩

/-- C18: index lockstep. In every state reached from empty with capacity
`cap ≥ 1`, the FIFO queue lists exactly the keys of the map, each exactly once
(the map holds no key twice either), in the order in which they were admitted,
and the key list of the random-eviction cache holds exactly the keys of its
map, each exactly once; so the queue or list length equals the map size. -/
theorem C18_index_lockstep (V : Type) (cap : Int) (h1 : 1 ≤ cap) (hmax : cap ≤ INT_MAX) :
    (∀ (ops : List (Op V)) (c : FIFOCache V),
      (FIFOCache.new cap).run ops = some c →
      c.order.Nodup ∧ c.cacheMap.keys.Nodup ∧
      (∀ k, k ∈ c.order ↔ (c.cacheMap.find k).isSome) ∧
      c.order.Perm c.cacheMap.keys ∧
      c.order.length = c.cacheMap.size ∧
      c.order.Pairwise (fun a b => ∃ i j,
        FIFOCache.admittedAt cap ops a = some i ∧
        FIFOCache.admittedAt cap ops b = some j ∧ i < j)) ∧
    (∀ (ops : List (DrawOp V)) (c : RandomCache V),
      (RandomCache.new cap).run ops = some c →
      c.keys.Nodup ∧ c.cacheMap.keys.Nodup ∧
      (∀ k, k ∈ c.keys ↔ (c.cacheMap.find k).isSome) ∧
      c.keys.Perm c.cacheMap.keys ∧
      c.keys.length = c.cacheMap.size) := by
  refine ⟨?_, ?_⟩
  · intro ops c hrun
    have hghost := FIFOCache.Ghost.fifo_ghost_run (by omega) hmax ops
      (FIFOCache.ghost_new (V := V) cap (by omega)) hrun
    have hwf := hghost.wf
    refine ⟨hwf.nodup, hwf.fifo_keys_nodup, ?_, hwf.lockstep, hwf.length_order, ?_⟩
    · intro k
      rw [hwf.mem_order_iff k, Option.ne_none_iff_isSome]
    · refine hghost.sorted.imp_of_mem ?_
      intro a b ha hb hab
      obtain ⟨x, hx⟩ := Option.ne_none_iff_exists'.mp ((hwf.mem_order_iff a).mp ha)
      obtain ⟨y, hy⟩ := Option.ne_none_iff_exists'.mp ((hwf.mem_order_iff b).mp hb)
      obtain ⟨i, _, hi⟩ := hghost.cached a x hx
      obtain ⟨j, _, hj⟩ := hghost.cached b y hy
      exact ⟨i, j, by simp [FIFOCache.admittedAt, hi], by simp [FIFOCache.admittedAt, hj],
        hab _ _ hi hj⟩
  · intro ops c hrun
    have hwf := RandomCache.WF.rnd_run (by omega) hmax ops
      (RandomCache.rnd_wf_new (V := V) cap (by omega)) hrun
    refine ⟨hwf.nodup, hwf.rnd_keys_nodup, ?_, hwf.lockstep, hwf.length_keys⟩
    intro k
    rw [hwf.mem_keys_iff k, Option.ne_none_iff_isSome]

/-- C18 at capacity 2 after `put(A,1); put(B,2); put(C,3)`: queue and key list
mirror the maps. -/
theorem C18_index_lockstep_witness :
    ((1 : Int) ≤ 2 ∧ (2 : Int) ≤ INT_MAX) ∧
    ((FIFOCache.new 2).run putABC = some fifoAfterABC ∧
      fifoAfterABC.order.Nodup ∧ fifoAfterABC.cacheMap.keys.Nodup ∧
      (∀ k, k ∈ fifoAfterABC.order ↔ (fifoAfterABC.cacheMap.find k).isSome) ∧
      fifoAfterABC.order.Perm fifoAfterABC.cacheMap.keys ∧
      fifoAfterABC.order.length = fifoAfterABC.cacheMap.size ∧
      fifoAfterABC.order.Pairwise (fun a b => ∃ i j,
        FIFOCache.admittedAt 2 putABC a = some i ∧
        FIFOCache.admittedAt 2 putABC b = some j ∧ i < j)) ∧
    ((RandomCache.new 2).run drawABC = some randomAfterABC ∧
      randomAfterABC.keys.Nodup ∧ randomAfterABC.cacheMap.keys.Nodup ∧
      (∀ k, k ∈ randomAfterABC.keys ↔ (randomAfterABC.cacheMap.find k).isSome) ∧
      randomAfterABC.keys.Perm randomAfterABC.cacheMap.keys ∧
      randomAfterABC.keys.length = randomAfterABC.cacheMap.size) :=
  ⟨⟨by decide, by decide⟩,
   ⟨rfl, (C18_index_lockstep Nat 2 (by decide) (by decide)).1 putABC fifoAfterABC rfl⟩,
   ⟨rfl, (C18_index_lockstep Nat 2 (by decide) (by decide)).2 drawABC randomAfterABC rfl⟩⟩

/-- C19: in every LFU state reachable from empty with capacity `cap ≥ 1` (a
reachable state is one reached without `int` overflow), every entry has
`freq ≥ 1` and `1 ≤ time ≤ T`, and distinct keys carry different time stamps;
so when the cache is full and the clock is below `INT_MAX` the entry the
eviction scan picks is strictly below every other entry in the order
(`freq`, then `time`), and the scan picks the same key in every iteration
order of the map. -/
theorem C19_lfu_stamps_unique_victim_unique (V : Type) (cap : Int) (h1 : 1 ≤ cap)
    (hmax : cap ≤ INT_MAX) (ops : List (Op V)) (c : LFUCache V)
    (hreach : LFUCache.Reaches cap ops c) :
    (∀ k e, c.cacheMap.find k = some e →
      1 ≤ e.freq ∧ 1 ≤ e.time ∧ e.time ≤ c.currentTime) ∧
    (∀ k1 k2 e1 e2, c.cacheMap.find k1 = some e1 → c.cacheMap.find k2 = some e2 →
      k1 ≠ k2 → e1.time ≠ e2.time) ∧
    ((c.cacheMap.size : Int) = cap → c.currentTime < INT_MAX →
      ∃ victim, c.cacheMap.find (LFUCache.scan c.cacheMap).evictKey = some victim ∧
        (∀ k e, c.cacheMap.find k = some e → k ≠ (LFUCache.scan c.cacheMap).evictKey →
          victim.freq < e.freq ∨ (victim.freq = e.freq ∧ victim.time < e.time)) ∧
        ∀ m : unordered_map (CacheEntry V), m.Perm c.cacheMap →
          (LFUCache.scan m).evictKey = (LFUCache.scan c.cacheMap).evictKey) := by
  have hwf := hreach.wf h1 hmax
  refine ⟨?_, ?_, ?_⟩
  · intro k e he
    have := hwf.entries k e he
    omega
  · intro k1 k2 e1 e2 he1 he2 hne heq
    exact hne (hwf.times k1 k2 e1 e2 he1 he2 heq)
  · intro hfull hclock
    obtain ⟨victim, hv, hmin⟩ := hwf.scan_least h1 hfull hclock
    refine ⟨victim, hv, hmin, ?_⟩
    intro m hm
    have hsame : LFUCache.SameUpToOrder c { c with cacheMap := m } :=
      ⟨rfl, rfl, hm.symm⟩
    exact (LFUCache.scan_sameUpToOrder h1 hwf hsame hfull hclock).symm

/-- C19 at capacity 2 after `put(A,1); put(B,2)`: the full cache has stamps 1
and 2 and the scan picks the same key in every order. -/
theorem C19_lfu_stamps_unique_victim_unique_witness :
    ((1 : Int) ≤ 2 ∧ (2 : Int) ≤ INT_MAX ∧ LFUCache.Reaches 2 putAB lfuAfterAB) ∧
    ((∀ k e, lfuAfterAB.cacheMap.find k = some e →
      1 ≤ e.freq ∧ 1 ≤ e.time ∧ e.time ≤ lfuAfterAB.currentTime) ∧
    (∀ k1 k2 e1 e2, lfuAfterAB.cacheMap.find k1 = some e1 →
      lfuAfterAB.cacheMap.find k2 = some e2 → k1 ≠ k2 → e1.time ≠ e2.time) ∧
    ((lfuAfterAB.cacheMap.size : Int) = 2 → lfuAfterAB.currentTime < INT_MAX →
      ∃ victim,
        lfuAfterAB.cacheMap.find (LFUCache.scan lfuAfterAB.cacheMap).evictKey = some victim ∧
        (∀ k e, lfuAfterAB.cacheMap.find k = some e →
          k ≠ (LFUCache.scan lfuAfterAB.cacheMap).evictKey →
          victim.freq < e.freq ∨ (victim.freq = e.freq ∧ victim.time < e.time)) ∧
        ∀ m : unordered_map (CacheEntry Nat), m.Perm lfuAfterAB.cacheMap →
          (LFUCache.scan m).evictKey = (LFUCache.scan lfuAfterAB.cacheMap).evictKey)) :=
  ⟨⟨by decide, by decide, LFUCache.run_reaches putAB rfl⟩,
   C19_lfu_stamps_unique_victim_unique Nat 2 (by decide) (by decide) putAB lfuAfterAB
      (LFUCache.run_reaches putAB rfl)⟩

/-- C20: cache transparency. Fix the store (a file content, or no file that
opens) and the number parser. For every strategy with capacity `cap ≥ 1`,
starting from an empty cache and running any sequence of coordinator lookups
(as far as the program gets), each reply agrees with a direct `searchCSV` of
its query: it reports population `p`, as cache hit or from the file, exactly
when `searchCSV` returns `p`, and not-found exactly when `searchCSV` returns
`false`. Every cached entry has the key of a query for which `searchCSV`
returns the cached population, and two queries that share the key of a cached
entry agree in normalized city and code. The lookups are defined while the LFU
clock cannot overflow and random draws are below `cap`. The function `key`
itself is not injective: `("c", "a,b")` and `("b,c", "a")` have the same key. -/
theorem C20_cache_transparency (V : Type) (kind : StrategyKind) (cap : Int)
    (h1 : 1 ≤ cap) (hmax : cap ≤ INT_MAX) (file : Option string) (stod : string → Option V) :
    (∀ (qs : List Query) (cache : ICacheStrategy V) (replies : List (Reply V)),
      lookups file stod (ICacheStrategy.new kind cap) qs = some (cache, replies) →
      replies.length ≤ qs.length ∧
      (∀ (i : Nat) (q : Query) (r : Reply V),
        qs[i]? = some q → replies[i]? = some r → Agrees file stod q r) ∧
      StoreBacked file stod cache ∧
      (∀ city code city2 code2 p, cache.find (key city code) = some p →
        key city2 code2 = key city code →
        normalize city2 = normalize city ∧ normalize code2 = normalize code)) ∧
    (∀ qs : List Query, (kind = .lfu → (qs.length : Int) ≤ INT_MAX) →
      (kind = .random → ∀ q ∈ qs, (q.idx : Int) < cap) →
      ∃ res, lookups file stod (ICacheStrategy.new kind cap : ICacheStrategy V) qs = some res) ∧
    (key (lit "c") (lit "a,b") = key (lit "b,c") (lit "a") ∧
      normalize (lit "a,b") ≠ normalize (lit "a") ∧
      normalize (lit "c") ≠ normalize (lit "b,c")) := by
  refine ⟨?_, ?_, by decide, by decide, by decide⟩
  · intro qs cache replies hrun
    obtain ⟨hb, hlen, hall⟩ := lookups_spec file stod qs _ cache replies
      (storeBacked_new file stod kind cap) hrun
    refine ⟨hlen, hall, hb, ?_⟩
    intro city code city2 code2 p hf hk
    obtain ⟨city0, code0, hk0, hr0⟩ := hb _ p hf
    obtain ⟨a1, a2, _⟩ := same_key_same_answer file stod city0 code0 city code p hr0 hk0
    obtain ⟨b1, b2, _⟩ := same_key_same_answer file stod city0 code0 city2 code2 p hr0
      (hk.trans hk0)
    exact ⟨b1.trans a1.symm, b2.trans a2.symm⟩
  · intro qs hlfu hrnd
    refine lookups_isSome file stod cap h1 hmax qs _ (wf_cache_new kind cap (by omega)) ?_ ?_
    · intro hk
      have hkind : kind = .lfu := by
        cases kind <;> first | rfl | cases hk
      subst hkind
      simpa [ICacheStrategy.new, ICacheStrategy.clock, LFUCache.new] using hlfu rfl
    · intro hk
      have hkind : kind = .random := by
        cases kind <;> first | rfl | cases hk
      exact hrnd hkind

/-- C20 on the two-record store with a FIFO cache of capacity 2: `boston` /
`us` is answered from the file, `BOSTON` / `U S` from the cache, `Atlantis` /
`ZZ` is not found; each reply agrees with the direct store lookup. -/
theorem C20_cache_transparency_witness :
    ((1 : Int) ≤ 2 ∧ (2 : Int) ≤ INT_MAX ∧
      lookups (some storeFile) stodDigits (ICacheStrategy.new .fifo 2) exampleQueries =
        some (.fifo fifoAfterBoston, [.csvLookup 600000, .cacheHit 600000, .notFound])) ∧
    ([Reply.csvLookup 600000, Reply.cacheHit 600000, Reply.notFound].length
        ≤ exampleQueries.length ∧
      (∀ (i : Nat) (q : Query) (r : Reply Nat),
        exampleQueries[i]? = some q →
        [Reply.csvLookup 600000, Reply.cacheHit 600000, Reply.notFound][i]? = some r →
        Agrees (some storeFile) stodDigits q r) ∧
      StoreBacked (some storeFile) stodDigits (.fifo fifoAfterBoston) ∧
      (∀ city code city2 code2 p,
        (ICacheStrategy.fifo fifoAfterBoston).find (key city code) = some p →
        key city2 code2 = key city code →
        normalize city2 = normalize city ∧ normalize code2 = normalize code)) :=
  ⟨⟨by decide, by decide, rfl⟩,
   (C20_cache_transparency Nat .fifo 2 (by decide) (by decide) (some storeFile)
      stodDigits).1 exampleQueries (.fifo fifoAfterBoston)
      [.csvLookup 600000, .cacheHit 600000, .notFound] rfl⟩

end CityCache
